import Mathlib

/-!
Shallow embedding of the radish IPv4 stack (checksum, packet view, builder,
fragmentation, reassembly, interface receive path, option iteration).

Byte buffers are `List Nat` whose elements are byte values (< 256 where the
Rust type system guarantees `u8`).  Reads that would panic in Rust
(out-of-bounds indexing) are modelled either totally (`byteAt`, returning 0)
in contexts where every caller is in bounds, or with an explicit `Option`
layer where a claim is about panic behaviour.  Machine-integer casts are
modelled with explicit `% 2^w`.
-/

namespace Radish

/-- Read byte `i` of a buffer.  Total model of `buf[i]`; every use site in the
theorems below is guarded by bounds hypotheses matching the Rust callers. -/
def byteAt (l : List Nat) (i : Nat) : Nat := l.getD i 0

/-! ## Internet checksum (src/checksum/mod.rs)

The Rust folding loop `while sum > 0xffff { sum = (sum & 0xffff) + (sum >> 16) }`
is embedded with explicit fuel; every iteration strictly decreases `sum`, so
fuel `s` always suffices for a starting value `s` (proved below). -/

/-- One fold step plus recursion: fuel-indexed embedding of the carry fold. -/
def foldLoop : Nat → Nat → Nat
  | 0, s => s
  | fuel + 1, s => if s > 0xffff then foldLoop fuel ((s &&& 0xffff) + (s >>> 16)) else s

/-- Sum of the 16-bit big-endian word pairs: embedding of the first `while`
loop of `checksum`, which walks index pairs `(0,1), (2,3), …`; recursion on
the list two elements at a time is the same traversal. -/
def sumWords : List Nat → Nat
  | a :: b :: rest => ((a <<< 8) ||| b) + sumWords rest
  | [a] => a <<< 8
  | [] => 0

/-- Computing the Internet Checksum (RFC 1071): embedding of `checksum`.
The final `!sum as u16` is `(2^64 - 1 - sum) % 2^16`. -/
def checksum (data : List Nat) : Nat :=
  let s := sumWords data
  let folded := foldLoop s s
  (2 ^ 64 - 1 - folded) % 2 ^ 16

/-! ## Protocol enum (c_like_enum! in src/ipv4/packet.rs) -/

/-- Assigned internet protocol numbers, with unknown values preserved
(`c_like_enum!` adds the `Unknown` variant). -/
inductive Protocol
  | Icmp
  | Tcp
  | Udp
  | Unknown (raw : Nat)
  deriving DecidableEq, Repr

/-- From<u8> for Protocol. -/
def Protocol.ofByte (b : Nat) : Protocol :=
  match b with
  | 1 => .Icmp
  | 6 => .Tcp
  | 17 => .Udp
  | raw => .Unknown raw

/-- From<Protocol> for u8. -/
def Protocol.toByte : Protocol → Nat
  | .Icmp => 1
  | .Tcp => 6
  | .Udp => 17
  | .Unknown raw => raw

/-! ## IPv4 packet view getters (src/ipv4/packet.rs) -/

def version (l : List Nat) : Nat := byteAt l 0 >>> 4

def header_len (l : List Nat) : Nat := byteAt l 0 &&& 0x0f

def tos (l : List Nat) : Nat := byteAt l 1

def total_len (l : List Nat) : Nat := byteAt l 2 * 256 + byteAt l 3

def identification (l : List Nat) : Nat := byteAt l 4 * 256 + byteAt l 5

def flagsOf (l : List Nat) : Nat := byteAt l 6 >>> 5

def offsetOf (l : List Nat) : Nat := (byteAt l 6 * 256 + byteAt l 7) &&& 0x1fff

def ttl (l : List Nat) : Nat := byteAt l 8

def protocolByte (l : List Nat) : Nat := byteAt l 9

def checksumField (l : List Nat) : Nat := byteAt l 10 * 256 + byteAt l 11

def src_addr (l : List Nat) : Nat :=
  ((byteAt l 12 * 256 + byteAt l 13) * 256 + byteAt l 14) * 256 + byteAt l 15

def dest_addr (l : List Nat) : Nat :=
  ((byteAt l 16 * 256 + byteAt l 17) * 256 + byteAt l 18) * 256 + byteAt l 19

/-- Bytes after `header_len * 4`.  In Rust the slice `&buf[h*4..]` panics when
`h*4 > buf.len()`; callers below are guarded by that bound, under which
`List.drop` agrees with the slice. -/
def payload (l : List Nat) : List Nat := l.drop (4 * header_len l)

/-- Modelled from the spec: `more_fragments` (used by the reassembler and the
interface but not defined under src/); MF is the lowest bit of the 3-bit
flags field. -/
def more_fragments (l : List Nat) : Bool := flagsOf l &&& 0b001 = 0b001

/-- Modelled from the spec: `dont_fragment` (used by `Interface::send` but not
defined under src/); DF is the middle bit of the 3-bit flags field. -/
def dont_fragment (l : List Nat) : Bool := flagsOf l &&& 0b010 = 0b010

/-- Index of the first octet of a fragment (`offset() * 8`; fits in u16 since
the offset field is 13 bits). -/
def firstOctet (l : List Nat) : Nat := offsetOf l * 8

/-- Index of the last octet: `first() + payload().len() as u16 - 1` computed
in wrapping u16 arithmetic. -/
def lastOctet (l : List Nat) : Nat :=
  (firstOctet l + (payload l).length % 2 ^ 16 + (2 ^ 16 - 1)) % 2 ^ 16

/-- DatagramId (src/ipv4/reassembly.rs): the 128-bit reassembly key. -/
def datagram_id (l : List Nat) : Nat :=
  (identification l <<< 72) ||| ((Protocol.ofByte (protocolByte l)).toByte <<< 64) |||
    (src_addr l <<< 32) ||| dest_addr l

/-! ## IPv4 packet view setters (src/ipv4/packet.rs)

Each setter mirrors the corresponding Rust method; `to_be_bytes` of a `u16`
value `v` is the byte pair `(v / 256 % 256, v % 256)`. -/

/-- Modelled from the spec: `set_version` (used by `build_vec` but not defined
under src/); writes the 4-bit version into the high nibble of byte 0. -/
def set_version (l : List Nat) (v : Nat) : List Nat :=
  l.set 0 ((byteAt l 0 &&& 0x0f) ||| (v % 16) <<< 4)

def set_header_len (l : List Nat) (h : Nat) : List Nat :=
  l.set 0 ((byteAt l 0 &&& 0xf0) ||| (h &&& 0x0f))

def set_tos (l : List Nat) (v : Nat) : List Nat := l.set 1 (v % 256)

def set_total_len (l : List Nat) (v : Nat) : List Nat :=
  (l.set 2 (v / 256 % 256)).set 3 (v % 256)

def set_identification (l : List Nat) (v : Nat) : List Nat :=
  (l.set 4 (v / 256 % 256)).set 5 (v % 256)

def set_flags (l : List Nat) (f : Nat) : List Nat :=
  l.set 6 ((byteAt l 6 &&& 0x1f) ||| (f <<< 5) % 256)

def set_offset (l : List Nat) (v : Nat) : List Nat :=
  ((l.set 6 ((byteAt l 6 &&& 0xe0) ||| (v / 256 % 256 &&& 0x1f)))).set 7 (v % 256)

def set_ttl (l : List Nat) (v : Nat) : List Nat := l.set 8 (v % 256)

def set_protocol (l : List Nat) (p : Protocol) : List Nat := l.set 9 (p.toByte % 256)

def set_checksum (l : List Nat) (v : Nat) : List Nat :=
  (l.set 10 (v / 256 % 256)).set 11 (v % 256)

def set_src_addr (l : List Nat) (a : Nat) : List Nat :=
  ((((l.set 12 (a / 2 ^ 24 % 256)).set 13 (a / 2 ^ 16 % 256)).set 14
      (a / 2 ^ 8 % 256)).set 15 (a % 256))

def set_dest_addr (l : List Nat) (a : Nat) : List Nat :=
  ((((l.set 16 (a / 2 ^ 24 % 256)).set 17 (a / 2 ^ 16 % 256)).set 18
      (a / 2 ^ 8 % 256)).set 19 (a % 256))

/-! ## PacketBuilder (src/ipv4/builder.rs) -/

/-- Builder configuration.  Fields are the numeric contents of the Rust
struct; addresses are 32-bit big-endian values, `protocol` is kept as the
enum as in the source. -/
structure BuilderCfg where
  version : Nat := 4
  header_len : Nat := 5
  tos : Nat := 0
  total_len : Nat := 0
  identification : Nat := 0
  flags : Nat := 0
  offset : Nat := 0
  ttl : Nat := 0
  protocol : Protocol := .Unknown 0
  checksum : Nat := 0
  src_addr : Nat := 0
  dest_addr : Nat := 0
  payload : List Nat := []
  deriving Repr

/-- Embedding of `PacketBuilder::build_vec`.  Note the Rust source passes the
whole packet (`packet.as_ref()`, header plus payload) to `checksum` when the
checksum sentinel is 0. -/
def build_vec (cfg : BuilderCfg) : List Nat :=
  let totalLen :=
    if cfg.total_len = 0 then (cfg.header_len * 4 % 256 + cfg.payload.length) % 2 ^ 16
    else cfg.total_len
  let buffer := List.replicate (cfg.header_len * 4 % 256) 0 ++ cfg.payload
  let b := set_version buffer cfg.version
  let b := set_header_len b cfg.header_len
  let b := set_tos b cfg.tos
  let b := set_total_len b totalLen
  let b := set_identification b cfg.identification
  let b := set_flags b cfg.flags
  let b := set_offset b cfg.offset
  let b := set_ttl b cfg.ttl
  let b := set_protocol b cfg.protocol
  let b := set_checksum b cfg.checksum
  let b := set_src_addr b cfg.src_addr
  let b := set_dest_addr b cfg.dest_addr
  if cfg.checksum = 0 then set_checksum b (checksum b) else b

/-! ## Fragmentation (src/ipv4/fragmentation.rs)

`FragmentIterator::next` is embedded as a fuel-indexed recursion producing the
list of fragment buffers; within each step the cursor advances by
`payload_len`, which is at least 1 whenever `mtu ≥ 28` (so fuel
`buffer.length + 1` always suffices; for smaller MTUs the Rust iterator never
terminates, a case outside every claim, where the fuel runs out). -/

/-- Fragment built at one iterator step, for the given cursor. -/
def fragmentAt (buffer : List Nat) (mtu cursor : Nat) : List Nat :=
  let minHeaderBytes := 20
  let remaining := buffer.length - cursor
  let isLast := remaining < mtu - minHeaderBytes
  let nfb := (mtu - minHeaderBytes) / 8
  let payload_len := if isLast then remaining else nfb * 8
  let frPayload := (buffer.drop cursor).take payload_len
  let oflags := flagsOf buffer
  let flags := if ¬isLast then oflags ||| 0b001 else oflags
  let realHeaderBytes := header_len buffer * 4
  let fragment_offset := offsetOf buffer + (cursor - realHeaderBytes) / 8
  build_vec
    { header_len := 5
      tos := tos buffer
      total_len := (20 + payload_len) % 2 ^ 16
      identification := identification buffer
      flags := flags
      offset := fragment_offset % 2 ^ 16
      ttl := ttl buffer
      protocol := Protocol.ofByte (protocolByte buffer)
      src_addr := src_addr buffer
      dest_addr := dest_addr buffer
      payload := frPayload }

/-- Payload length consumed at one iterator step. -/
def stepLen (buffer : List Nat) (mtu cursor : Nat) : Nat :=
  let remaining := buffer.length - cursor
  if remaining < mtu - 20 then remaining else (mtu - 20) / 8 * 8

/-- Fuel-indexed iteration of `FragmentIterator::next`. -/
def fragmentsAux : Nat → List Nat → Nat → Nat → List (List Nat)
  | 0, _, _, _ => []
  | fuel + 1, buffer, mtu, cursor =>
    if cursor ≥ buffer.length then []
    else
      fragmentAt buffer mtu cursor ::
        fragmentsAux fuel buffer mtu (cursor + stepLen buffer mtu cursor)

/-- `Packet::fragments(mtu)`: iterate from `header_len*4` over
`buffer[..total_len]`. -/
def fragments (l : List Nat) (mtu : Nat) : List (List Nat) :=
  let buffer := l.take (total_len l)
  fragmentsAux (buffer.length + 1) buffer mtu (header_len buffer * 4)

/-! ## Reassembly (src/ipv4/reassembly.rs) -/

/-- A hole descriptor `(first, last)`, inclusive octet indices. -/
structure Hole where
  first : Nat
  last : Nat
  deriving DecidableEq, Repr

/-- The reassembly context for one datagram id (the timer field is omitted:
it only drives asynchronous eviction, which no claim below is about). -/
structure IncompleteDatagram where
  holes : List Hole
  fragments : List (List Nat)
  total_data_len : Nat
  deriving DecidableEq, Repr

/-- Default context: one hole `(0, 0xFFFF)`, no fragments. -/
def IncompleteDatagram.default : IncompleteDatagram :=
  { holes := [⟨0, 0xffff⟩], fragments := [], total_data_len := 0 }

/-- The `find_hole_fn` predicate of `insert`. -/
def holeIntersects (first last : Nat) (h : Hole) : Bool :=
  first ≤ h.last && last ≥ h.first

/-- Splitting of one hole by the fragment `[first, last]` with the given MF
bit, as performed inside the `while` loop. -/
def splitHole (first last : Nat) (mf : Bool) (h : Hole) : List Hole :=
  (if first > h.first then [⟨h.first, first - 1⟩] else []) ++
    (if last < h.last ∧ mf then [⟨last + 1, h.last⟩] else [])

/-- Fuel-indexed embedding of the `while let Some(position) = …` loop: find
the first intersecting hole, splice its split parts in place, repeat.  Each
iteration removes one intersecting hole and inserts only non-intersecting
ones, so fuel `holes.length` suffices (proved below).  Also returns the
`filled` flag. -/
def fillLoop (first last : Nat) (mf : Bool) : Nat → List Hole → Bool → List Hole × Bool
  | 0, holes, filled => (holes, filled)
  | fuel + 1, holes, filled =>
    match holes.findIdx? (fun h => holeIntersects first last h) with
    | none => (holes, filled)
    | some position =>
      let hole := (holes.get? position).getD ⟨0, 0⟩
      let newHoles := splitHole first last mf hole
      fillLoop first last mf fuel
        (holes.take position ++ newHoles ++ holes.drop (position + 1)) true

/-- Embedding of `IncompleteDatagram::insert`.  `total_data_len` is
`fragment.total_len() - header_len*4 + first` in u16 arithmetic; the
subtraction and addition are exact for the validated fragments every claim
quantifies over (hypotheses make this explicit). -/
def IncompleteDatagram.insert (st : IncompleteDatagram) (fragment : List Nat) :
    IncompleteDatagram :=
  let mf := more_fragments fragment
  let first := firstOctet fragment
  let last := lastOctet fragment
  let tdl :=
    if ¬mf then
      (total_len fragment + 2 ^ 16 - header_len fragment * 4 % 2 ^ 16 + first) % 2 ^ 16
    else st.total_data_len
  let (holes, filled) := fillLoop first last mf st.holes.length st.holes false
  let frags :=
    if filled then
      match st.fragments.findIdx? (fun frag => firstOctet frag > first) with
      | some position => st.fragments.insertIdx position fragment
      | none => st.fragments ++ [fragment]
    else st.fragments
  { holes := holes, fragments := frags, total_data_len := tdl }

/-- The assembly loop of `complete`: walk fragments in stored order with an
`end` cursor, skipping octets already emitted.  The `debug_assert!` calls are
compiled out in release builds and have no effect on the result.  Rust's
slice `payload[(start - first)..(end - first)]` is modelled with
`drop`/`take`; every use below is in bounds. -/
def assembleLoop : List (List Nat) → Nat → List Nat → List Nat
  | [], _, acc => acc
  | fragment :: rest, e, acc =>
    let first := firstOctet fragment
    let last := lastOctet fragment
    if last < e then assembleLoop rest e acc
    else
      let start := e
      let e' := last + 1
      assembleLoop rest e'
        (acc ++ ((payload fragment).drop (start - first)).take (e' - start))

/-- Embedding of `IncompleteDatagram::complete`. -/
def IncompleteDatagram.complete (st : IncompleteDatagram) : Option (List Nat) :=
  if st.holes ≠ [] then none
  else
    match st.fragments.head? with
    | none => none
    | some first_fragment =>
      let payloadBytes := assembleLoop st.fragments 0 []
      some <| build_vec
        { header_len := header_len first_fragment
          tos := tos first_fragment
          total_len := (header_len first_fragment * 4 + st.total_data_len) % 2 ^ 16
          identification := identification first_fragment
          flags := flagsOf first_fragment &&& 0xfe
          offset := 0
          ttl := ttl first_fragment
          protocol := Protocol.ofByte (protocolByte first_fragment)
          src_addr := src_addr first_fragment
          dest_addr := dest_addr first_fragment
          payload := payloadBytes }

/-- One `Reassembler::reassemble` call for a single datagram id: the map entry
is `none` when absent.  Timer scheduling only affects asynchronous eviction
and is omitted.  Returns the new entry and the completed datagram, if any. -/
def reassembleStep (entry : Option IncompleteDatagram) (fragment : List Nat) :
    Option IncompleteDatagram × Option (List Nat) :=
  let st := (entry.getD IncompleteDatagram.default).insert fragment
  match st.complete with
  | some datagram => (none, some datagram)
  | none => (some st, none)

/-- Feed a sequence of fragments (all with the same datagram id) through
`reassemble`, collecting the per-call results. -/
def runSeq : Option IncompleteDatagram → List (List Nat) →
    Option IncompleteDatagram × List (Option (List Nat))
  | entry, [] => (entry, [])
  | entry, fragment :: rest =>
    let (entry', out) := reassembleStep entry fragment
    let (entryFinal, outs) := runSeq entry' rest
    (entryFinal, out :: outs)

/-! ## Checked construction and the interface receive path
(src/ipv4/packet.rs, src/ipv4/interface.rs)

Rust panics (out-of-bounds indexing) are modelled by `Option.none` at this
layer, so that claims about non-panicking behaviour are statable. -/

/-- IPv4 error kinds (src/ipv4/error.rs). -/
inductive Ipv4Error
  | InvalidVersion
  | InvalidHeaderLen
  | InvalidTotalLen
  | InvalidChecksum
  | InvalidOptionLen
  | NonFragmentablePacket
  | TryAgainLater
  deriving DecidableEq, Repr

/-- Embedding of `Packet::new_checked`: `check_version` reads byte 0; then
`check_len` reads `header_len` (byte 0) and `total_len` (bytes 2 and 3) both
before comparing either, so a buffer of length < 4 whose version nibble is 4
panics.  `none` models the panic. -/
def new_checked (buf : List Nat) : Option (Except Ipv4Error Unit) :=
  match buf.get? 0 with
  | none => none
  | some b0 =>
    if b0 >>> 4 ≠ 4 then some (.error .InvalidVersion)
    else
      match buf.get? 2, buf.get? 3 with
      | some b2, some b3 =>
        if b0 &&& 0x0f < 5 then some (.error .InvalidHeaderLen)
        else if b2 * 256 + b3 ≠ buf.length then some (.error .InvalidTotalLen)
        else some (.ok ())
      | _, _ => none

/-- Outcome of `Interface::receive` on one inbound buffer, up to the
reassembler hand-off (`fragment` is the case that forwards to
`Reassembler::reassemble`; `whole` returns the datagram directly after the
defensive `release`).  `crash` models a Rust panic. -/
inductive RecvOutcome
  | crash
  | err (e : Ipv4Error)
  | whole (datagram : List Nat)
  | fragment (packet : List Nat)
  deriving DecidableEq, Repr

/-- Embedding of `Interface::receive` after the device read returned `buf`:
validate with `new_checked`, then compare the stored checksum field against
`checksum(&buf[..header_len*4])` — note the Rust source does not zero the
checksum bytes before this computation.  The slice panics when
`header_len*4 > buf.len()`. -/
def receiveStep (buf : List Nat) : RecvOutcome :=
  match new_checked buf with
  | none => .crash
  | some (.error e) => .err e
  | some (.ok ()) =>
    if header_len buf * 4 > buf.length then .crash
    else
      let checksum_value := checksum (buf.take (header_len buf * 4))
      if checksumField buf ≠ checksum_value then .err .InvalidChecksum
      else if offsetOf buf = 0 ∧ ¬more_fragments buf then .whole buf
      else .fragment buf

/-- RFC 791/1071 header-checksum verification, as the spec states it: the
checksum computed over the header span with the checksum field zeroed equals
the stored checksum field. -/
def headerVerifies (buf : List Nat) : Bool :=
  let header := buf.take (header_len buf * 4)
  let zeroed := (header.set 10 0).set 11 0
  checksum zeroed = checksumField buf

/-! ## Option iteration (src/ipv4/packet.rs) -/

/-- Option kinds predefined in RFC 791. -/
inductive OptionKind
  | End
  | NoOperation
  | Security
  | LooseSourceRouting
  | StrictSourceRouting
  | RecordRoute
  | StreamId
  | Timestamp
  | Unknown
  deriving DecidableEq, Repr

/-- `Option::kind` from the type byte: class is bits 5–6, number is bits 0–4. -/
def kindOfByte (b : Nat) : OptionKind :=
  match (b &&& 0b01100000) >>> 5, b &&& 0b00011111 with
  | 0, 0 => .End
  | 0, 1 => .NoOperation
  | 0, 2 => .Security
  | 0, 3 => .LooseSourceRouting
  | 0, 7 => .RecordRoute
  | 0, 8 => .StreamId
  | 0, 9 => .StrictSourceRouting
  | 2, 4 => .Timestamp
  | _, _ => .Unknown

/-- Consumed length chosen by `Option::new_checked` when the buffer has at
least 2 bytes. -/
def optConsumedLen (buf : List Nat) : Nat :=
  match kindOfByte (byteAt buf 0) with
  | .End | .NoOperation | .Unknown => 1
  | .Security => 11
  | .LooseSourceRouting | .StrictSourceRouting | .RecordRoute | .Timestamp => byteAt buf 1
  | .StreamId => 4

/-- Embedding of `Option::new_checked`, returning the truncated option slice. -/
def optNewChecked (buf : List Nat) : Except Ipv4Error (List Nat) :=
  if buf.length < 1 then .error .InvalidOptionLen
  else if buf.length = 1 then
    match kindOfByte (byteAt buf 0) with
    | .End | .NoOperation | .Unknown => .ok buf
    | _ => .error .InvalidOptionLen
  else
    let consumed := optConsumedLen buf
    if buf.length < consumed then .error .InvalidOptionLen
    else .ok (buf.take consumed)

/-- Outcome of driving `OptionIterator` to its end: the yielded option slices
followed by how iteration stopped.  `ok` is `next() == None`; `err` is the
first `InvalidOptionLen` (after which the iterator never advances, so the
caller stops); `crash` is the Rust panic that occurs when `kind()` reads byte
0 of an empty option slice (consumed length 0); `fuelOut` never occurs for
the fuel used below. -/
inductive OptRun
  | ok (opts : List (List Nat))
  | err (opts : List (List Nat))
  | crash (opts : List (List Nat))
  | fuelOut (opts : List (List Nat))
  deriving DecidableEq, Repr

/-- Prepend yielded options to an outcome. -/
def OptRun.push (o : List (List Nat)) : OptRun → OptRun
  | .ok opts => .ok (o ++ opts)
  | .err opts => .err (o ++ opts)
  | .crash opts => .crash (o ++ opts)
  | .fuelOut opts => .fuelOut (o ++ opts)

/-- Fuel-indexed embedding of repeated `OptionIterator::next` calls. -/
def runOptionsAux : Nat → List Nat → Nat → OptRun
  | 0, _, _ => .fuelOut []
  | fuel + 1, buffer, cursor =>
    if cursor ≥ buffer.length then .ok []
    else
      match optNewChecked (buffer.drop cursor) with
      | .error _ => .err []
      | .ok opt =>
        match opt.get? 0 with
        | none => .crash []
        | some t =>
          if kindOfByte t = .End then .ok []
          else (runOptionsAux fuel buffer (cursor + opt.length)).push [opt]

/-- Drive the option iterator over an options slice from cursor 0. -/
def runOptions (buffer : List Nat) : OptRun :=
  runOptionsAux (buffer.length + 1) buffer 0

/-! ## Arithmetic helper lemmas -/

theorem lor_eq_add {k y : Nat} (x : Nat) (hy : y < 2 ^ k) :
    2 ^ k * x ||| y = 2 ^ k * x + y := by
  induction k generalizing y x with
  | zero =>
    interval_cases y
    simp
  | succ k ih =>
    have hp : 2 ^ (k + 1) = 2 * 2 ^ k := by ring
    have he : 2 ^ (k + 1) * x = 2 * (2 ^ k * x) := by ring
    have hy2 : y / 2 < 2 ^ k := by omega
    have hmod : (2 ^ (k + 1) * x ||| y) % 2 = y % 2 := by
      rcases Nat.even_or_odd y with hpar | hpar
      · have hy0 : ¬(y % 2 = 1) := by
          rcases hpar with ⟨m, hm⟩
          omega
        have hne : ¬((2 ^ (k + 1) * x ||| y) % 2 = 1) := by
          rw [Nat.or_mod_two_eq_one]
          omega
        omega
      · have hy1 : y % 2 = 1 := Nat.odd_iff.mp hpar
        have hone : (2 ^ (k + 1) * x ||| y) % 2 = 1 := by
          rw [Nat.or_mod_two_eq_one]
          omega
        omega
    have hdiv : (2 ^ (k + 1) * x ||| y) / 2 = 2 ^ k * x + y / 2 := by
      have hor2 : (2 ^ (k + 1) * x ||| y) / 2 = 2 ^ (k + 1) * x / 2 ||| y / 2 :=
        Nat.or_div_two
      have hhalf : 2 ^ (k + 1) * x / 2 = 2 ^ k * x := by omega
      rw [hor2, hhalf]
      exact ih x hy2
    omega

theorem and_two_pow_sub_one (x k : Nat) : x &&& 2 ^ k - 1 = x % 2 ^ k :=
  Nat.and_pow_two_sub_one_eq_mod x k

theorem and_15_eq (x : Nat) : x &&& 15 = x % 16 := and_two_pow_sub_one x 4

theorem and_31_eq (x : Nat) : x &&& 31 = x % 32 := and_two_pow_sub_one x 5

theorem and_8191_eq (x : Nat) : x &&& 8191 = x % 8192 := and_two_pow_sub_one x 13

theorem and_65535_eq (x : Nat) : x &&& 65535 = x % 65536 := and_two_pow_sub_one x 16

set_option maxRecDepth 4096 in
theorem and_240_eq : ∀ x < 256, x &&& 240 = x / 16 * 16 := by decide

set_option maxRecDepth 4096 in
theorem and_224_eq : ∀ x < 256, x &&& 224 = x / 32 * 32 := by decide

theorem shiftRight_4 (x : Nat) : x >>> 4 = x / 16 := Nat.shiftRight_eq_div_pow x 4

theorem shiftRight_5 (x : Nat) : x >>> 5 = x / 32 := Nat.shiftRight_eq_div_pow x 5

theorem shiftRight_8 (x : Nat) : x >>> 8 = x / 256 := Nat.shiftRight_eq_div_pow x 8

theorem shiftRight_16 (x : Nat) : x >>> 16 = x / 65536 := Nat.shiftRight_eq_div_pow x 16

theorem shiftLeft_4 (x : Nat) : x <<< 4 = x * 16 := Nat.shiftLeft_eq x 4

theorem shiftLeft_5 (x : Nat) : x <<< 5 = x * 32 := Nat.shiftLeft_eq x 5

theorem shiftLeft_8 (x : Nat) : x <<< 8 = x * 256 := Nat.shiftLeft_eq x 8

/-- Composition of two bytes by shift-or is base-256 placement. -/
theorem shl8_or (a b : Nat) (hb : b < 256) : (a <<< 8) ||| b = a * 256 + b := by
  have h : 2 ^ 8 * a ||| b = 2 ^ 8 * a + b := lor_eq_add a hb
  have hs : a <<< 8 = 2 ^ 8 * a := by
    rw [Nat.shiftLeft_eq]
    ring
  rw [hs, h]
  ring

/-! ## Fold-loop lemmas -/

theorem foldLoop_le : ∀ fuel s, s ≤ fuel + 0xffff → foldLoop fuel s ≤ 0xffff := by
  intro fuel
  induction fuel with
  | zero =>
    intro s hs
    simpa [foldLoop] using hs
  | succ n ih =>
    intro s hs
    rw [foldLoop]
    split
    · apply ih
      rw [and_65535_eq, shiftRight_16]
      omega
    · omega

/-- The checksum of any span is below 2^16, hence its two stored header bytes
recover it exactly. -/
theorem checksum_lt (data : List Nat) : checksum data < 65536 := by
  have h : checksum data =
      (2 ^ 64 - 1 - foldLoop (sumWords data) (sumWords data)) % 2 ^ 16 := rfl
  rw [h]
  omega

theorem checksum_le (data : List Nat) : checksum data ≤ 0xffff := by
  have := checksum_lt data
  omega

/-! ## Explicit characterization of `build_vec` -/

theorem repl20 : List.replicate 20 (0 : Nat) =
    [0, 0, 0, 0, 0, 0, 0, 0, 0, 0, 0, 0, 0, 0, 0, 0, 0, 0, 0, 0] := rfl

/-- Value the builder uses for the total-length field (step 1 of build). -/
def effTotalLen (cfg : BuilderCfg) : Nat :=
  if cfg.total_len = 0 then (cfg.header_len * 4 % 256 + cfg.payload.length) % 2 ^ 16
  else cfg.total_len

/-- The 20 fixed header bytes written by the builder, for a given value of the
checksum field. -/
def hdrBytes (cfg : BuilderCfg) (ck : Nat) : List Nat :=
  [16 * (cfg.version % 16) + cfg.header_len % 16, cfg.tos % 256,
   effTotalLen cfg / 256 % 256, effTotalLen cfg % 256,
   cfg.identification / 256 % 256, cfg.identification % 256,
   32 * (cfg.flags % 8) + cfg.offset / 256 % 32, cfg.offset % 256,
   cfg.ttl % 256, cfg.protocol.toByte % 256,
   ck / 256 % 256, ck % 256,
   cfg.src_addr / 2 ^ 24 % 256, cfg.src_addr / 2 ^ 16 % 256,
   cfg.src_addr / 2 ^ 8 % 256, cfg.src_addr % 256,
   cfg.dest_addr / 2 ^ 24 % 256, cfg.dest_addr / 2 ^ 16 % 256,
   cfg.dest_addr / 2 ^ 8 % 256, cfg.dest_addr % 256]

/-- Bytes after the fixed header: the zero options area and the payload. -/
def bodyBytes (cfg : BuilderCfg) : List Nat :=
  List.replicate (cfg.header_len * 4 - 20) 0 ++ cfg.payload

/-- The buffer contents just before the final checksum rewrite. -/
def preBytes (cfg : BuilderCfg) : List Nat := hdrBytes cfg cfg.checksum ++ bodyBytes cfg

/-- The checksum value actually stored by the builder (the 0 sentinel asks
for computation over the whole buffer — header and payload). -/
def builtCk (cfg : BuilderCfg) : Nat :=
  if cfg.checksum = 0 then checksum (preBytes cfg) else cfg.checksum

theorem verHlByte (v h : Nat) :
    (v % 16) <<< 4 &&& 240 ||| h &&& 15 = 16 * (v % 16) + h % 16 := by
  rw [shiftLeft_4, and_15_eq, and_240_eq (v % 16 * 16) (by omega)]
  have h1 : v % 16 * 16 / 16 * 16 = 2 ^ 4 * (v % 16) := by omega
  rw [h1, lor_eq_add (v % 16) (show h % 16 < 2 ^ 4 by omega)]
  omega

theorem flagsOffByte (f o : Nat) :
    f <<< 5 % 256 &&& 224 ||| o / 256 % 256 &&& 31 = 32 * (f % 8) + o / 256 % 32 := by
  rw [shiftLeft_5, and_31_eq, and_224_eq (f * 32 % 256) (by omega)]
  have h1 : f * 32 % 256 / 32 * 32 = 2 ^ 5 * (f % 8) := by omega
  have h2 : o / 256 % 256 % 32 = o / 256 % 32 := by omega
  rw [h1, h2, lor_eq_add (f % 8) (show o / 256 % 32 < 2 ^ 5 by omega)]
  omega

theorem build_vec_explicit (cfg : BuilderCfg) (h5 : 5 ≤ cfg.header_len)
    (h15 : cfg.header_len ≤ 15) :
    build_vec cfg = hdrBytes cfg (builtCk cfg) ++ bodyBytes cfg := by
  have hsplit : List.replicate (cfg.header_len * 4 % 256) (0 : Nat) =
      [0, 0, 0, 0, 0, 0, 0, 0, 0, 0, 0, 0, 0, 0, 0, 0, 0, 0, 0, 0] ++
        List.replicate (cfg.header_len * 4 - 20) 0 := by
    rw [← repl20, ← List.replicate_add]
    congr 1
    omega
  by_cases hck : cfg.checksum = 0
  · unfold build_vec
    rw [hsplit, List.append_assoc]
    simp only [set_version, set_header_len, set_tos, set_total_len, set_identification,
      set_flags, set_offset, set_ttl, set_protocol, set_checksum, set_src_addr,
      set_dest_addr, byteAt, if_pos hck]
    simp [effTotalLen, hdrBytes, bodyBytes, builtCk, preBytes, hck, verHlByte, flagsOffByte]
  · unfold build_vec
    rw [hsplit, List.append_assoc]
    simp only [set_version, set_header_len, set_tos, set_total_len, set_identification,
      set_flags, set_offset, set_ttl, set_protocol, set_checksum, set_src_addr,
      set_dest_addr, byteAt, if_neg hck]
    simp [effTotalLen, hdrBytes, bodyBytes, builtCk, preBytes, hck, verHlByte, flagsOffByte]

/-! ## Getter values on built packets -/

section BuiltGetters

variable (cfg : BuilderCfg)

theorem hdrBytes_length (ck : Nat) : (hdrBytes cfg ck).length = 20 := by
  simp [hdrBytes]

theorem build_vec_length (h5 : 5 ≤ cfg.header_len) (h15 : cfg.header_len ≤ 15) :
    (build_vec cfg).length = cfg.header_len * 4 + cfg.payload.length := by
  rw [build_vec_explicit cfg h5 h15]
  simp [hdrBytes, bodyBytes]
  omega

theorem byteAt_append_left {l1 l2 : List Nat} {i : Nat} (h : i < l1.length) :
    byteAt (l1 ++ l2) i = byteAt l1 i := by
  simp [byteAt, List.getD_eq_getElem?_getD, List.getElem?_append_left h]

theorem version_build (h5 : 5 ≤ cfg.header_len) (h15 : cfg.header_len ≤ 15) :
    version (build_vec cfg) = cfg.version % 16 := by
  rw [version, build_vec_explicit cfg h5 h15,
    byteAt_append_left (by simp [hdrBytes]), shiftRight_4]
  simp [hdrBytes, byteAt]
  omega

theorem header_len_build (h5 : 5 ≤ cfg.header_len) (h15 : cfg.header_len ≤ 15) :
    header_len (build_vec cfg) = cfg.header_len := by
  rw [header_len, build_vec_explicit cfg h5 h15,
    byteAt_append_left (by simp [hdrBytes]), and_15_eq]
  simp [hdrBytes, byteAt]
  omega

theorem tos_build (h5 : 5 ≤ cfg.header_len) (h15 : cfg.header_len ≤ 15) :
    tos (build_vec cfg) = cfg.tos % 256 := by
  rw [tos, build_vec_explicit cfg h5 h15, byteAt_append_left (by simp [hdrBytes])]
  simp [hdrBytes, byteAt]

theorem total_len_build (h5 : 5 ≤ cfg.header_len) (h15 : cfg.header_len ≤ 15) :
    total_len (build_vec cfg) = effTotalLen cfg % 65536 := by
  rw [total_len, build_vec_explicit cfg h5 h15,
    byteAt_append_left (by simp [hdrBytes]), byteAt_append_left (by simp [hdrBytes])]
  simp [hdrBytes, byteAt]
  omega

theorem identification_build (h5 : 5 ≤ cfg.header_len) (h15 : cfg.header_len ≤ 15) :
    identification (build_vec cfg) = cfg.identification % 65536 := by
  rw [identification, build_vec_explicit cfg h5 h15,
    byteAt_append_left (by simp [hdrBytes]), byteAt_append_left (by simp [hdrBytes])]
  simp [hdrBytes, byteAt]
  omega

theorem flagsOf_build (h5 : 5 ≤ cfg.header_len) (h15 : cfg.header_len ≤ 15) :
    flagsOf (build_vec cfg) = cfg.flags % 8 := by
  rw [flagsOf, build_vec_explicit cfg h5 h15,
    byteAt_append_left (by simp [hdrBytes]), shiftRight_5]
  simp [hdrBytes, byteAt]
  omega

theorem offsetOf_build (h5 : 5 ≤ cfg.header_len) (h15 : cfg.header_len ≤ 15) :
    offsetOf (build_vec cfg) = cfg.offset % 8192 := by
  rw [offsetOf, build_vec_explicit cfg h5 h15,
    byteAt_append_left (by simp [hdrBytes]), byteAt_append_left (by simp [hdrBytes]),
    and_8191_eq]
  simp [hdrBytes, byteAt]
  omega

theorem ttl_build (h5 : 5 ≤ cfg.header_len) (h15 : cfg.header_len ≤ 15) :
    ttl (build_vec cfg) = cfg.ttl % 256 := by
  rw [ttl, build_vec_explicit cfg h5 h15, byteAt_append_left (by simp [hdrBytes])]
  simp [hdrBytes, byteAt]

theorem protocolByte_build (h5 : 5 ≤ cfg.header_len) (h15 : cfg.header_len ≤ 15) :
    protocolByte (build_vec cfg) = cfg.protocol.toByte % 256 := by
  rw [protocolByte, build_vec_explicit cfg h5 h15, byteAt_append_left (by simp [hdrBytes])]
  simp [hdrBytes, byteAt]

theorem checksumField_build (h5 : 5 ≤ cfg.header_len) (h15 : cfg.header_len ≤ 15) :
    checksumField (build_vec cfg) = builtCk cfg % 65536 := by
  rw [checksumField, build_vec_explicit cfg h5 h15,
    byteAt_append_left (by simp [hdrBytes]), byteAt_append_left (by simp [hdrBytes])]
  simp [hdrBytes, byteAt]
  omega

theorem src_addr_build (h5 : 5 ≤ cfg.header_len) (h15 : cfg.header_len ≤ 15) :
    src_addr (build_vec cfg) = cfg.src_addr % 2 ^ 32 := by
  rw [src_addr, build_vec_explicit cfg h5 h15,
    byteAt_append_left (by simp [hdrBytes]), byteAt_append_left (by simp [hdrBytes]),
    byteAt_append_left (by simp [hdrBytes]), byteAt_append_left (by simp [hdrBytes])]
  simp [hdrBytes, byteAt]
  omega

theorem dest_addr_build (h5 : 5 ≤ cfg.header_len) (h15 : cfg.header_len ≤ 15) :
    dest_addr (build_vec cfg) = cfg.dest_addr % 2 ^ 32 := by
  rw [dest_addr, build_vec_explicit cfg h5 h15,
    byteAt_append_left (by simp [hdrBytes]), byteAt_append_left (by simp [hdrBytes]),
    byteAt_append_left (by simp [hdrBytes]), byteAt_append_left (by simp [hdrBytes])]
  simp [hdrBytes, byteAt]
  omega

theorem payload_build (h5 : 5 ≤ cfg.header_len) (h15 : cfg.header_len ≤ 15) :
    payload (build_vec cfg) = cfg.payload := by
  rw [payload, header_len_build cfg h5 h15, build_vec_explicit cfg h5 h15]
  have hlen : 4 * cfg.header_len =
      (hdrBytes cfg (builtCk cfg) ++ List.replicate (cfg.header_len * 4 - 20) 0).length := by
    simp [hdrBytes]
    omega
  rw [bodyBytes, ← List.append_assoc, List.drop_left' hlen.symm]

theorem more_fragments_build (h5 : 5 ≤ cfg.header_len) (h15 : cfg.header_len ≤ 15) :
    more_fragments (build_vec cfg) = decide (cfg.flags % 2 = 1) := by
  rw [more_fragments, flagsOf_build cfg h5 h15]
  have h1 : cfg.flags % 8 &&& 1 = cfg.flags % 2 := by
    rw [Nat.and_one_is_mod]
    omega
  rw [h1]

theorem firstOctet_build (h5 : 5 ≤ cfg.header_len) (h15 : cfg.header_len ≤ 15) :
    firstOctet (build_vec cfg) = cfg.offset % 8192 * 8 := by
  rw [firstOctet, offsetOf_build cfg h5 h15]

end BuiltGetters

/-! ## RFC 1071 reference formulation of the checksum (spec side, §4.A) -/

/-- The 16-bit big-endian words of a byte span; for odd length the final byte
is the high byte of a zero-padded word.  This follows the spec text, to be
compared against the source's index-pair loop. -/
def beWords : List Nat → List Nat
  | a :: b :: rest => (a * 256 + b) :: beWords rest
  | [a] => [a * 256]
  | [] => []

/-- End-around-carry folding as the spec words it: repeat
`(sum % 2^16) + (sum / 2^16)` while the sum exceeds 0xFFFF. -/
def endAroundFold : Nat → Nat → Nat
  | 0, s => s
  | f + 1, s => if 0xffff < s then endAroundFold f (s % 65536 + s / 65536) else s

/-- The spec-side folded sum: fuel `s` is enough because every iteration
strictly decreases the sum. -/
def specFold (s : Nat) : Nat := endAroundFold s s

theorem foldLoop_eq_endAroundFold : ∀ f s, foldLoop f s = endAroundFold f s := by
  intro f
  induction f with
  | zero =>
    intro s
    rfl
  | succ n ih =>
    intro s
    rw [foldLoop, endAroundFold, and_65535_eq, shiftRight_16]
    split
    · rw [ih]
    · rfl

theorem sumWords_eq_beWords : ∀ data : List Nat, (∀ b ∈ data, b < 256) →
    sumWords data = (beWords data).sum
  | [], _ => by simp [sumWords, beWords]
  | [a], _ => by
    simp [sumWords, beWords]
    rw [shiftLeft_8]
  | a :: b :: rest, h => by
    rw [sumWords, beWords, List.sum_cons,
      sumWords_eq_beWords rest (by intro x hx; exact h x (by simp [hx])),
      shl8_or a b (h b (by simp))]

theorem xor_mask16 (s : Nat) (hs : s < 65536) : 65535 ^^^ s = 65535 - s := by
  apply Nat.eq_of_testBit_eq
  intro i
  have h2 : 65535 - s = 2 ^ 16 - (s + 1) := by omega
  rw [h2, Nat.testBit_two_pow_sub_succ (show s < 2 ^ 16 by omega), Nat.testBit_xor]
  have h1 : Nat.testBit 65535 i = decide (i < 16) := by
    have h3 : (65535 : Nat) = 2 ^ 16 - 1 := by norm_num
    rw [h3, Nat.testBit_two_pow_sub_one]
  rw [h1]
  by_cases hi : i < 16
  · simp [hi]
  · have hsi : s < 2 ^ i := by
      calc s < 65536 := hs
      _ = 2 ^ 16 := by norm_num
      _ ≤ 2 ^ i := Nat.pow_le_pow_right (by norm_num) (by omega)
    simp [hi, Nat.testBit_lt_two_pow hsi]

/-- Bridge from the source's final `!sum as u16` to the 16-bit bitwise
complement, for a folded sum. -/
theorem complement_bridge (s : Nat) (hs : s ≤ 65535) :
    (2 ^ 64 - 1 - s) % 2 ^ 16 = 65535 ^^^ s := by
  rw [xor_mask16 s (by omega)]
  omega

/-- Characterization of `checksum` by the spec's words (shared helper). -/
theorem checksum_spec (data : List Nat) (h : ∀ b ∈ data, b < 256) :
    checksum data = 65535 ^^^ specFold (beWords data).sum := by
  have hsum := sumWords_eq_beWords data h
  have hc : checksum data =
      (2 ^ 64 - 1 - foldLoop (sumWords data) (sumWords data)) % 2 ^ 16 := rfl
  have hle : foldLoop (sumWords data) (sumWords data) ≤ 0xffff :=
    foldLoop_le _ _ (by omega)
  rw [hc, complement_bridge _ hle, foldLoop_eq_endAroundFold, hsum, specFold]

/-! ## new_checked characterization (shared helper for C7 and C10) -/

theorem get?_eq_byteAt (l : List Nat) (i : Nat) (h : i < l.length) :
    l.get? i = some (byteAt l i) := by
  simp [byteAt, List.getD_eq_getElem?_getD, List.get?_eq_getElem?]
  rw [List.getElem?_eq_getElem h]
  simp

theorem new_checked_characterization (buf : List Nat) (hlen : 4 ≤ buf.length) :
    (new_checked buf = some (.ok ()) ↔
      version buf = 4 ∧ 5 ≤ header_len buf ∧ total_len buf = buf.length) ∧
    (version buf ≠ 4 → new_checked buf = some (.error .InvalidVersion)) ∧
    (version buf = 4 → header_len buf < 5 →
      new_checked buf = some (.error .InvalidHeaderLen)) ∧
    (version buf = 4 → 5 ≤ header_len buf → total_len buf ≠ buf.length →
      new_checked buf = some (.error .InvalidTotalLen)) := by
  have h0 : buf.get? 0 = some (byteAt buf 0) := get?_eq_byteAt buf 0 (by omega)
  have h2 : buf.get? 2 = some (byteAt buf 2) := get?_eq_byteAt buf 2 (by omega)
  have h3 : buf.get? 3 = some (byteAt buf 3) := get?_eq_byteAt buf 3 (by omega)
  have hv : byteAt buf 0 >>> 4 = version buf := rfl
  have hh : byteAt buf 0 &&& 15 = header_len buf := rfl
  have ht : byteAt buf 2 * 256 + byteAt buf 3 = total_len buf := rfl
  rw [new_checked, h0, h2, h3]
  simp only [hv, hh, ht]
  by_cases h4 : version buf = 4
  · by_cases h5c : header_len buf < 5
    · simp [h4, h5c]
    · by_cases htl : total_len buf = buf.length
      · simp [h4, h5c, htl]
        omega
      · simp [h4, h5c, htl]
  · simp [h4]

/-! ## DatagramId helpers -/

theorem toByte_ofByte (b : Nat) : (Protocol.ofByte b).toByte = b := by
  unfold Protocol.ofByte
  split <;> rfl

theorem byteAt_lt (l : List Nat) (i : Nat) (h : ∀ b ∈ l, b < 256) : byteAt l i < 256 := by
  by_cases hi : i < l.length
  · rw [byteAt, List.getD_eq_getElem?_getD, List.getElem?_eq_getElem hi]
    exact h _ (List.getElem_mem hi)
  · rw [byteAt, List.getD_eq_getElem?_getD, List.getElem?_eq_none (by omega)]
    norm_num

theorem identification_lt (l : List Nat) (h : ∀ b ∈ l, b < 256) :
    identification l < 2 ^ 16 := by
  have h4 := byteAt_lt l 4 h
  have h5 := byteAt_lt l 5 h
  rw [identification]
  omega

theorem protocolByte_lt (l : List Nat) (h : ∀ b ∈ l, b < 256) :
    protocolByte l < 2 ^ 8 := by
  have h9 := byteAt_lt l 9 h
  rw [protocolByte]
  omega

theorem src_addr_lt (l : List Nat) (h : ∀ b ∈ l, b < 256) : src_addr l < 2 ^ 32 := by
  have h12 := byteAt_lt l 12 h
  have h13 := byteAt_lt l 13 h
  have h14 := byteAt_lt l 14 h
  have h15 := byteAt_lt l 15 h
  rw [src_addr]
  omega

theorem dest_addr_lt (l : List Nat) (h : ∀ b ∈ l, b < 256) : dest_addr l < 2 ^ 32 := by
  have h16 := byteAt_lt l 16 h
  have h17 := byteAt_lt l 17 h
  have h18 := byteAt_lt l 18 h
  have h19 := byteAt_lt l 19 h
  rw [dest_addr]
  omega

/-- The shift-or composite of the four bounded key fields is their base-2^k
positional sum. -/
theorem dgid_fields_add (idv pb sa da : Nat) (_hid : idv < 2 ^ 16) (hpb : pb < 2 ^ 8)
    (hsa : sa < 2 ^ 32) (hda : da < 2 ^ 32) :
    idv <<< 72 ||| pb <<< 64 ||| sa <<< 32 ||| da =
      idv * 2 ^ 72 + pb * 2 ^ 64 + sa * 2 ^ 32 + da := by
  have e1 : sa <<< 32 = 2 ^ 32 * sa := by
    rw [Nat.shiftLeft_eq]
    ring
  have e2 : pb <<< 64 = 2 ^ 64 * pb := by
    rw [Nat.shiftLeft_eq]
    ring
  have e3 : idv <<< 72 = 2 ^ 72 * idv := by
    rw [Nat.shiftLeft_eq]
    ring
  rw [Nat.lor_assoc, Nat.lor_assoc, e1, lor_eq_add sa hda, e2,
    lor_eq_add pb (show 2 ^ 32 * sa + da < 2 ^ 64 by omega), e3,
    lor_eq_add idv (show 2 ^ 64 * pb + (2 ^ 32 * sa + da) < 2 ^ 72 by omega)]
  ring

theorem datagram_id_eq_add (l : List Nat) (h : ∀ b ∈ l, b < 256) :
    datagram_id l = identification l * 2 ^ 72 + protocolByte l * 2 ^ 64 +
      src_addr l * 2 ^ 32 + dest_addr l := by
  rw [datagram_id, toByte_ofByte]
  exact dgid_fields_add _ _ _ _ (identification_lt l h) (protocolByte_lt l h)
    (src_addr_lt l h) (dest_addr_lt l h)

/-! ## Claim theorems (first batch) -/

/-- C5: `checksum(bytes)` is the bitwise complement of the end-around-carry
fold of the sum of the big-endian 16-bit words (odd trailing byte
zero-padded low), and on the RFC 1071 example vector it returns 0x2918. -/
theorem c5_checksum :
    (∀ data : List Nat, (∀ b ∈ data, b < 256) →
      checksum data = 65535 ^^^ specFold (beWords data).sum) ∧
    checksum [0x12, 0x34, 0x56, 0x78, 0x9A, 0xBC, 0xDE, 0xF0, 0x12, 0x34, 0x00, 0x00,
      0x9A, 0xBC, 0xDE, 0xF0, 0x12, 0x34, 0x56, 0x78] = 0x2918 :=
  ⟨checksum_spec, by decide⟩

/-- C5 witness: the general clause applied at a concrete byte span. -/
theorem c5_checksum_witness :
    (∀ b ∈ [0x12, 0x34, 0x56], b < 256) ∧
    checksum [0x12, 0x34, 0x56] =
      65535 ^^^ specFold (beWords [0x12, 0x34, 0x56]).sum :=
  ⟨by decide, c5_checksum.1 [0x12, 0x34, 0x56] (by decide)⟩

/-- C9: `datagram_id` is the positional composite of identification (bits
72–87), protocol byte (64–71), source (32–63) and destination (0–31), and it
is injective exactly over that quadruple of fields. -/
theorem c9_datagram_id (l1 l2 : List Nat) (h1 : ∀ b ∈ l1, b < 256)
    (h2 : ∀ b ∈ l2, b < 256) :
    (datagram_id l1 = identification l1 * 2 ^ 72 + protocolByte l1 * 2 ^ 64 +
      src_addr l1 * 2 ^ 32 + dest_addr l1) ∧
    (datagram_id l1 = datagram_id l2 ↔
      identification l1 = identification l2 ∧ protocolByte l1 = protocolByte l2 ∧
        src_addr l1 = src_addr l2 ∧ dest_addr l1 = dest_addr l2) := by
  have e1 := datagram_id_eq_add l1 h1
  have e2 := datagram_id_eq_add l2 h2
  refine ⟨e1, ?_⟩
  rw [e1, e2]
  have b1 := identification_lt l1 h1
  have b2 := protocolByte_lt l1 h1
  have b3 := src_addr_lt l1 h1
  have b4 := dest_addr_lt l1 h1
  have b5 := identification_lt l2 h2
  have b6 := protocolByte_lt l2 h2
  have b7 := src_addr_lt l2 h2
  have b8 := dest_addr_lt l2 h2
  constructor
  · intro he
    refine ⟨by omega, by omega, by omega, by omega⟩
  · intro ⟨ha, hb, hc, hd⟩
    omega

/-- C9 witness: applied at two concrete packets differing in identification. -/
theorem c9_datagram_id_witness :
    ((∀ b ∈ [0x45, 0, 0, 20, 0, 1, 0, 0, 64, 17, 0, 0, 10, 0, 0, 1, 10, 0, 0, 2], b < 256) ∧
      (∀ b ∈ [0x45, 0, 0, 20, 0, 2, 0, 0, 64, 17, 0, 0, 10, 0, 0, 1, 10, 0, 0, 2], b < 256)) ∧
    ((datagram_id [0x45, 0, 0, 20, 0, 1, 0, 0, 64, 17, 0, 0, 10, 0, 0, 1, 10, 0, 0, 2] =
      identification [0x45, 0, 0, 20, 0, 1, 0, 0, 64, 17, 0, 0, 10, 0, 0, 1, 10, 0, 0, 2] * 2 ^ 72 +
        protocolByte [0x45, 0, 0, 20, 0, 1, 0, 0, 64, 17, 0, 0, 10, 0, 0, 1, 10, 0, 0, 2] * 2 ^ 64 +
        src_addr [0x45, 0, 0, 20, 0, 1, 0, 0, 64, 17, 0, 0, 10, 0, 0, 1, 10, 0, 0, 2] * 2 ^ 32 +
        dest_addr [0x45, 0, 0, 20, 0, 1, 0, 0, 64, 17, 0, 0, 10, 0, 0, 1, 10, 0, 0, 2]) ∧
      (datagram_id [0x45, 0, 0, 20, 0, 1, 0, 0, 64, 17, 0, 0, 10, 0, 0, 1, 10, 0, 0, 2] =
          datagram_id [0x45, 0, 0, 20, 0, 2, 0, 0, 64, 17, 0, 0, 10, 0, 0, 1, 10, 0, 0, 2] ↔
        identification [0x45, 0, 0, 20, 0, 1, 0, 0, 64, 17, 0, 0, 10, 0, 0, 1, 10, 0, 0, 2] =
            identification [0x45, 0, 0, 20, 0, 2, 0, 0, 64, 17, 0, 0, 10, 0, 0, 1, 10, 0, 0, 2] ∧
          protocolByte [0x45, 0, 0, 20, 0, 1, 0, 0, 64, 17, 0, 0, 10, 0, 0, 1, 10, 0, 0, 2] =
            protocolByte [0x45, 0, 0, 20, 0, 2, 0, 0, 64, 17, 0, 0, 10, 0, 0, 1, 10, 0, 0, 2] ∧
          src_addr [0x45, 0, 0, 20, 0, 1, 0, 0, 64, 17, 0, 0, 10, 0, 0, 1, 10, 0, 0, 2] =
            src_addr [0x45, 0, 0, 20, 0, 2, 0, 0, 64, 17, 0, 0, 10, 0, 0, 1, 10, 0, 0, 2] ∧
          dest_addr [0x45, 0, 0, 20, 0, 1, 0, 0, 64, 17, 0, 0, 10, 0, 0, 1, 10, 0, 0, 2] =
            dest_addr [0x45, 0, 0, 20, 0, 2, 0, 0, 64, 17, 0, 0, 10, 0, 0, 1, 10, 0, 0, 2])) :=
  ⟨⟨by decide, by decide⟩, c9_datagram_id _ _ (by decide) (by decide)⟩

/-- C7 counterexample: on the one-byte buffer `[0x45]` (version nibble 4,
IHL nibble 5), `check_len` reads the total-length bytes at indices 2 and 3
and panics (modelled as `none`), so `new_checked` neither returns Ok nor
fails with a typed error, contradicting the claim's "for every byte buffer
… otherwise it fails, without panicking". -/
theorem c7_counterexample : new_checked [0x45] = none := rfl

/-- C7 amended: for every buffer of length at least 4, `new_checked` never
panics, returns Ok exactly when version = 4, IHL ≥ 5 and the total-length
field equals the buffer length, and otherwise fails with InvalidVersion,
InvalidHeaderLen, or InvalidTotalLen, in that priority order. -/
theorem c7_new_checked (buf : List Nat) (hlen : 4 ≤ buf.length) :
    (∃ r, new_checked buf = some r) ∧
    (new_checked buf = some (.ok ()) ↔
      version buf = 4 ∧ 5 ≤ header_len buf ∧ total_len buf = buf.length) ∧
    (version buf ≠ 4 → new_checked buf = some (.error .InvalidVersion)) ∧
    (version buf = 4 → header_len buf < 5 →
      new_checked buf = some (.error .InvalidHeaderLen)) ∧
    (version buf = 4 → 5 ≤ header_len buf → total_len buf ≠ buf.length →
      new_checked buf = some (.error .InvalidTotalLen)) := by
  obtain ⟨hiff, hv, hh, ht⟩ := new_checked_characterization buf hlen
  refine ⟨?_, hiff, hv, hh, ht⟩
  by_cases h4 : version buf = 4
  · by_cases h5c : 5 ≤ header_len buf
    · by_cases htl : total_len buf = buf.length
      · exact ⟨_, hiff.mpr ⟨h4, h5c, htl⟩⟩
      · exact ⟨_, ht h4 h5c htl⟩
    · exact ⟨_, hh h4 (by omega)⟩
  · exact ⟨_, hv h4⟩

/-- C7 witness: the amended statement applied at a concrete valid packet. -/
theorem c7_new_checked_witness :
    4 ≤ ([0x45, 0, 0, 4] : List Nat).length ∧
    ((∃ r, new_checked [0x45, 0, 0, 4] = some r) ∧
      (new_checked [0x45, 0, 0, 4] = some (.ok ()) ↔
        version [0x45, 0, 0, 4] = 4 ∧ 5 ≤ header_len [0x45, 0, 0, 4] ∧
          total_len [0x45, 0, 0, 4] = ([0x45, 0, 0, 4] : List Nat).length) ∧
      (version [0x45, 0, 0, 4] ≠ 4 →
        new_checked [0x45, 0, 0, 4] = some (.error .InvalidVersion)) ∧
      (version [0x45, 0, 0, 4] = 4 → header_len [0x45, 0, 0, 4] < 5 →
        new_checked [0x45, 0, 0, 4] = some (.error .InvalidHeaderLen)) ∧
      (version [0x45, 0, 0, 4] = 4 → 5 ≤ header_len [0x45, 0, 0, 4] →
        total_len [0x45, 0, 0, 4] ≠ ([0x45, 0, 0, 4] : List Nat).length →
        new_checked [0x45, 0, 0, 4] = some (.error .InvalidTotalLen))) :=
  ⟨by decide, c7_new_checked [0x45, 0, 0, 4] (by decide)⟩

/-- A builder configuration that keeps version, header_len, total_len and
checksum at their defaults and sets the remaining fields. -/
def defaultCfgWith (tosv ident fl off ttlv : Nat) (pr : Protocol) (src dst : Nat)
    (p : List Nat) : BuilderCfg :=
  { version := 4, header_len := 5, total_len := 0, checksum := 0, tos := tosv,
    identification := ident, flags := fl, offset := off, ttl := ttlv, protocol := pr,
    src_addr := src, dest_addr := dst, payload := p }

/-- C10: with version/header_len/total_len/checksum left at their defaults
and any payload with 20 + len ≤ 0xFFFF, `build_vec` produces a buffer of
length header_len*4 + len, carrying the payload verbatim after the header,
and accepted by `new_checked`. -/
theorem c10_build_vec_defaults (tosv ident fl off ttlv : Nat) (pr : Protocol)
    (src dst : Nat) (p : List Nat) (hp : 20 + p.length ≤ 0xffff) :
    (build_vec (defaultCfgWith tosv ident fl off ttlv pr src dst p)).length =
      (defaultCfgWith tosv ident fl off ttlv pr src dst p).header_len * 4 + p.length ∧
    (build_vec (defaultCfgWith tosv ident fl off ttlv pr src dst p)).drop 20 = p ∧
    new_checked (build_vec (defaultCfgWith tosv ident fl off ttlv pr src dst p)) =
      some (.ok ()) := by
  have h5 : 5 ≤ (defaultCfgWith tosv ident fl off ttlv pr src dst p).header_len := by
    norm_num [defaultCfgWith]
  have h15 : (defaultCfgWith tosv ident fl off ttlv pr src dst p).header_len ≤ 15 := by
    norm_num [defaultCfgWith]
  have hlen := build_vec_length (defaultCfgWith tosv ident fl off ttlv pr src dst p) h5 h15
  have hlen20 : (build_vec (defaultCfgWith tosv ident fl off ttlv pr src dst p)).length =
      20 + p.length := by
    rw [hlen]
    simp [defaultCfgWith]
  refine ⟨?_, ?_, ?_⟩
  · rw [hlen]
    simp [defaultCfgWith]
  · rw [build_vec_explicit _ h5 h15]
    have hbody : bodyBytes (defaultCfgWith tosv ident fl off ttlv pr src dst p) = p := by
      simp [bodyBytes, defaultCfgWith]
    rw [hbody, List.drop_left' (hdrBytes_length _ _)]
  · apply (new_checked_characterization _ (by omega)).1.mpr
    refine ⟨?_, ?_, ?_⟩
    · rw [version_build _ h5 h15]
      norm_num [defaultCfgWith]
    · rw [header_len_build _ h5 h15]
      norm_num [defaultCfgWith]
    · rw [total_len_build _ h5 h15, hlen20]
      simp [effTotalLen, defaultCfgWith]
      omega

/-- C10 witness: the acceptance clause at a concrete configuration. -/
theorem c10_build_vec_defaults_witness :
    20 + ([9, 8, 7] : List Nat).length ≤ 0xffff ∧
    new_checked (build_vec (defaultCfgWith 0 1 0 0 64 .Udp 1 2 [9, 8, 7])) =
      some (.ok ()) :=
  ⟨by decide, (c10_build_vec_defaults 0 1 0 0 64 .Udp 1 2 [9, 8, 7] (by decide)).2.2⟩

/-- The failing input for C3: every builder field at its default, payload a
single byte 0x01, checksum left at the 0 sentinel. -/
def c3cfg : BuilderCfg := { payload := [1] }

/-- C3: at the failing input the checksum value stored by `build_vec` is the
internet checksum of the whole packet (header plus payload, checksum bytes
zero), it differs from the checksum over the header span only, and the
spec's header-span one's-complement verification fails on the built packet.
This exhibits the divergence: the source passes `packet.as_ref()` — the
entire buffer — to `checksum`, not the header span. -/
theorem c3_build_vec_checksums_whole_packet :
    checksumField (build_vec c3cfg) =
      checksum (((build_vec c3cfg).set 10 0).set 11 0) ∧
    checksumField (build_vec c3cfg) ≠
      checksum ((((build_vec c3cfg).take 20).set 10 0).set 11 0) ∧
    headerVerifies (build_vec c3cfg) = false := by decide

/-- The failing input for C4: the 120-byte loopback ping datagram captured in
the repository's own packet test (src/ipv4/packet.rs), whose header checksum
0xddaa is RFC-correct. -/
def s2packet : List Nat :=
  [0x4e, 0x00, 0x00, 0x78, 0x10, 0x2c, 0x00, 0x00, 0x40, 0x01, 0xdd, 0xaa, 0x7f, 0x00,
   0x00, 0x01, 0x7f, 0x00, 0x00, 0x01, 0x44, 0x24, 0x1d, 0x01, 0x7f, 0x00, 0x00, 0x01,
   0x00, 0x13, 0x37, 0xc3, 0x7f, 0x00, 0x00, 0x01, 0x00, 0x13, 0x37, 0xc3, 0x7f, 0x00,
   0x00, 0x01, 0x00, 0x13, 0x37, 0xc3, 0x00, 0x00, 0x00, 0x00, 0x00, 0x00, 0x00, 0x00,
   0x00, 0x00, 0x87, 0xa5, 0x00, 0x06, 0x00, 0x06, 0xeb, 0x17, 0x13, 0x61, 0x00, 0x00,
   0x00, 0x00, 0xb4, 0x02, 0x07, 0x00, 0x00, 0x00, 0x00, 0x00, 0x10, 0x11, 0x12, 0x13,
   0x14, 0x15, 0x16, 0x17, 0x18, 0x19, 0x1a, 0x1b, 0x1c, 0x1d, 0x1e, 0x1f, 0x20, 0x21,
   0x22, 0x23, 0x24, 0x25, 0x26, 0x27, 0x28, 0x29, 0x2a, 0x2b, 0x2c, 0x2d, 0x2e, 0x2f,
   0x30, 0x31, 0x32, 0x33, 0x34, 0x35, 0x36, 0x37]

/-- C4: the captured datagram's header verifies in the RFC sense (checksum
over the header span with the checksum field zeroed equals the stored field),
yet `Interface::receive` rejects it with InvalidChecksum, because the code
compares the stored checksum against a checksum computed over the header
*including* the stored checksum bytes (which folds to 0 on any correctly
checksummed header). -/
theorem c4_receive_rejects_verifying_header :
    headerVerifies s2packet = true ∧
    receiveStep s2packet = .err .InvalidChecksum := by decide

/-! ## Option-iteration lemmas (C8) -/

/-- The options yielded before the run stopped (however it stopped). -/
def OptRun.yielded : OptRun → List (List Nat)
  | .ok opts => opts
  | .err opts => opts
  | .crash opts => opts
  | .fuelOut opts => opts

/-- Whether an option type byte selects a variable-length option (the three
routing variants and Timestamp, whose consumed length is the length byte). -/
def isVarLen (b : Nat) : Bool :=
  match kindOfByte b with
  | .LooseSourceRouting | .StrictSourceRouting | .RecordRoute | .Timestamp => true
  | _ => false

theorem byteAt_drop (l : List Nat) (n i : Nat) : byteAt (l.drop n) i = byteAt l (n + i) := by
  induction l generalizing n with
  | nil => simp [byteAt]
  | cons a t ih =>
    cases n with
    | zero => simp
    | succ m =>
      rw [List.drop_succ_cons, ih]
      have hidx : m + 1 + i = (m + i) + 1 := by omega
      rw [hidx]
      rfl

theorem byteAt_take_lt (l : List Nat) (n i : Nat) (h : i < n) :
    byteAt (l.take n) i = byteAt l i := by
  rw [byteAt, byteAt, List.getD_eq_getElem?_getD, List.getD_eq_getElem?_getD,
    List.getElem?_take_of_lt h]

theorem OptRun.yielded_push (r : OptRun) (o : List (List Nat)) :
    (r.push o).yielded = o ++ r.yielded := by
  cases r <;> rfl

/-- Facts about a successful `Option::new_checked`: the returned slice is
nonempty (given nonzero length bytes on variable-length options), no longer
than the input, and starts with the same type byte. -/
theorem optNewChecked_ok_facts (s opt : List Nat) (hok : optNewChecked s = .ok opt)
    (hvl : isVarLen (byteAt s 0) = true → 1 ≤ byteAt s 1) :
    1 ≤ opt.length ∧ opt.length ≤ s.length ∧ byteAt opt 0 = byteAt s 0 := by
  unfold optNewChecked at hok
  by_cases h1 : s.length < 1
  · simp [h1] at hok
  · by_cases h2 : s.length = 1
    · simp [h1, h2] at hok
      rcases hk : kindOfByte (byteAt s 0) <;> simp [hk] at hok <;>
        (subst hok; exact ⟨by omega, by omega, rfl⟩)
    · simp [h1, h2] at hok
      by_cases h3 : s.length < optConsumedLen s
      · simp [h3] at hok
      · simp [h3] at hok
        have hc1 : 1 ≤ optConsumedLen s := by
          unfold optConsumedLen
          rcases hk : kindOfByte (byteAt s 0) <;> simp [hk]
          all_goals
            apply hvl
            simp [isVarLen, hk]
        refine ⟨?_, ?_, ?_⟩
        · rw [← hok]
          simp
          omega
        · rw [← hok]
          simp
        · rw [← hok, byteAt_take_lt s _ 0 (by omega)]

/-- Totality and End-termination of the option iterator under nonzero length
bytes, by induction on the fuel: every continuing step consumes at least one
byte, and a zero-length option slice stops the run. -/
theorem runOptionsAux_spec : ∀ fuel (buffer : List Nat) (cursor : Nat),
    (∀ i, i + 1 < buffer.length → isVarLen (byteAt buffer i) = true →
      1 ≤ byteAt buffer (i + 1)) →
    cursor ≤ buffer.length →
    buffer.length + 1 ≤ fuel + cursor →
    (∃ opts, runOptionsAux fuel buffer cursor = .ok opts ∨
      runOptionsAux fuel buffer cursor = .err opts) ∧
    (∀ o ∈ (runOptionsAux fuel buffer cursor).yielded,
      1 ≤ o.length ∧ kindOfByte (byteAt o 0) ≠ .End) := by
  intro fuel
  induction fuel with
  | zero =>
    intro buffer cursor hgood hcur hfuel
    exact absurd hfuel (by omega)
  | succ f ih =>
    intro buffer cursor hgood hcur hfuel
    rw [runOptionsAux]
    by_cases hc : cursor ≥ buffer.length
    · rw [if_pos hc]
      refine ⟨⟨[], Or.inl rfl⟩, ?_⟩
      intro o ho
      simp [OptRun.yielded] at ho
    · rw [if_neg hc]
      rcases hchk : optNewChecked (buffer.drop cursor) with e | opt
      · refine ⟨⟨[], Or.inr rfl⟩, ?_⟩
        intro o ho
        simp [OptRun.yielded] at ho
      · have hvl : isVarLen (byteAt (buffer.drop cursor) 0) = true →
            1 ≤ byteAt (buffer.drop cursor) 1 := by
          intro hv
          by_cases hcl : cursor + 1 < buffer.length
          · have e0 := byteAt_drop buffer cursor 0
            rw [Nat.add_zero] at e0
            have e1 : byteAt (buffer.drop cursor) 1 = byteAt buffer (cursor + 1) := by
              rw [byteAt_drop]
            rw [e0] at hv
            rw [e1]
            exact hgood cursor hcl hv
          · exfalso
            have hone : (buffer.drop cursor).length = 1 := by
              rw [List.length_drop]
              omega
            unfold optNewChecked at hchk
            simp [hone] at hchk
            rcases hk : kindOfByte (byteAt (buffer.drop cursor) 0) <;>
              simp [isVarLen, hk] at hchk hv
        obtain ⟨ho1, ho2, ho3⟩ := optNewChecked_ok_facts _ _ hchk hvl
        have hslen : (buffer.drop cursor).length = buffer.length - cursor := by simp
        rcases hopt0 : opt.get? 0 with _ | t
        · exfalso
          rw [List.get?_eq_getElem?, List.getElem?_eq_none_iff] at hopt0
          omega
        · have ht : t = byteAt opt 0 := by
            have hb := get?_eq_byteAt opt 0 (by omega)
            rw [hb] at hopt0
            exact (Option.some.inj hopt0).symm
          simp only [hopt0]
          by_cases hend : kindOfByte t = .End
          · rw [if_pos hend]
            refine ⟨⟨[], Or.inl rfl⟩, ?_⟩
            intro o ho
            simp [OptRun.yielded] at ho
          · rw [if_neg hend]
            obtain ⟨⟨opts, hrun⟩, hyield⟩ :=
              ih buffer (cursor + opt.length) hgood (by omega) (by omega)
            constructor
            · rcases hrun with hr | hr <;> rw [hr]
              · exact ⟨[opt] ++ opts, Or.inl rfl⟩
              · exact ⟨[opt] ++ opts, Or.inr rfl⟩
            · intro o ho
              rw [OptRun.yielded_push] at ho
              rcases List.mem_append.mp ho with hin | hin
              · have heq : o = opt := by simpa using hin
                subst heq
                rw [← ht]
                exact ⟨ho1, hend⟩
              · exact hyield o hin

/-- Per-call consumption table of `Option::new_checked` on buffers of at
least two bytes. -/
theorem optNewChecked_table (s : List Nat) (h2 : 2 ≤ s.length) :
    ((kindOfByte (byteAt s 0) = .End ∨ kindOfByte (byteAt s 0) = .NoOperation ∨
        kindOfByte (byteAt s 0) = .Unknown) → optNewChecked s = .ok (s.take 1)) ∧
    (kindOfByte (byteAt s 0) = .Security →
      optNewChecked s =
        if s.length < 11 then .error .InvalidOptionLen else .ok (s.take 11)) ∧
    (kindOfByte (byteAt s 0) = .StreamId →
      optNewChecked s =
        if s.length < 4 then .error .InvalidOptionLen else .ok (s.take 4)) ∧
    (isVarLen (byteAt s 0) = true →
      optNewChecked s =
        if s.length < byteAt s 1 then .error .InvalidOptionLen
        else .ok (s.take (byteAt s 1))) := by
  have h1 : ¬s.length < 1 := by omega
  have hne : ¬s.length = 1 := by omega
  refine ⟨?_, ?_, ?_, ?_⟩
  · intro hk
    rcases hk with hk | hk | hk <;>
      (unfold optNewChecked optConsumedLen; simp [h1, hne, hk, show ¬s.length < 1 by omega])
  · intro hk
    unfold optNewChecked optConsumedLen
    simp [h1, hne, hk]
  · intro hk
    unfold optNewChecked optConsumedLen
    simp [h1, hne, hk]
  · intro hv
    rcases hk : kindOfByte (byteAt s 0) <;> simp [isVarLen, hk] at hv <;>
      (unfold optNewChecked optConsumedLen; simp [h1, hne, hk])

/-- Behaviour of `Option::new_checked` on a single-byte buffer. -/
theorem optNewChecked_single (s : List Nat) (h1 : s.length = 1) :
    ((kindOfByte (byteAt s 0) = .End ∨ kindOfByte (byteAt s 0) = .NoOperation ∨
        kindOfByte (byteAt s 0) = .Unknown) → optNewChecked s = .ok s) ∧
    ((kindOfByte (byteAt s 0) ≠ .End ∧ kindOfByte (byteAt s 0) ≠ .NoOperation ∧
        kindOfByte (byteAt s 0) ≠ .Unknown) →
      optNewChecked s = .error .InvalidOptionLen) := by
  constructor
  · intro hk
    rcases hk with hk | hk | hk <;>
      (unfold optNewChecked; simp [h1, hk])
  · intro ⟨hk1, hk2, hk3⟩
    rcases hk : kindOfByte (byteAt s 0) <;> try (exact absurd hk (by simp [hk1, hk2, hk3]))
    all_goals
      unfold optNewChecked
      simp [h1, hk]

/-- C8 counterexample: the two-byte options slice `[0x44, 0x00]` is a
Timestamp option whose length byte is 0; `Option::new_checked` hands back an
empty option slice, the iterator then calls `kind()` on it and panics
(modelled as `crash`), so option iteration is not total and non-panicking on
every options slice. -/
theorem c8_counterexample : runOptions [0x44, 0x00] = .crash [] := by decide

/-- C8 amended: provided every routing-variant or Timestamp type byte inside
the slice is followed by a nonzero length byte, driving the iterator is
total and panic-free (it ends in exhaustion or a first InvalidOptionLen);
every yielded option is nonempty and is never an End option; and each call
consumes 1 byte for End/NoOperation/unknown, 11 for Security, 4 for
StreamId, and the length-byte value for the routing variants and Timestamp,
yielding InvalidOptionLen when the remaining slice is shorter than that. -/
theorem c8_option_iteration (buffer : List Nat)
    (hgood : ∀ i, i + 1 < buffer.length → isVarLen (byteAt buffer i) = true →
      1 ≤ byteAt buffer (i + 1)) :
    ((∃ opts, runOptions buffer = .ok opts ∨ runOptions buffer = .err opts) ∧
      (∀ o ∈ (runOptions buffer).yielded,
        1 ≤ o.length ∧ kindOfByte (byteAt o 0) ≠ .End)) ∧
    (∀ s : List Nat, 2 ≤ s.length →
      ((kindOfByte (byteAt s 0) = .End ∨ kindOfByte (byteAt s 0) = .NoOperation ∨
          kindOfByte (byteAt s 0) = .Unknown) → optNewChecked s = .ok (s.take 1)) ∧
      (kindOfByte (byteAt s 0) = .Security →
        optNewChecked s =
          if s.length < 11 then .error .InvalidOptionLen else .ok (s.take 11)) ∧
      (kindOfByte (byteAt s 0) = .StreamId →
        optNewChecked s =
          if s.length < 4 then .error .InvalidOptionLen else .ok (s.take 4)) ∧
      (isVarLen (byteAt s 0) = true →
        optNewChecked s =
          if s.length < byteAt s 1 then .error .InvalidOptionLen
          else .ok (s.take (byteAt s 1)))) ∧
    (∀ s : List Nat, s.length = 1 →
      ((kindOfByte (byteAt s 0) = .End ∨ kindOfByte (byteAt s 0) = .NoOperation ∨
          kindOfByte (byteAt s 0) = .Unknown) → optNewChecked s = .ok s) ∧
      ((kindOfByte (byteAt s 0) ≠ .End ∧ kindOfByte (byteAt s 0) ≠ .NoOperation ∧
          kindOfByte (byteAt s 0) ≠ .Unknown) →
        optNewChecked s = .error .InvalidOptionLen)) :=
  ⟨runOptionsAux_spec (buffer.length + 1) buffer 0 hgood (by omega) (by omega),
    optNewChecked_table, optNewChecked_single⟩

/-- C8 witness: the amended statement applied to a concrete options slice
holding one RecordRoute option of length 4. -/
theorem c8_option_iteration_witness :
    (∀ i, i + 1 < ([7, 4, 9, 9] : List Nat).length →
      isVarLen (byteAt [7, 4, 9, 9] i) = true → 1 ≤ byteAt [7, 4, 9, 9] (i + 1)) ∧
    (∃ opts, runOptions [7, 4, 9, 9] = .ok opts ∨ runOptions [7, 4, 9, 9] = .err opts) :=
  have hg : ∀ i, i + 1 < ([7, 4, 9, 9] : List Nat).length →
      isVarLen (byteAt [7, 4, 9, 9] i) = true → 1 ≤ byteAt [7, 4, 9, 9] (i + 1) := by
    intro i hi
    have h3 : i < 3 := by
      simp at hi
      omega
    interval_cases i <;> decide
  ⟨hg, (c8_option_iteration [7, 4, 9, 9] hg).1.1⟩

/-! ## Fragmentation lemmas (C2, C1) -/

theorem more_fragments_eq (l : List Nat) :
    more_fragments l = decide (flagsOf l % 2 = 1) := by
  rw [more_fragments, Nat.and_one_is_mod]

theorem offsetOf_lt (l : List Nat) : offsetOf l < 8192 := by
  rw [offsetOf, and_8191_eq]
  omega

theorem flagsOf_lt (l : List Nat) (h : ∀ b ∈ l, b < 256) : flagsOf l < 8 := by
  have h6 := byteAt_lt l 6 h
  rw [flagsOf, shiftRight_5]
  omega

theorem stepLen_pos (buffer : List Nat) (mtu cursor : Nat) (hmtu : 68 ≤ mtu)
    (hc : cursor < buffer.length) : 1 ≤ stepLen buffer mtu cursor := by
  rw [stepLen]
  split
  · omega
  · have hq : 6 ≤ (mtu - 20) / 8 := by omega
    omega

theorem stepLen_le (buffer : List Nat) (mtu cursor : Nat) (hmtu : 68 ≤ mtu)
    (hc : cursor < buffer.length) :
    stepLen buffer mtu cursor ≤ buffer.length - cursor := by
  rw [stepLen]
  split
  · omega
  · have hB : (mtu - 20) / 8 * 8 ≤ mtu - 20 := by omega
    omega

/-- All getter values and size bounds of a single fragment produced at a
given cursor. -/
theorem fragmentAt_facts (buffer : List Nat) (mtu cursor : Nat)
    (hb : ∀ b ∈ buffer, b < 256) (hmtu : 68 ≤ mtu) (hH5 : 5 ≤ header_len buffer)
    (hHc : header_len buffer * 4 ≤ cursor) (hc : cursor < buffer.length)
    (hlen : buffer.length ≤ 65535) :
    payload (fragmentAt buffer mtu cursor) =
      (buffer.drop cursor).take (stepLen buffer mtu cursor) ∧
    (fragmentAt buffer mtu cursor).length = 20 + stepLen buffer mtu cursor ∧
    total_len (fragmentAt buffer mtu cursor) = 20 + stepLen buffer mtu cursor ∧
    header_len (fragmentAt buffer mtu cursor) = 5 ∧
    version (fragmentAt buffer mtu cursor) = 4 ∧
    identification (fragmentAt buffer mtu cursor) = identification buffer ∧
    more_fragments (fragmentAt buffer mtu cursor) =
      (if buffer.length - cursor < mtu - 20 then more_fragments buffer else true) ∧
    offsetOf (fragmentAt buffer mtu cursor) =
      (offsetOf buffer + (cursor - header_len buffer * 4) / 8) % 8192 ∧
    20 + stepLen buffer mtu cursor ≤ mtu := by
  have hstep : stepLen buffer mtu cursor =
      if buffer.length - cursor < mtu - 20 then buffer.length - cursor
      else (mtu - 20) / 8 * 8 := rfl
  have hBle : (mtu - 20) / 8 * 8 ≤ mtu - 20 := by omega
  have hsle := stepLen_le buffer mtu cursor hmtu hc
  have hspos := stepLen_pos buffer mtu cursor hmtu hc
  have hfrag : fragmentAt buffer mtu cursor =
      build_vec
        { header_len := 5
          tos := tos buffer
          total_len := (20 + stepLen buffer mtu cursor) % 2 ^ 16
          identification := identification buffer
          flags :=
            if ¬(buffer.length - cursor < mtu - 20) then flagsOf buffer ||| 0b001
            else flagsOf buffer
          offset :=
            (offsetOf buffer + (cursor - header_len buffer * 4) / 8) % 2 ^ 16
          ttl := ttl buffer
          protocol := Protocol.ofByte (protocolByte buffer)
          src_addr := src_addr buffer
          dest_addr := dest_addr buffer
          payload := (buffer.drop cursor).take (stepLen buffer mtu cursor) } := rfl
  rw [hfrag]
  have h5 : (5 : Nat) ≤ 5 := le_refl 5
  have h15 : (5 : Nat) ≤ 15 := by norm_num
  have hplen : ((buffer.drop cursor).take (stepLen buffer mtu cursor)).length =
      stepLen buffer mtu cursor := by
    rw [List.length_take, List.length_drop]
    omega
  have htlval : 20 + stepLen buffer mtu cursor ≤ 65535 := by omega
  refine ⟨?_, ?_, ?_, ?_, ?_, ?_, ?_, ?_, ?_⟩
  · rw [payload_build _ h5 h15]
  · rw [build_vec_length _ h5 h15, hplen]
    norm_num
  · rw [total_len_build _ h5 h15]
    have heff : effTotalLen
        { header_len := 5
          tos := tos buffer
          total_len := (20 + stepLen buffer mtu cursor) % 2 ^ 16
          identification := identification buffer
          flags :=
            if ¬(buffer.length - cursor < mtu - 20) then flagsOf buffer ||| 0b001
            else flagsOf buffer
          offset :=
            (offsetOf buffer + (cursor - header_len buffer * 4) / 8) % 2 ^ 16
          ttl := ttl buffer
          protocol := Protocol.ofByte (protocolByte buffer)
          src_addr := src_addr buffer
          dest_addr := dest_addr buffer
          payload := (buffer.drop cursor).take (stepLen buffer mtu cursor) } =
        20 + stepLen buffer mtu cursor := by
      have hnz : (20 + stepLen buffer mtu cursor) % 65536 ≠ 0 := by omega
      simp [effTotalLen, hnz]
      omega
    rw [heff]
    omega
  · rw [header_len_build _ h5 h15]
  · rw [version_build _ h5 h15]
    show (4 : Nat) % 16 = 4
    norm_num
  · rw [identification_build _ h5 h15]
    have hlt := identification_lt buffer hb
    show identification buffer % 65536 = identification buffer
    omega
  · rw [more_fragments_build _ h5 h15]
    by_cases hl : buffer.length - cursor < mtu - 20
    · simp only [hl, not_true_eq_false, if_false, if_true, if_pos hl]
      rw [more_fragments_eq]
    · simp only [hl, not_false_eq_true, if_true, if_neg hl]
      have hone : (flagsOf buffer ||| 1) % 2 = 1 := by
        rw [Nat.or_mod_two_eq_one]
        norm_num
      simp [hone]
  · rw [offsetOf_build _ h5 h15]
    show (offsetOf buffer + (cursor - header_len buffer * 4) / 8) % 2 ^ 16 % 8192 =
      (offsetOf buffer + (cursor - header_len buffer * 4) / 8) % 8192
    omega
  · rw [hstep]
    split
    · omega
    · omega

/-- Structure of the fragment list: the k-th fragment is built at cursor
`cursor + k·B` where `B = 8·⌊(mtu−20)/8⌋`; all but the final step see at
least `mtu − 20` remaining bytes; the final step either sees fewer than
`mtu − 20` remaining bytes (a true last fragment) or exactly `B = mtu − 20`
(the boundary case in which the final fragment still carries MF); and the
concatenation of fragment payloads is the remainder of the buffer. -/
theorem fragmentsAux_facts : ∀ fuel (buffer : List Nat) (mtu cursor : Nat),
    (∀ b ∈ buffer, b < 256) → 68 ≤ mtu → 5 ≤ header_len buffer →
    header_len buffer * 4 ≤ cursor → buffer.length ≤ 65535 →
    buffer.length + 1 ≤ fuel + cursor →
    ((fragmentsAux fuel buffer mtu cursor = []) ↔ buffer.length ≤ cursor) ∧
    (∀ k, k < (fragmentsAux fuel buffer mtu cursor).length →
      (fragmentsAux fuel buffer mtu cursor)[k]? =
        some (fragmentAt buffer mtu (cursor + k * ((mtu - 20) / 8 * 8)))) ∧
    (∀ k, k + 1 < (fragmentsAux fuel buffer mtu cursor).length →
      mtu - 20 ≤ buffer.length - (cursor + k * ((mtu - 20) / 8 * 8))) ∧
    (fragmentsAux fuel buffer mtu cursor ≠ [] →
      cursor + ((fragmentsAux fuel buffer mtu cursor).length - 1) *
          ((mtu - 20) / 8 * 8) < buffer.length ∧
        (buffer.length - (cursor + ((fragmentsAux fuel buffer mtu cursor).length - 1) *
            ((mtu - 20) / 8 * 8)) < mtu - 20 ∨
          buffer.length - (cursor + ((fragmentsAux fuel buffer mtu cursor).length - 1) *
              ((mtu - 20) / 8 * 8)) = (mtu - 20) / 8 * 8 ∧
            (mtu - 20) / 8 * 8 = mtu - 20)) ∧
    ((fragmentsAux fuel buffer mtu cursor).map payload).flatten = buffer.drop cursor := by
  intro fuel
  induction fuel with
  | zero =>
    intro buffer mtu cursor hb hmtu hH5 hHc hlen hfuel
    have hge : buffer.length ≤ cursor := by omega
    rw [fragmentsAux]
    refine ⟨by simp [hge], by simp, by simp, by simp, ?_⟩
    simp [List.drop_eq_nil_iff.mpr hge]
  | succ f ih =>
    intro buffer mtu cursor hb hmtu hH5 hHc hlen hfuel
    rw [fragmentsAux]
    by_cases hge : cursor ≥ buffer.length
    · rw [if_pos hge]
      refine ⟨by simp [hge], by simp, by simp, by simp, ?_⟩
      simp [List.drop_eq_nil_iff.mpr hge]
    · rw [if_neg hge]
      have hc : cursor < buffer.length := by omega
      have hspos := stepLen_pos buffer mtu cursor hmtu hc
      have hsle := stepLen_le buffer mtu cursor hmtu hc
      have hBle : (mtu - 20) / 8 * 8 ≤ mtu - 20 := by omega
      have hB48 : 48 ≤ (mtu - 20) / 8 * 8 := by
        have hq : 6 ≤ (mtu - 20) / 8 := by omega
        omega
      obtain ⟨hfp, hflen, hftl, hfh, hfv, hfid, hfmf, hfoff, hfsz⟩ :=
        fragmentAt_facts buffer mtu cursor hb hmtu hH5 hHc hc hlen
      obtain ⟨ih1, ih2, ih3, ih4, ih5⟩ :=
        ih buffer mtu (cursor + stepLen buffer mtu cursor) hb hmtu hH5 (by omega)
          hlen (by omega)
      by_cases hLast : buffer.length - cursor < mtu - 20
      · have hs : stepLen buffer mtu cursor = buffer.length - cursor := by
          rw [stepLen, if_pos hLast]
        have hrest : fragmentsAux f buffer mtu (cursor + stepLen buffer mtu cursor) = [] :=
          ih1.mpr (by omega)
        rw [hrest]
        refine ⟨by simp; omega, ?_, ?_, ?_, ?_⟩
        · intro k hk
          simp at hk
          have hk0 : k = 0 := by omega
          subst hk0
          simp [Nat.zero_mul, Nat.add_zero]
        · intro k hk
          simp at hk
        · intro hne
          simp only [List.length_cons, List.length_nil]
          refine ⟨by simpa using hc, ?_⟩
          left
          simpa using hLast
        · simp only [List.map_cons, List.map_nil, List.flatten_cons, List.flatten_nil,
            List.append_nil, hfp]
          rw [hs]
          have hdl : (buffer.drop cursor).length = buffer.length - cursor := by simp
          rw [← hdl, List.take_length]
      · have hs : stepLen buffer mtu cursor = (mtu - 20) / 8 * 8 := by
          rw [stepLen, if_neg hLast]
        rw [hs] at hfp hsle hspos ih1 ih2 ih3 ih4 ih5 ⊢
        refine ⟨by simp; omega, ?_, ?_, ?_, ?_⟩
        · intro k hk
          cases k with
          | zero => simp [Nat.zero_mul, Nat.add_zero]
          | succ j =>
            simp only [List.getElem?_cons_succ]
            simp only [List.length_cons] at hk
            have hj := ih2 j (by omega)
            have harith : cursor + (mtu - 20) / 8 * 8 + j * ((mtu - 20) / 8 * 8) =
                cursor + (j + 1) * ((mtu - 20) / 8 * 8) := by ring
            rw [harith] at hj
            exact hj
        · intro k hk
          simp only [List.length_cons] at hk
          cases k with
          | zero =>
            simp only [Nat.zero_mul, Nat.add_zero]
            omega
          | succ j =>
            have hj := ih3 j (by omega)
            have harith : cursor + (mtu - 20) / 8 * 8 + j * ((mtu - 20) / 8 * 8) =
                cursor + (j + 1) * ((mtu - 20) / 8 * 8) := by ring
            rw [harith] at hj
            exact hj
        · intro hne
          by_cases hre : fragmentsAux f buffer mtu (cursor + (mtu - 20) / 8 * 8) = []
          · have hlenrest := ih1.mp hre
            rw [hre]
            simp only [List.length_cons, List.length_nil]
            refine ⟨by simpa using hc, ?_⟩
            right
            constructor
            · omega
            · omega
          · obtain ⟨ihp, ihd⟩ := ih4 hre
            have hrlen : 1 ≤ (fragmentsAux f buffer mtu
                (cursor + (mtu - 20) / 8 * 8)).length := by
              cases hh : fragmentsAux f buffer mtu (cursor + (mtu - 20) / 8 * 8) with
              | nil => exact absurd hh hre
              | cons a t => simp [hh]
            simp only [List.length_cons]
            have harith : cursor + ((fragmentsAux f buffer mtu
                (cursor + (mtu - 20) / 8 * 8)).length + 1 - 1) * ((mtu - 20) / 8 * 8) =
                cursor + (mtu - 20) / 8 * 8 + ((fragmentsAux f buffer mtu
                  (cursor + (mtu - 20) / 8 * 8)).length - 1) * ((mtu - 20) / 8 * 8) := by
              obtain ⟨M, hM⟩ : ∃ M, (fragmentsAux f buffer mtu
                  (cursor + (mtu - 20) / 8 * 8)).length = M + 1 :=
                ⟨(fragmentsAux f buffer mtu (cursor + (mtu - 20) / 8 * 8)).length - 1,
                  by omega⟩
              rw [hM, Nat.add_sub_cancel, Nat.add_sub_cancel]
              ring
            rw [harith]
            exact ⟨ihp, ihd⟩
        · simp only [List.map_cons, List.flatten_cons, hfp, ih5]
          have hdd : List.drop (cursor + (mtu - 20) / 8 * 8) buffer =
              (buffer.drop cursor).drop ((mtu - 20) / 8 * 8) := by
            rw [List.drop_drop]
          rw [hdd, List.take_append_drop]

theorem total_len_le (l : List Nat) (h : ∀ b ∈ l, b < 256) : total_len l ≤ 65535 := by
  have h2 := byteAt_lt l 2 h
  have h3 := byteAt_lt l 3 h
  rw [total_len]
  omega

section

attribute [local irreducible] fragmentAt build_vec checksum fragmentsAux

set_option maxHeartbeats 1000000 in
/-- Top-level fragment-list facts for a valid datagram (shared helper). -/
theorem fragments_facts (D : List Nat) (mtu : Nat) (hb : ∀ b ∈ D, b < 256)
    (hH5 : 5 ≤ header_len D) (hHle : header_len D * 4 ≤ D.length)
    (htl : total_len D = D.length) (hmtu : 68 ≤ mtu) :
    ((fragments D mtu).map payload).flatten = payload D ∧
    (∀ f, (fragments D mtu).head? = some f → offsetOf f = offsetOf D) ∧
    (∀ k, k + 1 < (fragments D mtu).length →
      ∀ f, (fragments D mtu)[k]? = some f → more_fragments f = true) ∧
    (∀ f, (fragments D mtu).getLast? = some f →
      (more_fragments f = false ↔
        (more_fragments D = false ∧ (payload f).length < mtu - 20))) ∧
    (∀ f ∈ fragments D mtu,
      f.length ≤ mtu ∧ total_len f = f.length ∧ header_len f = 5 ∧ version f = 4 ∧
        identification f = identification D) := by
  have hlen : D.length ≤ 65535 := by
    have := total_len_le D hb
    omega
  have hbuf : D.take (total_len D) = D := by
    rw [htl]
    exact List.take_length D
  have hfr : fragments D mtu =
      fragmentsAux (D.length + 1) D mtu (header_len D * 4) := by
    rw [fragments, hbuf]
  rw [hfr]
  obtain ⟨c1, c2, c3, c4, c5⟩ :=
    fragmentsAux_facts (D.length + 1) D mtu (header_len D * 4) hb hmtu hH5
      (le_refl _) hlen (by omega)
  set FR := fragmentsAux (D.length + 1) D mtu (header_len D * 4) with hFR
  have hB48 : 48 ≤ (mtu - 20) / 8 * 8 := by
    have hq : 6 ≤ (mtu - 20) / 8 := by omega
    omega
  have hBle : (mtu - 20) / 8 * 8 ≤ mtu - 20 := by omega
  -- positions of all fragments are valid cursors
  have hcursor : ∀ k, k < (FR).length →
      header_len D * 4 + k * ((mtu - 20) / 8 * 8) < D.length := by
    intro k hk
    by_cases hlast : k + 1 < (FR).length
    · have := c3 k hlast
      omega
    · have hne : FR ≠ [] := by
        intro hnil
        rw [hnil] at hk
        simp at hk
      obtain ⟨hp, _⟩ := c4 hne
      have hkeq : k = (FR).length - 1 := by omega
      rw [hkeq]
      exact hp
  refine ⟨?_, ?_, ?_, ?_, ?_⟩
  · rw [c5, payload]
    congr 1
    ring
  · intro f hf
    rw [List.head?_eq_getElem?] at hf
    have hne : 0 < (FR).length := by
      by_contra hz
      rw [List.getElem?_eq_none (by omega)] at hf
      exact Option.noConfusion hf
    rw [c2 0 hne] at hf
    have hf' : f = fragmentAt D mtu (header_len D * 4 + 0 * ((mtu - 20) / 8 * 8)) :=
      (Option.some.inj hf).symm
    subst hf'
    have hc0 : header_len D * 4 + 0 * ((mtu - 20) / 8 * 8) = header_len D * 4 := by ring
    rw [hc0]
    obtain ⟨_, _, _, _, _, _, _, hoff, _⟩ :=
      fragmentAt_facts D mtu (header_len D * 4) hb hmtu hH5 (le_refl _)
        (by have := hcursor 0 hne; omega) hlen
    rw [hoff, Nat.sub_self]
    have hol := offsetOf_lt D
    simp
    omega
  · intro k hk f hf
    rw [c2 k (by omega)] at hf
    have hf' : f = fragmentAt D mtu (header_len D * 4 + k * ((mtu - 20) / 8 * 8)) :=
      (Option.some.inj hf).symm
    subst hf'
    have hrem := c3 k hk
    obtain ⟨_, _, _, _, _, _, hmfk, _, _⟩ :=
      fragmentAt_facts D mtu (header_len D * 4 + k * ((mtu - 20) / 8 * 8)) hb hmtu hH5
        (by omega) (by omega) hlen
    rw [hmfk, if_neg (by omega)]
  · intro f hf
    rw [List.getLast?_eq_getElem?] at hf
    have hne : FR ≠ [] := by
      intro hnil
      rw [hnil] at hf
      simp at hf
    have hlpos : 0 < (FR).length := by
      cases hh : FR with
      | nil => exact absurd hh hne
      | cons a t => simp [hh]
    rw [c2 _ (by omega)] at hf
    have hf' : f = fragmentAt D mtu (header_len D * 4 +
        ((FR).length - 1) *
          ((mtu - 20) / 8 * 8)) := (Option.some.inj hf).symm
    subst hf'
    obtain ⟨hp, hd⟩ := c4 hne
    obtain ⟨hfp, _, _, _, _, _, hmfk, _, _⟩ :=
      fragmentAt_facts D mtu (header_len D * 4 +
        ((FR).length - 1) *
          ((mtu - 20) / 8 * 8)) hb hmtu hH5 (by omega) hp hlen
    rw [hmfk, hfp]
    have hplen : ((D.drop (header_len D * 4 +
        ((FR).length - 1) *
          ((mtu - 20) / 8 * 8))).take (stepLen D mtu (header_len D * 4 +
        ((FR).length - 1) *
          ((mtu - 20) / 8 * 8)))).length = stepLen D mtu (header_len D * 4 +
        ((FR).length - 1) *
          ((mtu - 20) / 8 * 8)) := by
      rw [List.length_take, List.length_drop]
      have := stepLen_le D mtu _ hmtu hp
      omega
    rw [hplen]
    have hstep : stepLen D mtu (header_len D * 4 +
        ((FR).length - 1) *
          ((mtu - 20) / 8 * 8)) =
        if D.length - (header_len D * 4 +
          ((FR).length - 1) *
            ((mtu - 20) / 8 * 8)) < mtu - 20
        then D.length - (header_len D * 4 +
          ((FR).length - 1) *
            ((mtu - 20) / 8 * 8))
        else (mtu - 20) / 8 * 8 := rfl
    rcases hd with hcase | ⟨hcase1, hcase2⟩
    · rw [if_pos hcase, hstep, if_pos hcase]
      simp [hcase]
    · rw [if_neg (by omega), hstep, if_neg (by omega)]
      constructor
      · intro htrue
        exact absurd htrue (by simp)
      · intro ⟨_, hlt⟩
        omega
  · intro f hfmem
    obtain ⟨k, hk⟩ := List.mem_iff_getElem?.mp hfmem
    have hklt : k < (FR).length := by
      rcases List.getElem?_eq_some.mp hk with ⟨hlt, _⟩
      exact hlt
    rw [c2 k hklt] at hk
    have hf' : f = fragmentAt D mtu (header_len D * 4 + k * ((mtu - 20) / 8 * 8)) :=
      (Option.some.inj hk).symm
    subst hf'
    obtain ⟨_, hflen, hftl, hfh, hfv, hfid, _, _, hfsz⟩ :=
      fragmentAt_facts D mtu (header_len D * 4 + k * ((mtu - 20) / 8 * 8)) hb hmtu hH5
        (by omega) (hcursor k hklt) hlen
    exact ⟨by omega, by omega, hfh, hfv, hfid⟩

end

/-- The failing input for the C2/C1 counterexamples: a complete builder
datagram whose 48-byte payload is an exact multiple of the 48-byte fragment
block at MTU 68. -/
def c2cfg48 : BuilderCfg :=
  { identification := 0x1001, ttl := 20, protocol := .Udp, payload := List.range 48 }

/-- C2 counterexample: the datagram built from `c2cfg48` is valid, has DF
and MF clear, and MTU 68 ≥ 68, yet `fragments` yields exactly one fragment
and that (last) fragment has MF set — `is_last` tests
`remaining < mtu - 20` strictly, so a remainder of exactly `mtu - 20`
divisible by 8 is emitted as a non-last fragment. -/
theorem c2_counterexample :
    version (build_vec c2cfg48) = 4 ∧
    header_len (build_vec c2cfg48) = 5 ∧
    total_len (build_vec c2cfg48) = (build_vec c2cfg48).length ∧
    more_fragments (build_vec c2cfg48) = false ∧
    dont_fragment (build_vec c2cfg48) = false ∧
    (fragments (build_vec c2cfg48) 68).length = 1 ∧
    (∀ f ∈ fragments (build_vec c2cfg48) 68, more_fragments f = true) := by decide

/-- C2 amended: for a valid complete datagram (version 4, IHL ≥ 5, total
length = buffer length, MF and DF clear) and MTU ≥ 68: the concatenation of
the fragments' payloads in order is the datagram payload; the first
fragment's offset equals the datagram's offset; every fragment but the last
has MF set; the last fragment has MF clear if and only if its payload is
smaller than mtu − 20 (otherwise — when the payload size is an exact
positive multiple of mtu − 20 with mtu − 20 divisible by 8 — it too carries
MF); and every fragment is at most MTU bytes long, with a consistent
total-length field. -/
theorem c2_fragmentation (D : List Nat) (mtu : Nat) (hb : ∀ b ∈ D, b < 256)
    (_hver : version D = 4) (hH5 : 5 ≤ header_len D)
    (hHle : header_len D * 4 ≤ D.length) (htl : total_len D = D.length)
    (hmf : more_fragments D = false) (_hdf : dont_fragment D = false)
    (hmtu : 68 ≤ mtu) :
    ((fragments D mtu).map payload).flatten = payload D ∧
    (∀ f, (fragments D mtu).head? = some f → offsetOf f = offsetOf D) ∧
    (∀ k, k + 1 < (fragments D mtu).length →
      ∀ f, (fragments D mtu)[k]? = some f → more_fragments f = true) ∧
    (∀ f, (fragments D mtu).getLast? = some f →
      (more_fragments f = false ↔ (payload f).length < mtu - 20)) ∧
    (∀ f ∈ fragments D mtu, f.length ≤ mtu ∧ total_len f = f.length) := by
  obtain ⟨h1, h2, h3, h4, h5⟩ := fragments_facts D mtu hb hH5 hHle htl hmtu
  refine ⟨h1, h2, h3, ?_, ?_⟩
  · intro f hf
    rw [h4 f hf]
    simp [hmf]
  · intro f hfm
    obtain ⟨ha, hc, _, _, _⟩ := h5 f hfm
    exact ⟨ha, hc⟩

/-- C2 witness: the payload-concatenation clause at the repository's own
fragmentation test vector (100-byte payload, MTU 68). -/
theorem c2_fragmentation_witness :
    (∀ b ∈ build_vec (defaultCfgWith 0 4097 0 0 64 .Udp 3232295401 3232295402
      (List.range 100)), b < 256) ∧
    ((fragments (build_vec (defaultCfgWith 0 4097 0 0 64 .Udp 3232295401 3232295402
        (List.range 100))) 68).map payload).flatten =
      payload (build_vec (defaultCfgWith 0 4097 0 0 64 .Udp 3232295401 3232295402
        (List.range 100))) :=
  ⟨by decide,
    (c2_fragmentation _ 68 (by decide) (by decide) (by decide) (by decide) (by decide)
      (by decide) (by decide) (by decide)).1⟩

/-! ## Reassembly: hole-list development (C6 and C1)

`insertSeq` runs a sequence of `IncompleteDatagram::insert` calls from the
default context; `inHoles` and `coveredBy` express membership of an octet
index in the hole list and in the accepted fragments' octet spans. -/

/-- Run a sequence of `insert` calls from the default context. -/
def insertSeq (frags : List (List Nat)) : IncompleteDatagram :=
  frags.foldl IncompleteDatagram.insert IncompleteDatagram.default

/-- Octet `i` lies inside one of the holes. -/
def inHoles (holes : List Hole) (i : Nat) : Bool :=
  holes.any fun h => decide (h.first ≤ i) && decide (i ≤ h.last)

/-- Octet `i` lies inside the span of one of the fragments. -/
def coveredBy (frags : List (List Nat)) (i : Nat) : Bool :=
  frags.any fun g => decide (firstOctet g ≤ i) && decide (i ≤ lastOctet g)

/-- Per-hole effect of the `while` loop of `insert`: an intersecting hole is
replaced by its split parts, any other hole is kept. -/
def splitOrKeep (fst lst : Nat) (mf : Bool) (h : Hole) : List Hole :=
  if holeIntersects fst lst h then splitHole fst lst mf h else [h]

/-- The sorted-insertion step `insert` performs on the stored fragment
list. -/
def storedInsert (frags : List (List Nat)) (fragment : List Nat) : List (List Nat) :=
  match frags.findIdx? (fun frag => firstOctet frag > firstOctet fragment) with
  | some position => frags.insertIdx position fragment
  | none => frags ++ [fragment]

/-- A well-formed fragment relative to the datagram end `E`: the
total-length field is consistent with the buffer (header plus payload
bytes), the payload is nonempty, the octet span fits the 16-bit octet
space, and the MF bit matches the fragment's position (an MF=0 fragment
ends exactly at `E`, an MF=1 fragment strictly before `E`). -/
def GoodFrag (E : Nat) (f : List Nat) : Prop :=
  total_len f = header_len f * 4 + (payload f).length ∧
  1 ≤ (payload f).length ∧
  firstOctet f + (payload f).length ≤ 65535 ∧
  (if more_fragments f then lastOctet f < E else lastOctet f = E)

instance (E : Nat) (f : List Nat) : Decidable (GoodFrag E f) := by
  unfold GoodFrag
  infer_instance

theorem header_len_le (l : List Nat) : header_len l ≤ 15 := by
  rw [header_len, and_15_eq]
  omega

theorem lastOctet_eq (f : List Nat) (h1 : 1 ≤ (payload f).length)
    (h2 : firstOctet f + (payload f).length ≤ 65535) :
    lastOctet f = firstOctet f + (payload f).length - 1 := by
  have hpow : (2 : Nat) ^ 16 = 65536 := by norm_num
  rw [lastOctet, hpow]
  omega

/-- The `total_data_len` value stored by `insert` for a good MF=0 fragment
is the octet index one past the datagram end. -/
theorem insert_tdl_eq (E : Nat) (f : List Nat) (hg : GoodFrag E f)
    (hmf : more_fragments f = false) :
    (total_len f + 2 ^ 16 - header_len f * 4 % 2 ^ 16 + firstOctet f) % 2 ^ 16 = E + 1 := by
  obtain ⟨hc, hp1, hsp, hE⟩ := hg
  have hE' : lastOctet f = E := by
    rw [hmf] at hE
    simpa using hE
  have hlast := lastOctet_eq f hp1 hsp
  have hh := header_len_le f
  have hpow : (2 : Nat) ^ 16 = 65536 := by norm_num
  rw [hpow]
  omega

theorem bool_eq_of_iff {a b : Bool} (h : a = true ↔ b = true) : a = b := by
  cases a <;> cases b <;> simp_all

/-- Octet membership in the split parts of one hole.  For an MF=1 fragment
the parts are exactly the hole minus the fragment span; for an MF=0
fragment the same holds below `lst` (the part above `lst` is discarded). -/
theorem mem_splitOrKeep (fst lst : Nat) (mf : Bool) (h : Hole) (i : Nat)
    (him : mf = true ∨ i ≤ lst) :
    (∃ p ∈ splitOrKeep fst lst mf h, p.first ≤ i ∧ i ≤ p.last) ↔
      ((h.first ≤ i ∧ i ≤ h.last) ∧ ¬(fst ≤ i ∧ i ≤ lst)) := by
  by_cases hx : holeIntersects fst lst h = true
  · have hx' := hx
    rw [holeIntersects, Bool.and_eq_true, decide_eq_true_eq, decide_eq_true_eq] at hx'
    rw [splitOrKeep, if_pos hx, splitHole]
    constructor
    · rintro ⟨p, hp, hi1, hi2⟩
      rw [List.mem_append] at hp
      rcases hp with hp | hp
      · by_cases h3 : fst > h.first
        · rw [if_pos h3, List.mem_singleton] at hp
          subst hp
          dsimp at hi1 hi2
          exact ⟨⟨hi1, by omega⟩, by omega⟩
        · rw [if_neg h3] at hp
          exact absurd hp (List.not_mem_nil p)
      · by_cases h4 : lst < h.last ∧ mf = true
        · rw [if_pos h4, List.mem_singleton] at hp
          subst hp
          dsimp at hi1 hi2
          exact ⟨⟨by omega, hi2⟩, by omega⟩
        · rw [if_neg h4] at hp
          exact absurd hp (List.not_mem_nil p)
    · rintro ⟨⟨ha, hb⟩, hc⟩
      push_neg at hc
      by_cases hif : i < fst
      · refine ⟨⟨h.first, fst - 1⟩, ?_, by dsimp; omega, by dsimp; omega⟩
        rw [List.mem_append]
        left
        rw [if_pos (by omega : fst > h.first)]
        exact List.mem_singleton.mpr rfl
      · have hgt : lst < i := by
          rcases him with hm | hm
          · exact hc (by omega)
          · omega
        have hmt : mf = true := by
          rcases him with hm | hm
          · exact hm
          · omega
        refine ⟨⟨lst + 1, h.last⟩, ?_, by dsimp; omega, by dsimp; omega⟩
        rw [List.mem_append]
        right
        rw [if_pos ⟨by omega, hmt⟩]
        exact List.mem_singleton.mpr rfl
  · have hx' := hx
    rw [holeIntersects, Bool.and_eq_true, decide_eq_true_eq, decide_eq_true_eq] at hx'
    rw [splitOrKeep, if_neg hx]
    constructor
    · rintro ⟨p, hp, hi1, hi2⟩
      rw [List.mem_singleton] at hp
      rw [hp] at hi1 hi2
      refine ⟨⟨hi1, hi2⟩, ?_⟩
      rintro ⟨hfi, hil⟩
      by_cases hA : fst ≤ h.last
      · exact hx' ⟨hA, by omega⟩
      · omega
    · rintro ⟨⟨ha, hb⟩, _⟩
      exact ⟨h, List.mem_singleton.mpr rfl, ha, hb⟩

/-- Split parts are contained in the hole's span and well-formed. -/
theorem splitOrKeep_subset (fst lst : Nat) (mf : Bool) (h : Hole)
    (hwf : h.first ≤ h.last) :
    ∀ p ∈ splitOrKeep fst lst mf h, h.first ≤ p.first ∧ p.last ≤ h.last ∧ p.first ≤ p.last := by
  intro p hp
  rw [splitOrKeep] at hp
  by_cases hx : holeIntersects fst lst h = true
  · have hx' := hx
    rw [holeIntersects, Bool.and_eq_true, decide_eq_true_eq, decide_eq_true_eq] at hx'
    rw [if_pos hx, splitHole, List.mem_append] at hp
    rcases hp with hp | hp
    · by_cases h3 : fst > h.first
      · rw [if_pos h3, List.mem_singleton] at hp
        subst hp
        dsimp
        omega
      · rw [if_neg h3] at hp
        exact absurd hp (List.not_mem_nil p)
    · by_cases h4 : lst < h.last ∧ mf = true
      · rw [if_pos h4, List.mem_singleton] at hp
        subst hp
        dsimp
        omega
      · rw [if_neg h4] at hp
        exact absurd hp (List.not_mem_nil p)
  · rw [if_neg hx, List.mem_singleton] at hp
    subst hp
    exact ⟨le_refl _, le_refl _, hwf⟩

/-- Split parts never intersect the fragment span again. -/
theorem splitHole_not_intersects (fst lst : Nat) (mf : Bool) (h : Hole) :
    ∀ p ∈ splitHole fst lst mf h, holeIntersects fst lst p = false := by
  intro p hp
  rw [splitHole, List.mem_append] at hp
  rcases hp with hp | hp
  · by_cases h3 : fst > h.first
    · rw [if_pos h3, List.mem_singleton] at hp
      subst hp
      rw [holeIntersects, Bool.and_eq_false_iff]
      left
      rw [decide_eq_false_iff_not]
      dsimp
      omega
    · rw [if_neg h3] at hp
      exact absurd hp (List.not_mem_nil p)
  · by_cases h4 : lst < h.last ∧ mf = true
    · rw [if_pos h4, List.mem_singleton] at hp
      subst hp
      rw [holeIntersects, Bool.and_eq_false_iff]
      right
      rw [decide_eq_false_iff_not]
      dsimp
      omega
    · rw [if_neg h4] at hp
      exact absurd hp (List.not_mem_nil p)

/-- When no hole intersects the span, `splitOrKeep` keeps the list. -/
theorem flatMap_splitOrKeep_of_none (fst lst : Nat) (mf : Bool) :
    ∀ holes : List Hole, (∀ h ∈ holes, holeIntersects fst lst h = false) →
      holes.flatMap (splitOrKeep fst lst mf) = holes := by
  intro holes
  induction holes with
  | nil => intro _; rfl
  | cons h t ih =>
    intro hall
    have h0 : holeIntersects fst lst h = false := hall h (List.mem_cons_self h t)
    rw [List.flatMap_cons, splitOrKeep, h0,
      ih (fun g hg => hall g (List.mem_cons_of_mem h hg))]
    rfl

/-- Sortedness and disjointness of the holes survive splitting. -/
theorem pairwise_flatMap_splitOrKeep (fst lst : Nat) (mf : Bool) (hfl : fst ≤ lst)
    (holes : List Hole) (hwf : ∀ h ∈ holes, h.first ≤ h.last)
    (hp : List.Pairwise (fun a b : Hole => a.last < b.first) holes) :
    List.Pairwise (fun a b : Hole => a.last < b.first)
      (holes.flatMap (splitOrKeep fst lst mf)) := by
  induction holes with
  | nil => simp
  | cons h t ih =>
    rw [List.flatMap_cons, List.pairwise_append]
    rw [List.pairwise_cons] at hp
    have hhwf : h.first ≤ h.last := hwf h (List.mem_cons_self h t)
    refine ⟨?_, ih (fun g hg => hwf g (List.mem_cons_of_mem h hg)) hp.2, ?_⟩
    · rw [splitOrKeep]
      by_cases hx : holeIntersects fst lst h = true
      · rw [if_pos hx, splitHole]
        by_cases h3 : fst > h.first <;> by_cases h4 : lst < h.last ∧ mf = true
        · rw [if_pos h3, if_pos h4, List.singleton_append]
          refine List.pairwise_cons.mpr ⟨?_, List.pairwise_singleton _ _⟩
          intro b hb
          rw [List.mem_singleton] at hb
          subst hb
          dsimp
          omega
        · rw [if_pos h3, if_neg h4]
          simp
        · rw [if_neg h3, if_pos h4]
          simp
        · rw [if_neg h3, if_neg h4]
          simp
      · rw [if_neg hx]
        exact List.pairwise_singleton _ _
    · intro p hpmem q hqmem
      obtain ⟨g, hg, hqg⟩ := List.mem_flatMap.mp hqmem
      have hRg : h.last < g.first := hp.1 g hg
      have hps := splitOrKeep_subset fst lst mf h hhwf p hpmem
      have hqs := splitOrKeep_subset fst lst mf g
        (hwf g (List.mem_cons_of_mem h hg)) q hqg
      omega

theorem fillLoop_succ_none (fst lst : Nat) (mf : Bool) (n : Nat) (holes : List Hole)
    (filled : Bool)
    (h : holes.findIdx? (fun h => holeIntersects fst lst h) = none) :
    fillLoop fst lst mf (n + 1) holes filled = (holes, filled) := by
  rw [fillLoop, h]

theorem fillLoop_succ_some (fst lst : Nat) (mf : Bool) (n : Nat) (holes : List Hole)
    (filled : Bool) (pos : Nat)
    (h : holes.findIdx? (fun h => holeIntersects fst lst h) = some pos) :
    fillLoop fst lst mf (n + 1) holes filled =
      fillLoop fst lst mf n
        (holes.take pos ++ splitHole fst lst mf ((holes.get? pos).getD ⟨0, 0⟩) ++
          holes.drop (pos + 1)) true := by
  rw [fillLoop, h]

/-- Characterization of the `while let` loop: with enough fuel it replaces
every intersecting hole by its split parts in place and reports whether any
hole intersected. -/
theorem fillLoop_spec (fst lst : Nat) (mf : Bool) :
    ∀ (fuel : Nat) (holes : List Hole) (filled : Bool),
      holes.countP (fun h => holeIntersects fst lst h) ≤ fuel →
      fillLoop fst lst mf fuel holes filled =
        (holes.flatMap (splitOrKeep fst lst mf),
          filled || holes.any (fun h => holeIntersects fst lst h)) := by
  intro fuel
  induction fuel with
  | zero =>
    intro holes filled hcnt
    have hall : ∀ h ∈ holes, holeIntersects fst lst h = false := by
      intro h hh
      have := List.countP_eq_zero.mp (Nat.le_zero.mp hcnt) h hh
      simpa using this
    rw [fillLoop, flatMap_splitOrKeep_of_none fst lst mf holes hall]
    have hany : holes.any (fun h => holeIntersects fst lst h) = false := by
      rw [List.any_eq_false]
      intro h hh
      simp [hall h hh]
    rw [hany, Bool.or_false]
  | succ n ih =>
    intro holes filled hcnt
    cases hfind : holes.findIdx? (fun h => holeIntersects fst lst h) with
    | none =>
      have hall : ∀ h ∈ holes, holeIntersects fst lst h = false := by
        intro h hh
        have := List.findIdx?_eq_none_iff.mp hfind h hh
        simpa using this
      rw [fillLoop_succ_none fst lst mf n holes filled hfind,
        flatMap_splitOrKeep_of_none fst lst mf holes hall]
      have hany : holes.any (fun h => holeIntersects fst lst h) = false := by
        rw [List.any_eq_false]
        intro h hh
        simp [hall h hh]
      rw [hany, Bool.or_false]
    | some pos =>
      obtain ⟨hlt, hhit, hpre⟩ := List.findIdx?_eq_some_iff_getElem.mp hfind
      have hget : holes.get? pos = some holes[pos] := by
        rw [List.get?_eq_getElem?, List.getElem?_eq_getElem hlt]
      have hpreall : ∀ g ∈ holes.take pos, holeIntersects fst lst g = false := by
        intro g hg
        obtain ⟨j, hj, hjg⟩ := List.mem_iff_getElem.mp hg
        have hjlen : j < pos := by
          rw [List.length_take] at hj
          omega
        have hjval : (holes.take pos)[j] = holes[j] := List.getElem_take _
        have := hpre j hjlen
        rw [← hjval, hjg] at this
        simpa using this
      have hsplitl : holes = holes.take pos ++ holes[pos] :: holes.drop (pos + 1) := by
        conv_lhs => rw [← List.take_append_drop pos holes]
        rw [List.drop_eq_getElem_cons hlt]
      have hcnew : (holes.take pos ++ splitHole fst lst mf holes[pos] ++
          holes.drop (pos + 1)).countP (fun h => holeIntersects fst lst h) ≤ n := by
        rw [List.countP_append, List.countP_append]
        have e1 : (holes.take pos).countP (fun h => holeIntersects fst lst h) = 0 :=
          List.countP_eq_zero.mpr (by
            intro a ha
            simp [hpreall a ha])
        have e2 : (splitHole fst lst mf holes[pos]).countP
            (fun h => holeIntersects fst lst h) = 0 :=
          List.countP_eq_zero.mpr (by
            intro a ha
            simp [splitHole_not_intersects fst lst mf holes[pos] a ha])
        have e3 : holes.countP (fun h => holeIntersects fst lst h) =
            (holes.take pos).countP (fun h => holeIntersects fst lst h) +
              ((holes.drop (pos + 1)).countP (fun h => holeIntersects fst lst h) +
                if holeIntersects fst lst holes[pos] then 1 else 0) := by
          conv_lhs => rw [hsplitl]
          rw [List.countP_append, List.countP_cons]
        rw [if_pos hhit] at e3
        omega
      rw [fillLoop_succ_some fst lst mf n holes filled pos hfind, hget]
      have hgetd : (some holes[pos]).getD (⟨0, 0⟩ : Hole) = holes[pos] := rfl
      rw [hgetd]
      rw [ih _ true hcnew]
      have hany : holes.any (fun h => holeIntersects fst lst h) = true := by
        rw [List.any_eq_true]
        exact ⟨holes[pos], List.getElem_mem hlt, hhit⟩
      have hflat : (holes.take pos ++ splitHole fst lst mf holes[pos] ++
          holes.drop (pos + 1)).flatMap (splitOrKeep fst lst mf) =
          holes.flatMap (splitOrKeep fst lst mf) := by
        have hL : (holes.take pos ++ splitHole fst lst mf holes[pos] ++
            holes.drop (pos + 1)).flatMap (splitOrKeep fst lst mf) =
            holes.take pos ++ (splitHole fst lst mf holes[pos] ++
              (holes.drop (pos + 1)).flatMap (splitOrKeep fst lst mf)) := by
          rw [List.flatMap_append, List.flatMap_append,
            flatMap_splitOrKeep_of_none fst lst mf _ hpreall,
            flatMap_splitOrKeep_of_none fst lst mf _
              (splitHole_not_intersects fst lst mf holes[pos]),
            List.append_assoc]
        have hR : holes.flatMap (splitOrKeep fst lst mf) =
            holes.take pos ++ (splitHole fst lst mf holes[pos] ++
              (holes.drop (pos + 1)).flatMap (splitOrKeep fst lst mf)) := by
          conv_lhs => rw [hsplitl]
          rw [List.flatMap_append, List.flatMap_cons,
            flatMap_splitOrKeep_of_none fst lst mf _ hpreall]
          rw [splitOrKeep, if_pos hhit]
        rw [hL, hR]
      rw [hflat, hany, Bool.or_true, Bool.true_or]

/-- Closed form of one `insert` call (struct eta plus the loop
characterization). -/
theorem insert_eq (st : IncompleteDatagram) (frag : List Nat) :
    st.insert frag =
      { holes := (fillLoop (firstOctet frag) (lastOctet frag) (more_fragments frag)
            st.holes.length st.holes false).1,
        fragments :=
          if (fillLoop (firstOctet frag) (lastOctet frag) (more_fragments frag)
              st.holes.length st.holes false).2 = true then
            storedInsert st.fragments frag
          else st.fragments,
        total_data_len :=
          if ¬more_fragments frag = true then
            (total_len frag + 2 ^ 16 - header_len frag * 4 % 2 ^ 16 + firstOctet frag)
              % 2 ^ 16
          else st.total_data_len } := rfl

theorem storedInsert_eq_none (frags : List (List Nat)) (fragment : List Nat)
    (h : frags.findIdx? (fun frag => firstOctet frag > firstOctet fragment) = none) :
    storedInsert frags fragment = frags ++ [fragment] := by
  unfold storedInsert
  rw [h]

theorem storedInsert_eq_some (frags : List (List Nat)) (fragment : List Nat) (pos : Nat)
    (h : frags.findIdx? (fun frag => firstOctet frag > firstOctet fragment) = some pos) :
    storedInsert frags fragment = frags.insertIdx pos fragment := by
  unfold storedInsert
  rw [h]

theorem storedInsert_mem (frags : List (List Nat)) (fragment g : List Nat) :
    g ∈ storedInsert frags fragment ↔ g = fragment ∨ g ∈ frags := by
  cases hfind : frags.findIdx? (fun frag => firstOctet frag > firstOctet fragment) with
  | none =>
    rw [storedInsert_eq_none frags fragment hfind, List.mem_append, List.mem_singleton]
    tauto
  | some pos =>
    obtain ⟨hlt, -, -⟩ := List.findIdx?_eq_some_iff_getElem.mp hfind
    rw [storedInsert_eq_some frags fragment pos hfind,
      List.mem_insertIdx (Nat.le_of_lt hlt)]

theorem storedInsert_perm (frags : List (List Nat)) (fragment : List Nat) :
    (storedInsert frags fragment).Perm (fragment :: frags) := by
  cases hfind : frags.findIdx? (fun frag => firstOctet frag > firstOctet fragment) with
  | none =>
    rw [storedInsert_eq_none frags fragment hfind]
    exact List.perm_append_singleton fragment frags
  | some pos =>
    obtain ⟨hlt, -, -⟩ := List.findIdx?_eq_some_iff_getElem.mp hfind
    rw [storedInsert_eq_some frags fragment pos hfind]
    exact List.perm_insertIdx fragment frags (Nat.le_of_lt hlt)

theorem inHoles_iff (holes : List Hole) (i : Nat) :
    inHoles holes i = true ↔ ∃ h ∈ holes, h.first ≤ i ∧ i ≤ h.last := by
  rw [inHoles, List.any_eq_true]
  constructor
  · rintro ⟨h, hh, hp⟩
    rw [Bool.and_eq_true, decide_eq_true_eq, decide_eq_true_eq] at hp
    exact ⟨h, hh, hp⟩
  · rintro ⟨h, hh, hp⟩
    refine ⟨h, hh, ?_⟩
    rw [Bool.and_eq_true, decide_eq_true_eq, decide_eq_true_eq]
    exact hp

theorem coveredBy_iff (frags : List (List Nat)) (i : Nat) :
    coveredBy frags i = true ↔ ∃ g ∈ frags, firstOctet g ≤ i ∧ i ≤ lastOctet g := by
  rw [coveredBy, List.any_eq_true]
  constructor
  · rintro ⟨g, hg, hp⟩
    rw [Bool.and_eq_true, decide_eq_true_eq, decide_eq_true_eq] at hp
    exact ⟨g, hg, hp⟩
  · rintro ⟨g, hg, hp⟩
    refine ⟨g, hg, ?_⟩
    rw [Bool.and_eq_true, decide_eq_true_eq, decide_eq_true_eq]
    exact hp

theorem coveredBy_storedInsert (frags : List (List Nat)) (fragment : List Nat) (i : Nat) :
    coveredBy (storedInsert frags fragment) i =
      (coveredBy frags i ||
        (decide (firstOctet fragment ≤ i) && decide (i ≤ lastOctet fragment))) := by
  apply bool_eq_of_iff
  rw [Bool.or_eq_true, coveredBy, coveredBy, List.any_eq_true, List.any_eq_true]
  constructor
  · rintro ⟨g, hgm, hgp⟩
    rcases (storedInsert_mem frags fragment g).mp hgm with rfl | hgm'
    · right
      exact hgp
    · left
      exact ⟨g, hgm', hgp⟩
  · rintro (⟨g, hgm, hgp⟩ | hp)
    · exact ⟨g, (storedInsert_mem frags fragment g).mpr (Or.inr hgm), hgp⟩
    · exact ⟨fragment, (storedInsert_mem frags fragment fragment).mpr (Or.inl rfl), hp⟩

theorem bool_not_true_iff_false (b : Bool) : (!b) = true ↔ b = false := by
  cases b <;> simp

/-- Octet membership across the whole split hole list. -/
theorem inHoles_flatMap (fst lst : Nat) (mf : Bool) (holes : List Hole) (i : Nat)
    (him : mf = true ∨ i ≤ lst) :
    inHoles (holes.flatMap (splitOrKeep fst lst mf)) i = true ↔
      (inHoles holes i = true ∧ ¬(fst ≤ i ∧ i ≤ lst)) := by
  rw [inHoles, inHoles, List.any_flatMap, List.any_eq_true, List.any_eq_true]
  constructor
  · rintro ⟨h, hh, hp⟩
    rw [List.any_eq_true] at hp
    obtain ⟨p, hpm, hpi⟩ := hp
    rw [Bool.and_eq_true, decide_eq_true_eq, decide_eq_true_eq] at hpi
    have hsp := (mem_splitOrKeep fst lst mf h i him).mp ⟨p, hpm, hpi⟩
    refine ⟨⟨h, hh, ?_⟩, hsp.2⟩
    rw [Bool.and_eq_true, decide_eq_true_eq, decide_eq_true_eq]
    exact hsp.1
  · rintro ⟨⟨h, hh, hhi⟩, hni⟩
    rw [Bool.and_eq_true, decide_eq_true_eq, decide_eq_true_eq] at hhi
    obtain ⟨p, hpm, hp1, hp2⟩ := (mem_splitOrKeep fst lst mf h i him).mpr ⟨hhi, hni⟩
    refine ⟨h, hh, ?_⟩
    rw [List.any_eq_true]
    refine ⟨p, hpm, ?_⟩
    rw [Bool.and_eq_true, decide_eq_true_eq, decide_eq_true_eq]
    exact ⟨hp1, hp2⟩

/-- The reassembly invariant.  The holes are well-formed and bounded by the
data area, sorted and disjoint; each hole's left edge is octet 0 or is
covered; `total_data_len` records the datagram end once an MF=0 fragment
has arrived; stored fragments are good (and all have MF set before an MF=0
fragment arrives); and the holes are exactly the uncovered octets of the
data area. -/
def HoleInv (E : Nat) (arrived : Bool) (st : IncompleteDatagram) : Prop :=
  (∀ h ∈ st.holes, h.first ≤ h.last ∧ h.last ≤ (if arrived then E else 65535)) ∧
  List.Pairwise (fun a b : Hole => a.last < b.first) st.holes ∧
  (∀ h ∈ st.holes, h.first = 0 ∨ coveredBy st.fragments (h.first - 1) = true) ∧
  st.total_data_len = (if arrived then E + 1 else 0) ∧
  (∀ g ∈ st.fragments, GoodFrag E g ∧ (arrived = false → more_fragments g = true)) ∧
  (∀ i, i ≤ (if arrived then E else 65535) →
    inHoles st.holes i = !coveredBy st.fragments i)

/-- One `insert` of a good fragment preserves the invariant. -/
theorem insert_inv (E : Nat) (st : IncompleteDatagram) (arrived : Bool) (frag : List Nat)
    (hg : GoodFrag E frag) (hinv : HoleInv E arrived st) :
    HoleInv E (arrived || !more_fragments frag) (st.insert frag) := by
  obtain ⟨hwb, hsort, hlb, htdl, hgood, hmem⟩ := hinv
  obtain ⟨hgc, hgp, hgs, hgEif⟩ := hg
  have hlasteq : lastOctet frag = firstOctet frag + (payload frag).length - 1 :=
    lastOctet_eq frag hgp hgs
  have hfle : firstOctet frag ≤ lastOctet frag := by omega
  have hl65 : lastOctet frag ≤ 65534 := by omega
  have hlE : more_fragments frag = true → lastOctet frag < E := by
    intro hmt
    rw [hmt] at hgEif
    simpa using hgEif
  have hlEeq : more_fragments frag = false → lastOctet frag = E := by
    intro hmt
    rw [hmt] at hgEif
    simpa using hgEif
  have hfl := fillLoop_spec (firstOctet frag) (lastOctet frag) (more_fragments frag)
    st.holes.length st.holes false (List.countP_le_length _)
  have hholes : (st.insert frag).holes =
      st.holes.flatMap (splitOrKeep (firstOctet frag) (lastOctet frag)
        (more_fragments frag)) := by
    rw [insert_eq, hfl]
  have hfill2 : (fillLoop (firstOctet frag) (lastOctet frag) (more_fragments frag)
      st.holes.length st.holes false).2 =
      st.holes.any (fun h => holeIntersects (firstOctet frag) (lastOctet frag) h) := by
    rw [hfl, Bool.false_or]
  have hfrags : (st.insert frag).fragments =
      (if st.holes.any (fun h => holeIntersects (firstOctet frag)
          (lastOctet frag) h) = true then
        storedInsert st.fragments frag
      else st.fragments) := by
    rw [insert_eq]
    dsimp only
    rw [hfill2]
  have htdl2 : (st.insert frag).total_data_len =
      (if ¬more_fragments frag = true then
        (total_len frag + 2 ^ 16 - header_len frag * 4 % 2 ^ 16 + firstOctet frag)
          % 2 ^ 16
      else st.total_data_len) := by
    rw [insert_eq]
  have hcovmono : ∀ j, coveredBy st.fragments j = true →
      coveredBy (st.insert frag).fragments j = true := by
    intro j hj
    rw [hfrags]
    by_cases hacc : st.holes.any (fun h => holeIntersects (firstOctet frag)
        (lastOctet frag) h) = true
    · rw [if_pos hacc, coveredBy_storedInsert, hj, Bool.true_or]
    · rw [if_neg hacc]
      exact hj
  refine ⟨?_, ?_, ?_, ?_, ?_, ?_⟩
  · -- well-formed and bounded holes
    intro p hpmem
    rw [hholes] at hpmem
    obtain ⟨h, hh, hph⟩ := List.mem_flatMap.mp hpmem
    have hhwf := hwb h hh
    have hsub := splitOrKeep_subset _ _ _ h hhwf.1 p hph
    refine ⟨hsub.2.2, ?_⟩
    by_cases hmf : more_fragments frag = true
    · simp only [hmf, Bool.not_true, Bool.or_false]
      exact le_trans hsub.2.1 hhwf.2
    · have hmf' : more_fragments frag = false := by
        cases hq : more_fragments frag
        · rfl
        · exact absurd hq hmf
      have hbnd : (if (arrived || !more_fragments frag) = true then E else 65535) = E := by
        rw [hmf']
        simp
      rw [hbnd]
      by_cases harr : arrived = true
      · have hb2 : h.last ≤ E := by
          have := hhwf.2
          rw [harr] at this
          simpa using this
        exact le_trans hsub.2.1 hb2
      · have harr' : arrived = false := by
          cases hq : arrived
          · rfl
          · exact absurd hq harr
        have hE := hlEeq hmf'
        by_cases hint : holeIntersects (firstOctet frag) (lastOctet frag) h = true
        · rw [splitOrKeep, if_pos hint, splitHole, List.mem_append] at hph
          rcases hph with hp2 | hp2
          · by_cases h3 : firstOctet frag > h.first
            · rw [if_pos h3, List.mem_singleton] at hp2
              subst hp2
              dsimp
              omega
            · rw [if_neg h3] at hp2
              exact absurd hp2 (List.not_mem_nil p)
          · by_cases h4 : lastOctet frag < h.last ∧ more_fragments frag = true
            · exact absurd h4.2 hmf
            · rw [if_neg h4] at hp2
              exact absurd hp2 (List.not_mem_nil p)
        · rw [splitOrKeep, if_neg hint, List.mem_singleton] at hph
          rw [hph]
          have hint' : ¬(firstOctet frag ≤ h.last ∧ lastOctet frag ≥ h.first) := by
            intro hand
            apply hint
            rw [holeIntersects, Bool.and_eq_true, decide_eq_true_eq, decide_eq_true_eq]
            exact hand
          by_cases hcase : lastOctet frag < h.first
          · rcases hlb h hh with h0 | hcov
            · omega
            · obtain ⟨g, hgm, hg1, hg2⟩ := (coveredBy_iff _ _).mp hcov
              obtain ⟨hgg, hga⟩ := hgood g hgm
              have hmfg : more_fragments g = true := hga harr'
              have hgE : lastOctet g < E := by
                have hq := hgg.2.2.2
                rw [hmfg] at hq
                simpa using hq
              omega
          · by_cases hA : firstOctet frag ≤ h.last
            · exact absurd ⟨hA, by omega⟩ hint'
            · omega
  · -- sorted, disjoint holes
    rw [hholes]
    exact pairwise_flatMap_splitOrKeep _ _ _ hfle st.holes (fun h hh => (hwb h hh).1) hsort
  · -- left edges are 0 or covered
    intro p hpmem
    rw [hholes] at hpmem
    obtain ⟨h, hh, hph⟩ := List.mem_flatMap.mp hpmem
    rw [splitOrKeep] at hph
    by_cases hint : holeIntersects (firstOctet frag) (lastOctet frag) h = true
    · rw [if_pos hint, splitHole, List.mem_append] at hph
      have hacc : st.holes.any (fun hr => holeIntersects (firstOctet frag)
          (lastOctet frag) hr) = true := by
        rw [List.any_eq_true]
        exact ⟨h, hh, hint⟩
      rcases hph with hp2 | hp2
      · by_cases h3 : firstOctet frag > h.first
        · rw [if_pos h3, List.mem_singleton] at hp2
          subst hp2
          dsimp
          rcases hlb h hh with h0 | hcov
          · left
            exact h0
          · right
            exact hcovmono _ hcov
        · rw [if_neg h3] at hp2
          exact absurd hp2 (List.not_mem_nil p)
      · by_cases h4 : lastOctet frag < h.last ∧ more_fragments frag = true
        · rw [if_pos h4, List.mem_singleton] at hp2
          subst hp2
          dsimp
          right
          rw [hfrags, if_pos hacc, coveredBy_storedInsert]
          simp only [Bool.or_eq_true, Bool.and_eq_true, decide_eq_true_eq]
          right
          omega
        · rw [if_neg h4] at hp2
          exact absurd hp2 (List.not_mem_nil p)
    · rw [if_neg hint, List.mem_singleton] at hph
      rw [hph]
      rcases hlb h hh with h0 | hcov
      · left
        exact h0
      · right
        exact hcovmono _ hcov
  · -- total_data_len
    rw [htdl2]
    by_cases hmf : more_fragments frag = true
    · rw [if_neg (not_not_intro hmf), htdl, hmf]
      simp
    · have hmf' : more_fragments frag = false := by
        cases hq : more_fragments frag
        · rfl
        · exact absurd hq hmf
      rw [if_pos (by rw [hmf']; simp),
        insert_tdl_eq E frag ⟨hgc, hgp, hgs, hgEif⟩ hmf', hmf']
      simp
  · -- stored fragments are good
    intro g hgm
    rw [hfrags] at hgm
    by_cases hacc : st.holes.any (fun h => holeIntersects (firstOctet frag)
        (lastOctet frag) h) = true
    · rw [if_pos hacc] at hgm
      rcases (storedInsert_mem _ _ _).mp hgm with rfl | hgm'
      · refine ⟨⟨hgc, hgp, hgs, hgEif⟩, ?_⟩
        intro harr'
        rcases Bool.or_eq_false_iff.mp harr' with ⟨-, hnm⟩
        cases hq : more_fragments g
        · rw [hq] at hnm
          simp at hnm
        · rfl
      · obtain ⟨hgg, hga⟩ := hgood g hgm'
        refine ⟨hgg, fun harr' => hga ?_⟩
        exact (Bool.or_eq_false_iff.mp harr').1
    · rw [if_neg hacc] at hgm
      obtain ⟨hgg, hga⟩ := hgood g hgm
      refine ⟨hgg, fun harr' => hga ?_⟩
      exact (Bool.or_eq_false_iff.mp harr').1
  · -- membership
    intro i hi
    have hib : i ≤ (if arrived = true then E else 65535) ∧
        (more_fragments frag = true ∨ i ≤ lastOctet frag) := by
      by_cases hmf : more_fragments frag = true
      · refine ⟨?_, Or.inl hmf⟩
        simpa [hmf] using hi
      · have hmf' : more_fragments frag = false := by
          cases hq : more_fragments frag
          · rfl
          · exact absurd hq hmf
        have hE := hlEeq hmf'
        have hiE : i ≤ E := by simpa [hmf'] using hi
        refine ⟨?_, Or.inr (by omega)⟩
        by_cases harr : arrived = true
        · rw [harr]
          simpa using hiE
        · have harr' : arrived = false := by
            cases hq : arrived
            · rfl
            · exact absurd hq harr
          rw [harr']
          simp
          omega
    obtain ⟨hiold, him⟩ := hib
    have hm_old := hmem i hiold
    have hiff_old : inHoles st.holes i = true ↔ ¬(coveredBy st.fragments i = true) := by
      rw [hm_old]
      cases coveredBy st.fragments i <;> simp
    rw [hholes]
    apply bool_eq_of_iff
    rw [inHoles_flatMap _ _ _ _ _ him, bool_not_true_iff_false]
    by_cases hacc : st.holes.any (fun h => holeIntersects (firstOctet frag)
        (lastOctet frag) h) = true
    · have hcov_new : coveredBy (st.insert frag).fragments i = true ↔
          (coveredBy st.fragments i = true ∨
            (firstOctet frag ≤ i ∧ i ≤ lastOctet frag)) := by
        rw [hfrags, if_pos hacc, coveredBy_storedInsert, Bool.or_eq_true,
          Bool.and_eq_true, decide_eq_true_eq, decide_eq_true_eq]
      constructor
      · rintro ⟨hin, hnot⟩
        cases hq : coveredBy (st.insert frag).fragments i
        · rfl
        · exfalso
          rcases hcov_new.mp hq with hold | hspan
          · exact hiff_old.mp hin hold
          · exact hnot hspan
      · intro hq
        have hnotnew : ¬(coveredBy (st.insert frag).fragments i = true) := by
          rw [hq]
          simp
        have h1 : ¬(coveredBy st.fragments i = true) :=
          fun hc => hnotnew (hcov_new.mpr (Or.inl hc))
        have h2 : ¬(firstOctet frag ≤ i ∧ i ≤ lastOctet frag) :=
          fun hc => hnotnew (hcov_new.mpr (Or.inr hc))
        exact ⟨hiff_old.mpr h1, h2⟩
    · have haccf : st.holes.any (fun h => holeIntersects (firstOctet frag)
          (lastOctet frag) h) = false := by
        cases hq : st.holes.any (fun h => holeIntersects (firstOctet frag)
            (lastOctet frag) h)
        · rfl
        · exact absurd hq hacc
      have hnone := List.any_eq_false.mp haccf
      have hfrags' : (st.insert frag).fragments = st.fragments := by
        rw [hfrags, if_neg hacc]
      rw [hfrags']
      constructor
      · rintro ⟨hin, -⟩
        cases hq : coveredBy st.fragments i
        · rfl
        · exact absurd hq (hiff_old.mp hin)
      · intro hq
        have hinold : inHoles st.holes i = true := hiff_old.mpr (by rw [hq]; simp)
        refine ⟨hinold, ?_⟩
        rintro ⟨hs1, hs2⟩
        obtain ⟨h, hh, hh1, hh2⟩ := (inHoles_iff _ _).mp hinold
        apply hnone h hh
        rw [holeIntersects, Bool.and_eq_true, decide_eq_true_eq, decide_eq_true_eq]
        exact ⟨by omega, by omega⟩

/-- The default context satisfies the invariant with no fragment arrived. -/
theorem holeInv_default (E : Nat) : HoleInv E false IncompleteDatagram.default := by
  have hdh : IncompleteDatagram.default.holes = [⟨0, 0xffff⟩] := rfl
  have hdf : IncompleteDatagram.default.fragments = [] := rfl
  refine ⟨?_, ?_, ?_, rfl, ?_, ?_⟩
  · intro h hh
    rw [hdh, List.mem_singleton] at hh
    subst hh
    simp
  · rw [hdh]
    exact List.pairwise_singleton _ _
  · intro h hh
    rw [hdh, List.mem_singleton] at hh
    subst hh
    left
    rfl
  · intro g hgm
    rw [hdf] at hgm
    exact absurd hgm (List.not_mem_nil g)
  · intro i hi
    simp at hi
    have h1 : inHoles IncompleteDatagram.default.holes i = true := by
      rw [inHoles_iff]
      refine ⟨⟨0, 0xffff⟩, by rw [hdh]; exact List.mem_singleton.mpr rfl, Nat.zero_le i, ?_⟩
      exact hi
    have h2 : coveredBy IncompleteDatagram.default.fragments i = false := rfl
    rw [h1, h2]
    rfl

/-- Invariant for a whole insertion sequence. -/
theorem insertSeq_inv (E : Nat) :
    ∀ (frags : List (List Nat)) (st : IncompleteDatagram) (arrived : Bool),
      (∀ f ∈ frags, GoodFrag E f) → HoleInv E arrived st →
      HoleInv E (arrived || frags.any fun f => !more_fragments f)
        (frags.foldl IncompleteDatagram.insert st) := by
  intro frags
  induction frags with
  | nil =>
    intro st arrived hgf hinv
    simpa using hinv
  | cons f t ih =>
    intro st arrived hgf hinv
    rw [List.foldl_cons, List.any_cons]
    have h1 := insert_inv E st arrived f (hgf f (List.mem_cons_self f t)) hinv
    have h2 := ih (st.insert f) (arrived || !more_fragments f)
      (fun g hgm => hgf g (List.mem_cons_of_mem f hgm)) h1
    rwa [Bool.or_assoc] at h2

/-- Two syntactically well-formed MF=0 fragments that disagree on where the
datagram ends: 8 payload bytes at octet offset 16 (so the span is 16–23 and
`total_data_len` becomes 24), then 8 payload bytes at octet offset 32 (span
32–39, `total_data_len` 40). -/
def c6lyingA : List Nat :=
  [0x45, 0, 0, 28, 0, 0, 0, 2, 0, 0, 0, 0, 0, 0, 0, 0, 0, 0, 0, 0,
   1, 2, 3, 4, 5, 6, 7, 8]

/-- Companion fragment of `c6lyingA` claiming a later datagram end. -/
def c6lyingB : List Nat :=
  [0x45, 0, 0, 28, 0, 0, 0, 4, 0, 0, 0, 0, 0, 0, 0, 0, 0, 0, 0, 0,
   9, 10, 11, 12, 13, 14, 15, 16]

/-- **C6 counterexample.**  The claim quantifies over every state reachable
by `insert` calls.  After inserting `c6lyingA` (MF=0, span 16–23, setting
`total_data_len` to 24) and then `c6lyingB` (MF=0, span 32–39), the second
fragment intersects no hole, so it is discarded and no hole is created for
32–39 — yet it still overwrites `total_data_len` with 40.  Octet 24 now
lies inside the data area `[0, total_data_len - 1]`, is not covered by any
accepted fragment, and lies in no hole: the union of the holes is not the
uncovered part of the data area. -/
theorem c6_counterexample :
    24 < (insertSeq [c6lyingA, c6lyingB]).total_data_len ∧
    coveredBy (insertSeq [c6lyingA, c6lyingB]).fragments 24 = false ∧
    inHoles (insertSeq [c6lyingA, c6lyingB]).holes 24 = false := by decide

/-- **C6 (amended).**  For insertion sequences of well-formed fragments that
agree on the datagram end `E` (MF=0 fragments end exactly at `E`, MF=1
fragments strictly before it, spans consistent with the total-length field
and within the 16-bit octet space), every reachable state satisfies the
hole invariant: the holes are pairwise non-overlapping, `total_data_len` is
`E + 1` exactly when an MF=0 fragment has arrived (0 before), and within
the known data area — bounded by `total_data_len` once an MF=0 fragment has
arrived, by the initial hole 0–65535 before — the holes are exactly the
octets not covered by any accepted fragment. -/
theorem c6_hole_invariant (E : Nat) (frags : List (List Nat))
    (hg : ∀ f ∈ frags, GoodFrag E f) :
    List.Pairwise (fun a b : Hole => a.last < b.first ∨ b.last < a.first)
      (insertSeq frags).holes ∧
    (insertSeq frags).total_data_len =
      (if frags.any (fun f => !more_fragments f) then E + 1 else 0) ∧
    ∀ i, i ≤ (if frags.any (fun f => !more_fragments f) then E else 65535) →
      inHoles (insertSeq frags).holes i = !coveredBy (insertSeq frags).fragments i := by
  have hrun := insertSeq_inv E frags IncompleteDatagram.default false hg (holeInv_default E)
  rw [Bool.false_or] at hrun
  obtain ⟨-, hsort, -, htdl, -, hmem⟩ := hrun
  exact ⟨hsort.imp (fun hab => Or.inl hab), htdl, hmem⟩

/-- C6 witness: the invariant at a concrete two-fragment out-of-order
sequence (8 payload bytes at octet 8 with MF clear, then 8 bytes at octet 0
with MF set, datagram end `E = 15`). -/
theorem c6_hole_invariant_witness :
    (∀ f ∈ [[0x45, 0, 0, 28, 0, 0, 0, 1, 0, 0, 0, 0, 0, 0, 0, 0, 0, 0, 0, 0,
        9, 10, 11, 12, 13, 14, 15, 16],
      [0x45, 0, 0, 28, 0, 0, 0x20, 0, 0, 0, 0, 0, 0, 0, 0, 0, 0, 0, 0, 0,
        1, 2, 3, 4, 5, 6, 7, 8]], GoodFrag 15 f) ∧
    (List.Pairwise (fun a b : Hole => a.last < b.first ∨ b.last < a.first)
      (insertSeq [[0x45, 0, 0, 28, 0, 0, 0, 1, 0, 0, 0, 0, 0, 0, 0, 0, 0, 0, 0, 0,
          9, 10, 11, 12, 13, 14, 15, 16],
        [0x45, 0, 0, 28, 0, 0, 0x20, 0, 0, 0, 0, 0, 0, 0, 0, 0, 0, 0, 0, 0,
          1, 2, 3, 4, 5, 6, 7, 8]]).holes ∧
    (insertSeq [[0x45, 0, 0, 28, 0, 0, 0, 1, 0, 0, 0, 0, 0, 0, 0, 0, 0, 0, 0, 0,
          9, 10, 11, 12, 13, 14, 15, 16],
        [0x45, 0, 0, 28, 0, 0, 0x20, 0, 0, 0, 0, 0, 0, 0, 0, 0, 0, 0, 0, 0,
          1, 2, 3, 4, 5, 6, 7, 8]]).total_data_len =
      (if ([[0x45, 0, 0, 28, 0, 0, 0, 1, 0, 0, 0, 0, 0, 0, 0, 0, 0, 0, 0, 0,
          9, 10, 11, 12, 13, 14, 15, 16],
        [0x45, 0, 0, 28, 0, 0, 0x20, 0, 0, 0, 0, 0, 0, 0, 0, 0, 0, 0, 0, 0,
          1, 2, 3, 4, 5, 6, 7, 8]] : List (List Nat)).any
          (fun f => !more_fragments f) then 15 + 1 else 0) ∧
    ∀ i, i ≤ (if ([[0x45, 0, 0, 28, 0, 0, 0, 1, 0, 0, 0, 0, 0, 0, 0, 0, 0, 0, 0, 0,
          9, 10, 11, 12, 13, 14, 15, 16],
        [0x45, 0, 0, 28, 0, 0, 0x20, 0, 0, 0, 0, 0, 0, 0, 0, 0, 0, 0, 0, 0,
          1, 2, 3, 4, 5, 6, 7, 8]] : List (List Nat)).any
          (fun f => !more_fragments f) then 15 else 65535) →
      inHoles (insertSeq [[0x45, 0, 0, 28, 0, 0, 0, 1, 0, 0, 0, 0, 0, 0, 0, 0, 0, 0, 0, 0,
          9, 10, 11, 12, 13, 14, 15, 16],
        [0x45, 0, 0, 28, 0, 0, 0x20, 0, 0, 0, 0, 0, 0, 0, 0, 0, 0, 0, 0, 0,
          1, 2, 3, 4, 5, 6, 7, 8]]).holes i =
        !coveredBy (insertSeq [[0x45, 0, 0, 28, 0, 0, 0, 1, 0, 0, 0, 0, 0, 0, 0, 0, 0, 0, 0, 0,
            9, 10, 11, 12, 13, 14, 15, 16],
          [0x45, 0, 0, 28, 0, 0, 0x20, 0, 0, 0, 0, 0, 0, 0, 0, 0, 0, 0, 0, 0,
            1, 2, 3, 4, 5, 6, 7, 8]]).fragments i) :=
  ⟨by decide, c6_hole_invariant 15 _ (by decide)⟩

/-! ## The fragment chain of a complete datagram (C1) -/

/-- The shape of the list produced by `fragments` on a complete datagram
(offset 0, MF clear) away from the boundary bug: a nonempty chain of
contiguous fragments starting at octet `e`, all good w.r.t. the datagram
end `E`, with 20-byte headers and identification `ident`; every fragment
but the last carries MF, the last ends at `E` with MF clear. -/
def ReasmChain (E ident : Nat) : Nat → List (List Nat) → Prop
  | _, [] => False
  | e, [f] =>
    firstOctet f = e ∧ GoodFrag E f ∧ header_len f = 5 ∧
      identification f = ident ∧ more_fragments f = false
  | e, f :: g :: rest =>
    firstOctet f = e ∧ GoodFrag E f ∧ header_len f = 5 ∧
      identification f = ident ∧ more_fragments f = true ∧
      ReasmChain E ident (e + (payload f).length) (g :: rest)

theorem reasmChain_ne_nil {E ident e : Nat} {l : List (List Nat)}
    (h : ReasmChain E ident e l) : l ≠ [] := by
  intro hn
  subst hn
  rw [ReasmChain] at h
  exact h

theorem reasmChain_mem (E ident : Nat) : ∀ (l : List (List Nat)) (e : Nat),
    ReasmChain E ident e l →
    ∀ f ∈ l, GoodFrag E f ∧ header_len f = 5 ∧ identification f = ident ∧
      e ≤ firstOctet f := by
  intro l
  induction l with
  | nil =>
    intro e h
    rw [ReasmChain] at h
    exact h.elim
  | cons f rest ih =>
    intro e h f' hf'
    cases rest with
    | nil =>
      rw [ReasmChain] at h
      obtain ⟨h1, h2, h3, h4, h5⟩ := h
      rw [List.mem_singleton] at hf'
      subst hf'
      exact ⟨h2, h3, h4, by omega⟩
    | cons g rest2 =>
      rw [ReasmChain] at h
      obtain ⟨h1, h2, h3, h4, h5, h6⟩ := h
      rcases List.mem_cons.mp hf' with rfl | hf2
      · exact ⟨h2, h3, h4, by omega⟩
      · obtain ⟨k1, k2, k3, k4⟩ := ih _ h6 f' hf2
        exact ⟨k1, k2, k3, by omega⟩

theorem reasmChain_sorted (E ident : Nat) : ∀ (l : List (List Nat)) (e : Nat),
    ReasmChain E ident e l →
    List.Pairwise (fun a b => lastOctet a < firstOctet b) l := by
  intro l
  induction l with
  | nil =>
    intro e h
    rw [ReasmChain] at h
    exact h.elim
  | cons f rest ih =>
    intro e h
    cases rest with
    | nil => exact List.pairwise_singleton _ _
    | cons g rest2 =>
      rw [ReasmChain] at h
      obtain ⟨h1, h2, h3, h4, h5, h6⟩ := h
      rw [List.pairwise_cons]
      refine ⟨?_, ih _ h6⟩
      intro b hb
      obtain ⟨-, -, -, hge⟩ := reasmChain_mem E ident _ _ h6 b hb
      obtain ⟨-, hp1, hp2, -⟩ := h2
      have hlf := lastOctet_eq f hp1 hp2
      omega

theorem reasmChain_cover (E ident : Nat) : ∀ (l : List (List Nat)) (e : Nat),
    ReasmChain E ident e l → ∀ i, e ≤ i → i ≤ E → coveredBy l i = true := by
  intro l
  induction l with
  | nil =>
    intro e h
    rw [ReasmChain] at h
    exact h.elim
  | cons f rest ih =>
    intro e h i hei hiE
    cases rest with
    | nil =>
      rw [ReasmChain] at h
      obtain ⟨h1, h2, h3, h4, h5⟩ := h
      obtain ⟨-, hp1, hp2, hite⟩ := h2
      rw [h5] at hite
      have hlE : lastOctet f = E := by simpa using hite
      rw [coveredBy_iff]
      exact ⟨f, List.mem_cons_self f [], by omega, by omega⟩
    | cons g rest2 =>
      rw [ReasmChain] at h
      obtain ⟨h1, h2, h3, h4, h5, h6⟩ := h
      obtain ⟨-, hp1, hp2, -⟩ := h2
      have hlf := lastOctet_eq f hp1 hp2
      by_cases hcase : i ≤ lastOctet f
      · rw [coveredBy_iff]
        exact ⟨f, List.mem_cons_self f _, by omega, hcase⟩
      · have hsub := ih _ h6 i (by omega) hiE
        rw [coveredBy_iff] at hsub ⊢
        obtain ⟨gg, hgg, hs⟩ := hsub
        exact ⟨gg, List.mem_cons_of_mem f hgg, hs⟩

theorem reasmChain_any_mf0 (E ident : Nat) : ∀ (l : List (List Nat)) (e : Nat),
    ReasmChain E ident e l → l.any (fun f => !more_fragments f) = true := by
  intro l
  induction l with
  | nil =>
    intro e h
    rw [ReasmChain] at h
    exact h.elim
  | cons f rest ih =>
    intro e h
    cases rest with
    | nil =>
      rw [ReasmChain] at h
      rw [List.any_cons, h.2.2.2.2]
      rfl
    | cons g rest2 =>
      rw [ReasmChain] at h
      rw [List.any_cons, ih _ h.2.2.2.2.2, Bool.or_true]

theorem reasmChain_assemble (E ident : Nat) : ∀ (l : List (List Nat)) (e : Nat)
    (acc : List Nat), ReasmChain E ident e l →
    assembleLoop l e acc = acc ++ (l.map payload).flatten := by
  intro l
  induction l with
  | nil =>
    intro e acc h
    rw [ReasmChain] at h
    exact h.elim
  | cons f rest ih =>
    intro e acc h
    have hfacts : firstOctet f = e ∧ 1 ≤ (payload f).length ∧
        firstOctet f + (payload f).length ≤ 65535 ∧
        (rest = [] ∨ ReasmChain E ident (e + (payload f).length) rest) := by
      cases rest with
      | nil =>
        rw [ReasmChain] at h
        exact ⟨h.1, h.2.1.2.1, h.2.1.2.2.1, Or.inl rfl⟩
      | cons g rest2 =>
        rw [ReasmChain] at h
        exact ⟨h.1, h.2.1.2.1, h.2.1.2.2.1, Or.inr h.2.2.2.2.2⟩
    obtain ⟨h1, hp1, hp2, hrest⟩ := hfacts
    have hlf := lastOctet_eq f hp1 hp2
    rw [assembleLoop]
    dsimp only
    rw [if_neg (by omega)]
    have hslice : ((payload f).drop (e - firstOctet f)).take (lastOctet f + 1 - e) =
        payload f := by
      rw [h1, Nat.sub_self, List.drop_zero]
      have hlen2 : lastOctet f + 1 - e = (payload f).length := by omega
      rw [hlen2, List.take_length]
    rw [hslice]
    have hcur : lastOctet f + 1 = e + (payload f).length := by omega
    rcases hrest with rfl | hch
    · rw [assembleLoop]
      simp
    · rw [hcur, ih _ _ hch]
      simp

theorem fragmentsAux_nil_of_ge (fuel : Nat) (buffer : List Nat) (mtu cursor : Nat)
    (h : buffer.length ≤ cursor) : fragmentsAux fuel buffer mtu cursor = [] := by
  cases fuel with
  | zero => rfl
  | succ n => rw [fragmentsAux, if_pos h]

/-- Away from the boundary case, the fragment iterator of a complete
datagram produces a `ReasmChain`. -/
theorem fragmentsAux_chain : ∀ fuel (buffer : List Nat) (mtu cursor : Nat),
    (∀ b ∈ buffer, b < 256) → 68 ≤ mtu → 5 ≤ header_len buffer →
    header_len buffer * 4 ≤ cursor → buffer.length ≤ 65535 →
    buffer.length + 1 ≤ fuel + cursor →
    offsetOf buffer = 0 → more_fragments buffer = false →
    cursor < buffer.length →
    (∃ m, cursor - header_len buffer * 4 = 8 * m) →
    ¬((mtu - 20) / 8 * 8 = mtu - 20 ∧
      ((mtu - 20) / 8 * 8) ∣ (buffer.length - cursor)) →
    ReasmChain (buffer.length - header_len buffer * 4 - 1) (identification buffer)
      (cursor - header_len buffer * 4) (fragmentsAux fuel buffer mtu cursor) := by
  intro fuel
  induction fuel with
  | zero =>
    intro buffer mtu cursor hb hmtu hH5 hHc hlen hfuel hoff hmf hc hdvd hbd
    omega
  | succ n ih =>
    intro buffer mtu cursor hb hmtu hH5 hHc hlen hfuel hoff hmf hc hdvd hbd
    rw [fragmentsAux, if_neg (by omega)]
    obtain ⟨m, hm⟩ := hdvd
    have hspos := stepLen_pos buffer mtu cursor hmtu hc
    have hsle := stepLen_le buffer mtu cursor hmtu hc
    have hBle : (mtu - 20) / 8 * 8 ≤ mtu - 20 := by omega
    have hB48 : 48 ≤ (mtu - 20) / 8 * 8 := by
      have hq : 6 ≤ (mtu - 20) / 8 := by omega
      omega
    obtain ⟨hfp, hflen, hftl, hfh, hfv, hfid, hfmf, hfoff, hfsz⟩ :=
      fragmentAt_facts buffer mtu cursor hb hmtu hH5 hHc hc hlen
    have hplen : (payload (fragmentAt buffer mtu cursor)).length =
        stepLen buffer mtu cursor := by
      rw [hfp, List.length_take, List.length_drop]
      omega
    have hfirst : firstOctet (fragmentAt buffer mtu cursor) =
        cursor - header_len buffer * 4 := by
      rw [firstOctet, hfoff, hoff, hm]
      omega
    have hgood1 : total_len (fragmentAt buffer mtu cursor) =
        header_len (fragmentAt buffer mtu cursor) * 4 +
          (payload (fragmentAt buffer mtu cursor)).length := by
      rw [hftl, hfh, hplen]
    have hgood2 : 1 ≤ (payload (fragmentAt buffer mtu cursor)).length := by
      rw [hplen]
      exact hspos
    have hgood3 : firstOctet (fragmentAt buffer mtu cursor) +
        (payload (fragmentAt buffer mtu cursor)).length ≤ 65535 := by
      rw [hfirst, hplen]
      omega
    have hlastf : lastOctet (fragmentAt buffer mtu cursor) =
        cursor - header_len buffer * 4 + stepLen buffer mtu cursor - 1 := by
      rw [lastOctet_eq _ hgood2 hgood3, hfirst, hplen]
    have hsdef : stepLen buffer mtu cursor =
        if buffer.length - cursor < mtu - 20 then buffer.length - cursor
        else (mtu - 20) / 8 * 8 := rfl
    by_cases hisLast : buffer.length - cursor < mtu - 20
    · have hstep : stepLen buffer mtu cursor = buffer.length - cursor := by
        rw [hsdef, if_pos hisLast]
      have hnil2 : fragmentsAux n buffer mtu (cursor + stepLen buffer mtu cursor) = [] :=
        fragmentsAux_nil_of_ge _ _ _ _ (by omega)
      rw [hnil2, ReasmChain]
      have hmff : more_fragments (fragmentAt buffer mtu cursor) = false := by
        rw [hfmf, if_pos hisLast, hmf]
      refine ⟨hfirst, ⟨hgood1, hgood2, hgood3, ?_⟩, hfh, hfid, hmff⟩
      rw [hmff]
      have hgoal : lastOctet (fragmentAt buffer mtu cursor) =
          buffer.length - header_len buffer * 4 - 1 := by
        rw [hlastf, hstep]
        omega
      simpa using hgoal
    · have hstep : stepLen buffer mtu cursor = (mtu - 20) / 8 * 8 := by
        rw [hsdef, if_neg hisLast]
      have hneB : buffer.length - cursor ≠ (mtu - 20) / 8 * 8 := by
        intro heq
        apply hbd
        refine ⟨by omega, ?_⟩
        rw [← heq]
      have hlt2 : cursor + (mtu - 20) / 8 * 8 < buffer.length := by omega
      have hbd2 : ¬((mtu - 20) / 8 * 8 = mtu - 20 ∧
          ((mtu - 20) / 8 * 8) ∣ (buffer.length - (cursor + (mtu - 20) / 8 * 8))) := by
        rintro ⟨hq1, hq2⟩
        apply hbd
        refine ⟨hq1, ?_⟩
        have hsumq : buffer.length - cursor =
            (buffer.length - (cursor + (mtu - 20) / 8 * 8)) + (mtu - 20) / 8 * 8 := by
          omega
        rw [hsumq]
        exact Nat.dvd_add hq2 (Dvd.intro 1 (by ring))
      have hch := ih buffer mtu (cursor + (mtu - 20) / 8 * 8) hb hmtu hH5 (by omega)
        hlen (by omega) hoff hmf hlt2 ⟨m + (mtu - 20) / 8, by omega⟩ hbd2
      rw [hstep]
      cases hR : fragmentsAux n buffer mtu (cursor + (mtu - 20) / 8 * 8) with
      | nil =>
        rw [hR] at hch
        rw [ReasmChain] at hch
        exact hch.elim
      | cons g rest2 =>
        rw [hR] at hch
        rw [ReasmChain]
        have hmff : more_fragments (fragmentAt buffer mtu cursor) = true := by
          rw [hfmf, if_neg hisLast]
        refine ⟨hfirst, ⟨hgood1, hgood2, hgood3, ?_⟩, hfh, hfid, hmff, ?_⟩
        · rw [hmff]
          have hgoal : lastOctet (fragmentAt buffer mtu cursor) <
              buffer.length - header_len buffer * 4 - 1 := by
            rw [hlastf, hstep]
            omega
          simpa using hgoal
        · have hcur : cursor - header_len buffer * 4 +
              (payload (fragmentAt buffer mtu cursor)).length =
              cursor + (mtu - 20) / 8 * 8 - header_len buffer * 4 := by
            rw [hplen, hstep]
            omega
          rw [hcur]
          exact hch

/-- The chain at the top level of `Packet::fragments`. -/
theorem fragments_chain (D : List Nat) (mtu : Nat) (hb : ∀ b ∈ D, b < 256)
    (hH5 : 5 ≤ header_len D) (hHlt : header_len D * 4 < D.length)
    (htl : total_len D = D.length) (hmtu : 68 ≤ mtu)
    (hoff : offsetOf D = 0) (hmf : more_fragments D = false)
    (hbd : ¬((mtu - 20) / 8 * 8 = mtu - 20 ∧
      ((mtu - 20) / 8 * 8) ∣ (D.length - header_len D * 4))) :
    ReasmChain (D.length - header_len D * 4 - 1) (identification D) 0
      (fragments D mtu) := by
  have hlen : D.length ≤ 65535 := by
    have := total_len_le D hb
    omega
  have hbuf : D.take (total_len D) = D := by
    rw [htl]
    exact List.take_length D
  have hfr : fragments D mtu =
      fragmentsAux (D.length + 1) D mtu (header_len D * 4) := by
    rw [fragments, hbuf]
  rw [hfr]
  have hch := fragmentsAux_chain (D.length + 1) D mtu (header_len D * 4) hb hmtu hH5
    (le_refl _) hlen (by omega) hoff hmf hHlt ⟨0, by omega⟩ hbd
  have hc0 : header_len D * 4 - header_len D * 4 = 0 := Nat.sub_self _
  rw [hc0] at hch
  exact hch

theorem insert_fragments_eq (st : IncompleteDatagram) (frag : List Nat) :
    (st.insert frag).fragments =
      (if st.holes.any (fun h => holeIntersects (firstOctet frag)
          (lastOctet frag) h) = true then
        storedInsert st.fragments frag
      else st.fragments) := by
  rw [insert_eq]
  dsimp only
  rw [fillLoop_spec _ _ _ _ _ _ (List.countP_le_length _), Bool.false_or]

/-- Inserting at the position found by `find_position_fn` keeps the stored
fragments sorted by first octet when the new first octet is fresh. -/
theorem storedInsert_sorted : ∀ (frags : List (List Nat)) (fragment : List Nat),
    List.Pairwise (fun a b => firstOctet a < firstOctet b) frags →
    (∀ g ∈ frags, firstOctet g ≠ firstOctet fragment) →
    List.Pairwise (fun a b => firstOctet a < firstOctet b)
      (storedInsert frags fragment) := by
  intro frags
  induction frags with
  | nil =>
    intro fragment _ _
    rw [storedInsert_eq_none [] fragment (by simp)]
    simp
  | cons a t ih =>
    intro fragment hs hne
    rw [List.pairwise_cons] at hs
    by_cases ha : firstOctet a > firstOctet fragment
    · have hfind : (a :: t).findIdx?
          (fun fr => firstOctet fr > firstOctet fragment) = some 0 := by
        rw [List.findIdx?_cons, if_pos (by simpa using ha)]
      rw [storedInsert_eq_some _ _ 0 hfind, List.insertIdx_zero, List.pairwise_cons]
      refine ⟨?_, List.pairwise_cons.mpr hs⟩
      intro b hb
      rcases List.mem_cons.mp hb with rfl | hb2
      · omega
      · have := hs.1 b hb2
        omega
    · have haa : firstOctet a < firstOctet fragment := by
        have := hne a (List.mem_cons_self a t)
        omega
      cases hfind : t.findIdx? (fun fr => firstOctet fr > firstOctet fragment) with
      | none =>
        have hfind2 : (a :: t).findIdx?
            (fun fr => firstOctet fr > firstOctet fragment) = none := by
          rw [List.findIdx?_cons, if_neg (by simpa using ha), List.findIdx?_succ, hfind]
          rfl
        rw [storedInsert_eq_none _ _ hfind2, List.cons_append, List.pairwise_cons]
        refine ⟨?_, ?_⟩
        · intro b hb
          rcases List.mem_append.mp hb with hb2 | hb2
          · exact hs.1 b hb2
          · rw [List.mem_singleton] at hb2
            subst hb2
            exact haa
        · have hres := ih fragment hs.2
            (fun g hg => hne g (List.mem_cons_of_mem a hg))
          rwa [storedInsert_eq_none _ _ hfind] at hres
      | some pos =>
        obtain ⟨hlt, -, -⟩ := List.findIdx?_eq_some_iff_getElem.mp hfind
        have hfind2 : (a :: t).findIdx?
            (fun fr => firstOctet fr > firstOctet fragment) = some (pos + 1) := by
          rw [List.findIdx?_cons, if_neg (by simpa using ha), List.findIdx?_succ, hfind]
          rfl
        rw [storedInsert_eq_some _ _ (pos + 1) hfind2, List.insertIdx_succ_cons,
          List.pairwise_cons]
        refine ⟨?_, ?_⟩
        · intro b hb
          rw [List.mem_insertIdx (Nat.le_of_lt hlt)] at hb
          rcases hb with rfl | hb2
          · exact haa
          · exact hs.1 b hb2
        · have hres := ih fragment hs.2
            (fun g hg => hne g (List.mem_cons_of_mem a hg))
          rwa [storedInsert_eq_some _ _ pos hfind] at hres

theorem coveredBy_perm {l1 l2 : List (List Nat)} (h : l1.Perm l2) (i : Nat) :
    coveredBy l1 i = coveredBy l2 i := by
  apply bool_eq_of_iff
  rw [coveredBy_iff, coveredBy_iff]
  constructor
  · rintro ⟨g, hg, hp⟩
    exact ⟨g, h.mem_iff.mp hg, hp⟩
  · rintro ⟨g, hg, hp⟩
    exact ⟨g, h.mem_iff.mpr hg, hp⟩

theorem any_eq_of_perm {α : Type} {l1 l2 : List α} (h : l1.Perm l2) (p : α → Bool) :
    l1.any p = l2.any p := by
  apply bool_eq_of_iff
  rw [List.any_eq_true, List.any_eq_true]
  constructor
  · rintro ⟨x, hx, hp⟩
    exact ⟨x, h.mem_iff.mp hx, hp⟩
  · rintro ⟨x, hx, hp⟩
    exact ⟨x, h.mem_iff.mpr hx, hp⟩

/-- The reassembly run: feeding any remaining permutation suffix of the
fragment list into `reassemble` yields `none` on every insert except the
final one, which completes and rebuilds the datagram. -/
theorem runSeq_main (E idD : Nat) (FR : List (List Nat)) (PL : List Nat)
    (gall : ∀ f ∈ FR, GoodFrag E f ∧ header_len f = 5 ∧ identification f = idD)
    (gsorted : List.Pairwise (fun a b => lastOctet a < firstOctet b) FR)
    (gcover : ∀ i, i ≤ E → coveredBy FR i = true)
    (gasm : assembleLoop FR 0 [] = PL)
    (gmf0 : FR.any (fun f => !more_fragments f) = true) :
    ∀ (rest : List (List Nat)), rest ≠ [] →
    ∀ (consumed : List (List Nat)) (entry : Option IncompleteDatagram),
      (consumed ++ rest).Perm FR →
      HoleInv E (consumed.any fun f => !more_fragments f)
        (entry.getD IncompleteDatagram.default) →
      (entry.getD IncompleteDatagram.default).fragments.Perm consumed →
      List.Pairwise (fun a b => firstOctet a < firstOctet b)
        (entry.getD IncompleteDatagram.default).fragments →
      ∃ d, runSeq entry rest =
          (none, List.replicate (rest.length - 1) none ++ [some d]) ∧
        payload d = PL ∧ identification d = idD % 65536 := by
  have gwf : ∀ f ∈ FR, firstOctet f ≤ lastOctet f ∧ lastOctet f ≤ E := by
    intro f hf
    obtain ⟨⟨-, hp1, hp2, hite⟩, -, -⟩ := gall f hf
    have hle := lastOctet_eq f hp1 hp2
    by_cases hmm : more_fragments f = true
    · rw [hmm] at hite
      have hQ : lastOctet f < E := by simpa using hite
      exact ⟨by omega, by omega⟩
    · have hm' : more_fragments f = false := by
        cases hq : more_fragments f
        · rfl
        · exact absurd hq hmm
      rw [hm'] at hite
      have hQ : lastOctet f = E := by simpa using hite
      exact ⟨by omega, by omega⟩
  have gsortF : List.Pairwise (fun a b => firstOctet a < firstOctet b) FR := by
    refine gsorted.imp_of_mem ?_
    intro a b ha hb hab
    have := (gwf a ha).1
    omega
  have gdisj : List.Pairwise (fun a b : List Nat =>
      lastOctet a < firstOctet b ∨ lastOctet b < firstOctet a) FR :=
    gsorted.imp (fun hab => Or.inl hab)
  intro rest
  induction rest with
  | nil =>
    intro hne
    exact absurd rfl hne
  | cons frag rest' ih =>
    intro hne consumed entry hperm hinv hpermc hsortc
    have hfragFR : frag ∈ FR := hperm.mem_iff.mp (by
      rw [List.mem_append]
      exact Or.inr (List.mem_cons_self _ _))
    obtain ⟨hgfrag, hh5frag, hidfrag⟩ := gall frag hfragFR
    have hdisjP : List.Pairwise (fun a b : List Nat =>
        lastOctet a < firstOctet b ∨ lastOctet b < firstOctet a)
        (consumed ++ frag :: rest') := by
      exact (List.Perm.pairwise_iff (fun hxy => Or.symm hxy) hperm).mpr gdisj
    obtain ⟨hpc, hpr, hcross⟩ := List.pairwise_append.mp hdisjP
    have hwff := gwf frag hfragFR
    have hfE : firstOctet frag ≤ E := by omega
    have hf65 : firstOctet frag ≤ 65535 := by
      obtain ⟨⟨-, hp1, hp2, -⟩, -, -⟩ := gall frag hfragFR
      omega
    obtain ⟨hwb, hsort0, hlb0, htdl0, hgood0, hmem0⟩ := hinv
    have hcovc : coveredBy consumed (firstOctet frag) = false := by
      cases hq : coveredBy consumed (firstOctet frag)
      · rfl
      · exfalso
        obtain ⟨g, hgm, hg1, hg2⟩ := (coveredBy_iff _ _).mp hq
        have hdg := hcross g hgm frag (List.mem_cons_self _ _)
        have hgFR : g ∈ FR := hperm.mem_iff.mp (by
          rw [List.mem_append]
          exact Or.inl hgm)
        have := (gwf g hgFR).1
        rcases hdg with hd | hd
        · omega
        · omega
    have hcov0 : coveredBy (entry.getD IncompleteDatagram.default).fragments
        (firstOctet frag) = false := by
      rw [coveredBy_perm hpermc]
      exact hcovc
    have hinH : inHoles (entry.getD IncompleteDatagram.default).holes
        (firstOctet frag) = true := by
      have hb' : firstOctet frag ≤
          (if (consumed.any fun f => !more_fragments f) = true then E else 65535) := by
        by_cases hcA : (consumed.any fun f => !more_fragments f) = true
        · rw [if_pos hcA]
          exact hfE
        · rw [if_neg hcA]
          exact hf65
      have hmq := hmem0 (firstOctet frag) hb'
      rw [hcov0] at hmq
      rw [hmq]
      rfl
    have hacc : (entry.getD IncompleteDatagram.default).holes.any
        (fun h => holeIntersects (firstOctet frag) (lastOctet frag) h) = true := by
      obtain ⟨h, hh, hh1, hh2⟩ := (inHoles_iff _ _).mp hinH
      rw [List.any_eq_true]
      refine ⟨h, hh, ?_⟩
      rw [holeIntersects, Bool.and_eq_true, decide_eq_true_eq, decide_eq_true_eq]
      exact ⟨by omega, by omega⟩
    have hinv' := insert_inv E (entry.getD IncompleteDatagram.default)
      (consumed.any fun f => !more_fragments f) frag hgfrag
      ⟨hwb, hsort0, hlb0, htdl0, hgood0, hmem0⟩
    have hfr' := insert_fragments_eq (entry.getD IncompleteDatagram.default) frag
    rw [if_pos hacc] at hfr'
    have hperm' : ((entry.getD IncompleteDatagram.default).insert frag).fragments.Perm
        (consumed ++ [frag]) := by
      rw [hfr']
      refine (storedInsert_perm _ _).trans ?_
      refine (List.Perm.cons frag hpermc).trans ?_
      exact (List.perm_append_singleton frag consumed).symm
    have hsort' : List.Pairwise (fun a b => firstOctet a < firstOctet b)
        ((entry.getD IncompleteDatagram.default).insert frag).fragments := by
      rw [hfr']
      refine storedInsert_sorted _ _ hsortc ?_
      intro g hgm
      have hgc : g ∈ consumed := hpermc.mem_iff.mp hgm
      have hdg := hcross g hgc frag (List.mem_cons_self _ _)
      have hgFR : g ∈ FR := hperm.mem_iff.mp (by
        rw [List.mem_append]
        exact Or.inl hgc)
      have := (gwf g hgFR).1
      rcases hdg with hd | hd
      · omega
      · omega
    have harr2 : (consumed ++ [frag]).any (fun f => !more_fragments f) =
        ((consumed.any fun f => !more_fragments f) || !more_fragments frag) := by
      rw [List.any_append, List.any_cons, List.any_nil, Bool.or_false]
    cases rest' with
    | nil =>
      have hpermF : ((entry.getD IncompleteDatagram.default).insert frag).fragments.Perm
          FR := hperm'.trans hperm
      have harrT : ((consumed.any fun f => !more_fragments f) ||
          !more_fragments frag) = true := by
        rw [← harr2, any_eq_of_perm hperm]
        exact gmf0
      rw [harrT] at hinv'
      obtain ⟨hwb', hsort2, hlb', htdl', hgood', hmem'⟩ := hinv'
      have htdlE : ((entry.getD IncompleteDatagram.default).insert frag).total_data_len
          = E + 1 := by
        rw [htdl']
        rfl
      have hnilH : ((entry.getD IncompleteDatagram.default).insert frag).holes = [] := by
        cases hH : ((entry.getD IncompleteDatagram.default).insert frag).holes with
        | nil => rfl
        | cons h t =>
          exfalso
          have hhm : h ∈ ((entry.getD IncompleteDatagram.default).insert frag).holes := by
            rw [hH]
            exact List.mem_cons_self _ _
          have hhwf := hwb' h hhm
          have hhb : h.last ≤ E := by simpa using hhwf.2
          have hinh : inHoles ((entry.getD IncompleteDatagram.default).insert
              frag).holes h.first = true := by
            rw [inHoles_iff]
            exact ⟨h, hhm, le_refl _, hhwf.1⟩
          have hmq := hmem' h.first (by simpa using (by omega : h.first ≤ E))
          rw [hinh] at hmq
          have hcv : coveredBy ((entry.getD IncompleteDatagram.default).insert
              frag).fragments h.first = true := by
            rw [coveredBy_perm hpermF]
            exact gcover h.first (by omega)
          rw [hcv] at hmq
          exact absurd hmq (by simp)
      haveI hanti : IsAntisymm (List Nat) (fun a b => firstOctet a < firstOctet b) :=
        ⟨fun a b h1 h2 => absurd h2 (by omega)⟩
      have hstF : ((entry.getD IncompleteDatagram.default).insert frag).fragments =
          FR := List.eq_of_perm_of_sorted hpermF hsort' gsortF
      have hFRne : FR ≠ [] := by
        intro h0
        rw [h0] at hfragFR
        exact absurd hfragFR (List.not_mem_nil frag)
      obtain ⟨f0, FR', hFR0⟩ : ∃ f0 FR', FR = f0 :: FR' := by
        cases hq : FR with
        | nil => exact absurd hq hFRne
        | cons a t => exact ⟨a, t, rfl⟩
      obtain ⟨-, h5f0, hidf0⟩ := gall f0 (by
        rw [hFR0]
        exact List.mem_cons_self _ _)
      have hhead : FR.head? = some f0 := by
        rw [hFR0]
        rfl
      have hcomp : ((entry.getD IncompleteDatagram.default).insert frag).complete =
          some (build_vec
            { header_len := header_len f0
              tos := tos f0
              total_len := (header_len f0 * 4 + (E + 1)) % 2 ^ 16
              identification := identification f0
              flags := flagsOf f0 &&& 0xfe
              offset := 0
              ttl := ttl f0
              protocol := Protocol.ofByte (protocolByte f0)
              src_addr := src_addr f0
              dest_addr := dest_addr f0
              payload := assembleLoop FR 0 [] }) := by
        rw [IncompleteDatagram.complete, hnilH, hstF, htdlE, hhead]
        rw [if_neg (by simp)]
      refine ⟨build_vec
        { header_len := header_len f0
          tos := tos f0
          total_len := (header_len f0 * 4 + (E + 1)) % 2 ^ 16
          identification := identification f0
          flags := flagsOf f0 &&& 0xfe
          offset := 0
          ttl := ttl f0
          protocol := Protocol.ofByte (protocolByte f0)
          src_addr := src_addr f0
          dest_addr := dest_addr f0
          payload := assembleLoop FR 0 [] }, ?_, ?_, ?_⟩
      · have hstep : reassembleStep entry frag =
            (none, some (build_vec
              { header_len := header_len f0
                tos := tos f0
                total_len := (header_len f0 * 4 + (E + 1)) % 2 ^ 16
                identification := identification f0
                flags := flagsOf f0 &&& 0xfe
                offset := 0
                ttl := ttl f0
                protocol := Protocol.ofByte (protocolByte f0)
                src_addr := src_addr f0
                dest_addr := dest_addr f0
                payload := assembleLoop FR 0 [] })) := by
          rw [reassembleStep]
          rw [hcomp]
        rw [runSeq, hstep]
        rfl
      · rw [payload_build _ (by
            show (5 : Nat) ≤ header_len f0
            omega) (by
            show header_len f0 ≤ 15
            omega)]
        exact gasm
      · rw [identification_build _ (by
            show (5 : Nat) ≤ header_len f0
            omega) (by
            show header_len f0 ≤ 15
            omega)]
        show identification f0 % 65536 = idD % 65536
        rw [hidf0]
    | cons g rest2 =>
      have hgFR : g ∈ FR := hperm.mem_iff.mp (by
        rw [List.mem_append]
        exact Or.inr (List.mem_cons_of_mem _ (List.mem_cons_self _ _)))
      have hwfg := gwf g hgFR
      have hg65 : firstOctet g ≤ 65535 := by
        obtain ⟨⟨-, hp1, hp2, -⟩, -, -⟩ := gall g hgFR
        omega
      have huncov : coveredBy ((entry.getD IncompleteDatagram.default).insert
          frag).fragments (firstOctet g) = false := by
        rw [coveredBy_perm hperm']
        cases hq : coveredBy (consumed ++ [frag]) (firstOctet g)
        · rfl
        · exfalso
          obtain ⟨a, ham, ha1, ha2⟩ := (coveredBy_iff _ _).mp hq
          have haFR : a ∈ FR := hperm.mem_iff.mp (by
            rw [List.mem_append] at ham ⊢
            rcases ham with hA | hA
            · exact Or.inl hA
            · rw [List.mem_singleton] at hA
              subst hA
              exact Or.inr (List.mem_cons_self _ _))
          have hwa := (gwf a haFR).1
          have hdag : lastOctet a < firstOctet g ∨ lastOctet g < firstOctet a := by
            rw [List.mem_append] at ham
            rcases ham with hA | hA
            · exact hcross a hA g (List.mem_cons_of_mem _ (List.mem_cons_self _ _))
            · rw [List.mem_singleton] at hA
              subst hA
              exact (List.pairwise_cons.mp hpr).1 g (List.mem_cons_self _ _)
          rcases hdag with hd | hd
          · omega
          · omega
      have hmem' := hinv'.2.2.2.2.2
      have hinh' : inHoles ((entry.getD IncompleteDatagram.default).insert
          frag).holes (firstOctet g) = true := by
        have hb' : firstOctet g ≤
            (if ((consumed.any fun f => !more_fragments f) ||
              !more_fragments frag) = true then E else 65535) := by
          by_cases hcA : ((consumed.any fun f => !more_fragments f) ||
              !more_fragments frag) = true
          · rw [if_pos hcA]
            omega
          · rw [if_neg hcA]
            exact hg65
        have hmq := hmem' (firstOctet g) hb'
        rw [huncov] at hmq
        rw [hmq]
        rfl
      have hne' : ((entry.getD IncompleteDatagram.default).insert frag).holes ≠ [] := by
        intro h0
        rw [h0] at hinh'
        exact absurd hinh' (by simp [inHoles])
      have hcompn : ((entry.getD IncompleteDatagram.default).insert frag).complete =
          none := by
        rw [IncompleteDatagram.complete, if_pos hne']
      have hstep : reassembleStep entry frag =
          (some ((entry.getD IncompleteDatagram.default).insert frag), none) := by
        rw [reassembleStep]
        rw [hcompn]
      have hihres := ih (List.cons_ne_nil g rest2) (consumed ++ [frag])
        (some ((entry.getD IncompleteDatagram.default).insert frag))
        (by
          rw [List.append_assoc]
          exact hperm)
        (by
          rw [harr2]
          exact hinv')
        hperm' hsort'
      obtain ⟨d, hrun', hpay', hid'⟩ := hihres
      refine ⟨d, ?_, hpay', hid'⟩
      rw [runSeq, hstep]
      dsimp only
      rw [hrun']
      simp [List.replicate_succ]

theorem insert_holes_eq (st : IncompleteDatagram) (frag : List Nat) :
    (st.insert frag).holes =
      st.holes.flatMap (splitOrKeep (firstOctet frag) (lastOctet frag)
        (more_fragments frag)) := by
  rw [insert_eq, fillLoop_spec _ _ _ _ _ _ (List.countP_le_length _)]

theorem le_bound_of_le (x E : Nat) (b : Bool) (h1 : x ≤ E) (h2 : x ≤ 65535) :
    x ≤ (if b = true then E else 65535) := by
  by_cases hb : b = true
  · rw [if_pos hb]
    exact h1
  · rw [if_neg hb]
    exact h2

/-- The reassembly run with re-feeds: feeding any sequence of fragments
drawn from the fragment list — duplicates and overlapping re-feeds
included — never produces a datagram other than the rebuilt one, and as
soon as the sequence has supplied every fragment, the rebuilt datagram is
produced.  A duplicate fragment's span is already covered, so it
intersects no hole, is discarded, and leaves the state unchanged. -/
theorem runSeq_refeed (E idD : Nat) (FR : List (List Nat)) (f0 : List Nat)
    (FR' : List (List Nat)) (d : List Nat) (hFR0 : FR = f0 :: FR')
    (hd : d = build_vec
      { header_len := header_len f0
        tos := tos f0
        total_len := (header_len f0 * 4 + (E + 1)) % 2 ^ 16
        identification := identification f0
        flags := flagsOf f0 &&& 0xfe
        offset := 0
        ttl := ttl f0
        protocol := Protocol.ofByte (protocolByte f0)
        src_addr := src_addr f0
        dest_addr := dest_addr f0
        payload := assembleLoop FR 0 [] })
    (gall : ∀ f ∈ FR, GoodFrag E f ∧ header_len f = 5 ∧ identification f = idD)
    (gsorted : List.Pairwise (fun a b => lastOctet a < firstOctet b) FR)
    (gcover : ∀ i, i ≤ E → coveredBy FR i = true)
    (gmf0 : FR.any (fun f => !more_fragments f) = true) :
    ∀ (S : List (List Nat)) (entry : Option IncompleteDatagram),
      (∀ f ∈ S, f ∈ FR) →
      HoleInv E ((entry.getD IncompleteDatagram.default).fragments.any
        fun f => !more_fragments f) (entry.getD IncompleteDatagram.default) →
      List.Pairwise (fun a b => firstOctet a < firstOctet b)
        (entry.getD IncompleteDatagram.default).fragments →
      (∀ g ∈ (entry.getD IncompleteDatagram.default).fragments, g ∈ FR) →
      (∃ f ∈ FR, f ∉ (entry.getD IncompleteDatagram.default).fragments) →
      (∀ o ∈ (runSeq entry S).2, o = none ∨ o = some d) ∧
      ((∀ f ∈ FR, f ∈ (entry.getD IncompleteDatagram.default).fragments ∨ f ∈ S) →
        some d ∈ (runSeq entry S).2) := by
  have gwf : ∀ f ∈ FR, firstOctet f ≤ lastOctet f ∧ lastOctet f ≤ E := by
    intro f hf
    obtain ⟨⟨-, hp1, hp2, hite⟩, -, -⟩ := gall f hf
    have hle := lastOctet_eq f hp1 hp2
    by_cases hmm : more_fragments f = true
    · rw [hmm] at hite
      have hQ : lastOctet f < E := by simpa using hite
      exact ⟨by omega, by omega⟩
    · have hm' : more_fragments f = false := by
        cases hq : more_fragments f
        · rfl
        · exact absurd hq hmm
      rw [hm'] at hite
      have hQ : lastOctet f = E := by simpa using hite
      exact ⟨by omega, by omega⟩
  have g65 : ∀ f ∈ FR, lastOctet f ≤ 65534 := by
    intro f hf
    obtain ⟨⟨-, hp1, hp2, -⟩, -, -⟩ := gall f hf
    have := lastOctet_eq f hp1 hp2
    omega
  have gsortF : List.Pairwise (fun a b => firstOctet a < firstOctet b) FR := by
    refine gsorted.imp_of_mem ?_
    intro a b ha hb hab
    have := (gwf a ha).1
    omega
  have gdisjF : ∀ a ∈ FR, ∀ b ∈ FR, a ≠ b →
      (lastOctet a < firstOctet b ∨ lastOctet b < firstOctet a) := by
    intro a ha b hb hab
    exact List.Pairwise.forall (fun a b hxy => Or.symm hxy)
      (gsorted.imp (fun h => Or.inl h)) ha hb hab
  haveI hanti : IsAntisymm (List Nat) (fun a b => firstOctet a < firstOctet b) :=
    ⟨fun a b h1 h2 => absurd h2 (by omega)⟩
  have hNodupFR : FR.Nodup := by
    refine List.Pairwise.imp ?_ gsortF
    intro a b hab he
    rw [he] at hab
    omega
  have hcomplete_eq : ∀ st : IncompleteDatagram, st.fragments = FR →
      st.total_data_len = E + 1 → st.holes = [] → st.complete = some d := by
    intro st hsf hstd hsh
    have hhead : FR.head? = some f0 := by
      rw [hFR0]
      rfl
    rw [IncompleteDatagram.complete, hsh, hsf, hstd, hhead, hd]
    rw [if_neg (by simp)]
  intro S
  induction S with
  | nil =>
    intro entry hsub hinv hsortc hstoFR hproper
    constructor
    · intro o ho
      have hout : (runSeq entry ([] : List (List Nat))).2 = [] := rfl
      rw [hout] at ho
      exact absurd ho (List.not_mem_nil o)
    · intro hfull
      obtain ⟨f, hfFR, hfno⟩ := hproper
      rcases hfull f hfFR with hin | hin
      · exact absurd hin hfno
      · exact absurd hin (List.not_mem_nil f)
  | cons f S' ih =>
    intro entry hsub hinv hsortc hstoFR hproper
    have hfFR : f ∈ FR := hsub f (List.mem_cons_self _ _)
    have hsub' : ∀ x ∈ S', x ∈ FR := fun x hx => hsub x (List.mem_cons_of_mem f hx)
    obtain ⟨hgf, hh5f, hidf⟩ := gall f hfFR
    have hwff := gwf f hfFR
    have hl65f := g65 f hfFR
    obtain ⟨hwb, hsort0, hlb0, htdl0, hgood0, hmem0⟩ := hinv
    have huncovGen : ∀ g, g ∈ FR →
        g ∉ (entry.getD IncompleteDatagram.default).fragments →
        coveredBy (entry.getD IncompleteDatagram.default).fragments
          (firstOctet g) = false := by
      intro g hgFR hgno
      cases hq : coveredBy (entry.getD IncompleteDatagram.default).fragments
          (firstOctet g)
      · rfl
      · exfalso
        obtain ⟨a, ham, ha1, ha2⟩ := (coveredBy_iff _ _).mp hq
        have haFR := hstoFR a ham
        have hane : a ≠ g := by
          intro he
          rw [he] at ham
          exact hgno ham
        have hwa := (gwf a haFR).1
        have hwg := (gwf g hgFR).1
        rcases gdisjF a haFR g hgFR hane with hdq | hdq
        · omega
        · omega
    by_cases hdup : f ∈ (entry.getD IncompleteDatagram.default).fragments
    · -- duplicate re-feed: every hole misses the covered span, so the
      -- fragment is discarded and the state is unchanged
      have hnint : ∀ h ∈ (entry.getD IncompleteDatagram.default).holes,
          holeIntersects (firstOctet f) (lastOctet f) h = false := by
        intro h hh
        cases hq : holeIntersects (firstOctet f) (lastOctet f) h
        · rfl
        · exfalso
          have hq' := hq
          rw [holeIntersects, Bool.and_eq_true, decide_eq_true_eq,
            decide_eq_true_eq] at hq'
          obtain ⟨hq1, hq2⟩ := hq'
          have hhwf := hwb h hh
          by_cases hcmp : firstOctet f ≤ h.first
          · have hpcov : coveredBy
                (entry.getD IncompleteDatagram.default).fragments h.first = true :=
              (coveredBy_iff _ _).mpr ⟨f, hdup, hcmp, hq2⟩
            have hmq := hmem0 h.first
              (le_bound_of_le _ _ _ (by omega) (by omega))
            rw [hpcov] at hmq
            have hinh : inHoles (entry.getD IncompleteDatagram.default).holes
                h.first = true := by
              rw [inHoles_iff]
              exact ⟨h, hh, le_refl _, hhwf.1⟩
            rw [hinh] at hmq
            exact absurd hmq (by simp)
          · have hpcov : coveredBy
                (entry.getD IncompleteDatagram.default).fragments
                (firstOctet f) = true :=
              (coveredBy_iff _ _).mpr ⟨f, hdup, le_refl _, by omega⟩
            have hmq := hmem0 (firstOctet f)
              (le_bound_of_le _ _ _ (by omega) (by omega))
            rw [hpcov] at hmq
            have hinh : inHoles (entry.getD IncompleteDatagram.default).holes
                (firstOctet f) = true := by
              rw [inHoles_iff]
              exact ⟨h, hh, by omega, by omega⟩
            rw [hinh] at hmq
            exact absurd hmq (by simp)
      have haccF : ((entry.getD IncompleteDatagram.default).holes.any
          fun h => holeIntersects (firstOctet f) (lastOctet f) h) = false := by
        rw [List.any_eq_false]
        intro h hh
        simp [hnint h hh]
      have hSTeq : (entry.getD IncompleteDatagram.default).insert f =
          entry.getD IncompleteDatagram.default := by
        have e1 : ((entry.getD IncompleteDatagram.default).insert f).holes =
            (entry.getD IncompleteDatagram.default).holes := by
          rw [insert_holes_eq, flatMap_splitOrKeep_of_none _ _ _ _ hnint]
        have e2 : ((entry.getD IncompleteDatagram.default).insert f).fragments =
            (entry.getD IncompleteDatagram.default).fragments := by
          rw [insert_fragments_eq, if_neg (by rw [haccF]; simp)]
        have e3 : ((entry.getD IncompleteDatagram.default).insert f).total_data_len =
            (entry.getD IncompleteDatagram.default).total_data_len := by
          have htd2 : ((entry.getD IncompleteDatagram.default).insert
              f).total_data_len =
              (if ¬more_fragments f = true then
                (total_len f + 2 ^ 16 - header_len f * 4 % 2 ^ 16 + firstOctet f)
                  % 2 ^ 16
              else (entry.getD IncompleteDatagram.default).total_data_len) := by
            rw [insert_eq]
          rw [htd2]
          by_cases hmf : more_fragments f = true
          · rw [if_neg (not_not_intro hmf)]
          · have hmf' : more_fragments f = false := by
              cases hq : more_fragments f
              · rfl
              · exact absurd hq hmf
            rw [if_pos (by rw [hmf']; simp), insert_tdl_eq E f hgf hmf', htdl0]
            have hanyT : ((entry.getD IncompleteDatagram.default).fragments.any
                fun x => !more_fragments x) = true := by
              rw [List.any_eq_true]
              refine ⟨f, hdup, ?_⟩
              rw [hmf']
              rfl
            rw [hanyT]
            rfl
        calc (entry.getD IncompleteDatagram.default).insert f =
            ⟨((entry.getD IncompleteDatagram.default).insert f).holes,
              ((entry.getD IncompleteDatagram.default).insert f).fragments,
              ((entry.getD IncompleteDatagram.default).insert f).total_data_len⟩ :=
              rfl
          _ = ⟨(entry.getD IncompleteDatagram.default).holes,
              (entry.getD IncompleteDatagram.default).fragments,
              (entry.getD IncompleteDatagram.default).total_data_len⟩ := by
              rw [e1, e2, e3]
          _ = entry.getD IncompleteDatagram.default := rfl
      obtain ⟨gm, hgmFR, hgmno⟩ := hproper
      have hcovm := huncovGen gm hgmFR hgmno
      have hwfm := gwf gm hgmFR
      have hm65 := g65 gm hgmFR
      have hinhm : inHoles (entry.getD IncompleteDatagram.default).holes
          (firstOctet gm) = true := by
        have hmq := hmem0 (firstOctet gm)
          (le_bound_of_le _ _ _ (by omega) (by omega))
        rw [hcovm] at hmq
        rw [hmq]
        rfl
      have hneH : (entry.getD IncompleteDatagram.default).holes ≠ [] := by
        intro h0
        rw [h0] at hinhm
        exact absurd hinhm (by simp [inHoles])
      have hcompn : ((entry.getD IncompleteDatagram.default).insert f).complete =
          none := by
        rw [hSTeq, IncompleteDatagram.complete, if_pos hneH]
      have hstep : reassembleStep entry f =
          (some ((entry.getD IncompleteDatagram.default).insert f), none) := by
        rw [reassembleStep, hcompn]
      have houts : runSeq entry (f :: S') =
          ((runSeq (some ((entry.getD IncompleteDatagram.default).insert f)) S').1,
            none ::
              (runSeq (some ((entry.getD IncompleteDatagram.default).insert f))
                S').2) := by
        rw [runSeq, hstep]
      have hih := ih (some ((entry.getD IncompleteDatagram.default).insert f)) hsub'
        (by
          show HoleInv E (((entry.getD IncompleteDatagram.default).insert
            f).fragments.any fun x => !more_fragments x)
            ((entry.getD IncompleteDatagram.default).insert f)
          rw [hSTeq]
          exact ⟨hwb, hsort0, hlb0, htdl0, hgood0, hmem0⟩)
        (by
          show List.Pairwise (fun a b => firstOctet a < firstOctet b)
            ((entry.getD IncompleteDatagram.default).insert f).fragments
          rw [hSTeq]
          exact hsortc)
        (by
          intro g hg
          rw [hSTeq] at hg
          exact hstoFR g hg)
        ⟨gm, hgmFR, by
          show gm ∉ ((entry.getD IncompleteDatagram.default).insert f).fragments
          rw [hSTeq]
          exact hgmno⟩
      constructor
      · intro o ho
        rw [houts] at ho
        rcases List.mem_cons.mp ho with rfl | ho2
        · exact Or.inl rfl
        · exact hih.1 o ho2
      · intro hfull
        have hfull' : ∀ x ∈ FR,
            x ∈ ((some ((entry.getD IncompleteDatagram.default).insert f)).getD
              IncompleteDatagram.default).fragments ∨ x ∈ S' := by
          intro x hx
          rcases hfull x hx with hin | hin
          · left
            show x ∈ ((entry.getD IncompleteDatagram.default).insert f).fragments
            rw [hSTeq]
            exact hin
          · rcases List.mem_cons.mp hin with hxe | hin2
            · left
              show x ∈ ((entry.getD IncompleteDatagram.default).insert f).fragments
              rw [hSTeq, hxe]
              exact hdup
            · right
              exact hin2
        have hmem2 := hih.2 hfull'
        rw [houts]
        exact List.mem_cons_of_mem none hmem2
    · -- a fragment not stored yet: it is accepted, as in the duplicate-free run
      have hcovF := huncovGen f hfFR hdup
      have hinH : inHoles (entry.getD IncompleteDatagram.default).holes
          (firstOctet f) = true := by
        have hmq := hmem0 (firstOctet f)
          (le_bound_of_le _ _ _ (by omega) (by omega))
        rw [hcovF] at hmq
        rw [hmq]
        rfl
      have hacc : ((entry.getD IncompleteDatagram.default).holes.any
          fun h => holeIntersects (firstOctet f) (lastOctet f) h) = true := by
        obtain ⟨h, hh, hh1, hh2⟩ := (inHoles_iff _ _).mp hinH
        rw [List.any_eq_true]
        refine ⟨h, hh, ?_⟩
        rw [holeIntersects, Bool.and_eq_true, decide_eq_true_eq, decide_eq_true_eq]
        exact ⟨by omega, by omega⟩
      have hinv' := insert_inv E (entry.getD IncompleteDatagram.default)
        ((entry.getD IncompleteDatagram.default).fragments.any
          fun x => !more_fragments x) f hgf
        ⟨hwb, hsort0, hlb0, htdl0, hgood0, hmem0⟩
      have hfr' := insert_fragments_eq (entry.getD IncompleteDatagram.default) f
      rw [if_pos hacc] at hfr'
      have hstoPerm : ((entry.getD IncompleteDatagram.default).insert
          f).fragments.Perm (f :: (entry.getD IncompleteDatagram.default).fragments) := by
        rw [hfr']
        exact storedInsert_perm _ _
      have hanyEq : (((entry.getD IncompleteDatagram.default).insert f).fragments.any
          fun x => !more_fragments x) =
          (((entry.getD IncompleteDatagram.default).fragments.any
            fun x => !more_fragments x) || !more_fragments f) := by
        rw [any_eq_of_perm hstoPerm, List.any_cons, Bool.or_comm]
      have hinv2 : HoleInv E (((entry.getD IncompleteDatagram.default).insert
          f).fragments.any fun x => !more_fragments x)
          ((entry.getD IncompleteDatagram.default).insert f) := by
        rw [hanyEq]
        exact hinv'
      have hsort' : List.Pairwise (fun a b => firstOctet a < firstOctet b)
          ((entry.getD IncompleteDatagram.default).insert f).fragments := by
        rw [hfr']
        refine storedInsert_sorted _ _ hsortc ?_
        intro g hgm
        have hgFR := hstoFR g hgm
        have hane : g ≠ f := by
          intro he
          rw [he] at hgm
          exact hdup hgm
        have := (gwf g hgFR).1
        rcases gdisjF g hgFR f hfFR hane with hdq | hdq
        · omega
        · omega
      have hstoFR' : ∀ g ∈ ((entry.getD IncompleteDatagram.default).insert
          f).fragments, g ∈ FR := by
        intro g hgm
        rw [hfr'] at hgm
        rcases (storedInsert_mem _ _ _).mp hgm with rfl | h2
        · exact hfFR
        · exact hstoFR g h2
      by_cases hfull2 : ∀ g ∈ FR,
          g ∈ ((entry.getD IncompleteDatagram.default).insert f).fragments
      · -- this insert fills the last hole and completes
        have hNodup' : ((entry.getD IncompleteDatagram.default).insert
            f).fragments.Nodup := by
          refine List.Pairwise.imp ?_ hsort'
          intro a b hab he
          rw [he] at hab
          omega
        have hpermF : ((entry.getD IncompleteDatagram.default).insert
            f).fragments.Perm FR := by
          rw [List.perm_ext_iff_of_nodup hNodup' hNodupFR]
          intro a
          exact ⟨fun h => hstoFR' a h, fun h => hfull2 a h⟩
        have hstF : ((entry.getD IncompleteDatagram.default).insert f).fragments =
            FR := List.eq_of_perm_of_sorted hpermF hsort' gsortF
        have harrT : (((entry.getD IncompleteDatagram.default).insert
            f).fragments.any fun x => !more_fragments x) = true := by
          rw [hstF]
          exact gmf0
        have hinv3 := hinv2
        rw [harrT] at hinv3
        obtain ⟨hwb', -, -, htdl', -, hmem'⟩ := hinv3
        have htdlE : ((entry.getD IncompleteDatagram.default).insert
            f).total_data_len = E + 1 := by
          rw [htdl']
          rfl
        have hnilH : ((entry.getD IncompleteDatagram.default).insert f).holes =
            [] := by
          cases hH : ((entry.getD IncompleteDatagram.default).insert f).holes with
          | nil => rfl
          | cons h t =>
            exfalso
            have hhm : h ∈ ((entry.getD IncompleteDatagram.default).insert
                f).holes := by
              rw [hH]
              exact List.mem_cons_self _ _
            have hhwf := hwb' h hhm
            have hhb : h.last ≤ E := by simpa using hhwf.2
            have hinh : inHoles ((entry.getD IncompleteDatagram.default).insert
                f).holes h.first = true := by
              rw [inHoles_iff]
              exact ⟨h, hhm, le_refl _, hhwf.1⟩
            have hmq := hmem' h.first (by simpa using (by omega : h.first ≤ E))
            rw [hinh] at hmq
            have hcv : coveredBy ((entry.getD IncompleteDatagram.default).insert
                f).fragments h.first = true := by
              rw [hstF]
              exact gcover h.first (by omega)
            rw [hcv] at hmq
            exact absurd hmq (by simp)
        have hcomp : ((entry.getD IncompleteDatagram.default).insert f).complete =
            some d := hcomplete_eq _ hstF htdlE hnilH
        have hstep : reassembleStep entry f = (none, some d) := by
          rw [reassembleStep, hcomp]
        have houts : runSeq entry (f :: S') =
            ((runSeq none S').1, some d :: (runSeq none S').2) := by
          rw [runSeq, hstep]
        have hih := ih none hsub' (holeInv_default E) List.Pairwise.nil
          (fun g hg => absurd hg (List.not_mem_nil g))
          ⟨f, hfFR, List.not_mem_nil f⟩
        constructor
        · intro o ho
          rw [houts] at ho
          rcases List.mem_cons.mp ho with rfl | ho2
          · exact Or.inr rfl
          · exact hih.1 o ho2
        · intro hfull
          rw [houts]
          exact List.mem_cons_self _ _
      · -- some fragment is still missing: no completion yet
        push_neg at hfull2
        obtain ⟨gm, hgmFR, hgmno⟩ := hfull2
        have hcovm' : coveredBy ((entry.getD IncompleteDatagram.default).insert
            f).fragments (firstOctet gm) = false := by
          cases hq : coveredBy ((entry.getD IncompleteDatagram.default).insert
              f).fragments (firstOctet gm)
          · rfl
          · exfalso
            obtain ⟨a, ham, ha1, ha2⟩ := (coveredBy_iff _ _).mp hq
            have haFR := hstoFR' a ham
            have hane : a ≠ gm := by
              intro he
              rw [he] at ham
              exact hgmno ham
            have hwa := (gwf a haFR).1
            have hwm := (gwf gm hgmFR).1
            rcases gdisjF a haFR gm hgmFR hane with hdq | hdq
            · omega
            · omega
        have hmem2 := hinv2.2.2.2.2.2
        have hwfm := gwf gm hgmFR
        have hm65 := g65 gm hgmFR
        have hinh' : inHoles ((entry.getD IncompleteDatagram.default).insert
            f).holes (firstOctet gm) = true := by
          have hmq := hmem2 (firstOctet gm)
            (le_bound_of_le _ _ _ (by omega) (by omega))
          rw [hcovm'] at hmq
          rw [hmq]
          rfl
        have hneH' : ((entry.getD IncompleteDatagram.default).insert f).holes ≠
            [] := by
          intro h0
          rw [h0] at hinh'
          exact absurd hinh' (by simp [inHoles])
        have hcompn : ((entry.getD IncompleteDatagram.default).insert f).complete =
            none := by
          rw [IncompleteDatagram.complete, if_pos hneH']
        have hstep : reassembleStep entry f =
            (some ((entry.getD IncompleteDatagram.default).insert f), none) := by
          rw [reassembleStep, hcompn]
        have houts : runSeq entry (f :: S') =
            ((runSeq (some ((entry.getD IncompleteDatagram.default).insert f))
                S').1,
              none ::
                (runSeq (some ((entry.getD IncompleteDatagram.default).insert f))
                  S').2) := by
          rw [runSeq, hstep]
        have hih := ih (some ((entry.getD IncompleteDatagram.default).insert f))
          hsub' hinv2 hsort' hstoFR' ⟨gm, hgmFR, hgmno⟩
        constructor
        · intro o ho
          rw [houts] at ho
          rcases List.mem_cons.mp ho with rfl | ho2
          · exact Or.inl rfl
          · exact hih.1 o ho2
        · intro hfull
          have hfull' : ∀ x ∈ FR,
              x ∈ ((some ((entry.getD IncompleteDatagram.default).insert
                f)).getD IncompleteDatagram.default).fragments ∨ x ∈ S' := by
            intro x hx
            rcases hfull x hx with hin | hin
            · left
              show x ∈ ((entry.getD IncompleteDatagram.default).insert f).fragments
              rw [hfr']
              exact (storedInsert_mem _ _ _).mpr (Or.inr hin)
            · rcases List.mem_cons.mp hin with hxe | hin2
              · left
                show x ∈ ((entry.getD IncompleteDatagram.default).insert
                  f).fragments
                rw [hfr', hxe]
                exact (storedInsert_mem _ _ _).mpr (Or.inl rfl)
              · right
                exact hin2
          have hmem3 := hih.2 hfull'
          rw [houts]
          exact List.mem_cons_of_mem none hmem3

/-- **C1 counterexample.**  The datagram built from `c2cfg48` (48-byte
payload, DF clear) fragmented at MTU 68 hits the `is_last` boundary bug:
its single fragment keeps MF set, so feeding the complete fragment list
(the identity permutation of `fragments`) into the reassembler never
returns a datagram — the run yields `[none]` instead of the reassembled
datagram the claim promises on the insert that fills the last hole. -/
theorem c1_counterexample :
    more_fragments (build_vec c2cfg48) = false ∧
    dont_fragment (build_vec c2cfg48) = false ∧
    (fragments (build_vec c2cfg48) 68).length = 1 ∧
    (runSeq none (fragments (build_vec c2cfg48) 68)).2 = [none] := by decide

/-- **C1 (amended).**  For every valid complete datagram D (IHL ≥ 5,
nonempty payload, total length = buffer length, MF clear, offset 0) and
MTU ≥ 68 such that the fragmenter's boundary bug is not hit (the payload
is not an exact positive multiple of `mtu - 20` with `mtu - 20` divisible
by 8): for every sequence S of fragments drawn from
`Packet::fragments(mtu)` that supplies every fragment at least once —
duplicate and overlapping re-feeds permitted anywhere — feeding S into
`Reassembler::reassemble` produces a datagram d whose payload equals D's
payload and whose identification equals D's identification; every
datagram the run ever returns is that same d (re-feeding duplicate or
overlapping fragments does not change the reassembled result); and when S
is an exact permutation of the fragment list, every insert returns `none`
except the last — the insert that fills the last hole — which returns
`some d`. -/
theorem c1_reassembly (D : List Nat) (mtu : Nat) (S : List (List Nat))
    (hb : ∀ b ∈ D, b < 256) (hH5 : 5 ≤ header_len D)
    (hHlt : header_len D * 4 < D.length) (htl : total_len D = D.length)
    (hmf : more_fragments D = false) (hoff : offsetOf D = 0) (hmtu : 68 ≤ mtu)
    (hbd : ¬((mtu - 20) / 8 * 8 = mtu - 20 ∧
      ((mtu - 20) / 8 * 8) ∣ (D.length - header_len D * 4)))
    (hsub : ∀ f ∈ S, f ∈ fragments D mtu)
    (hall : ∀ f ∈ fragments D mtu, f ∈ S) :
    ∃ d, payload d = payload D ∧ identification d = identification D ∧
      some d ∈ (runSeq none S).2 ∧
      (∀ o ∈ (runSeq none S).2, o = none ∨ o = some d) ∧
      (S.Perm (fragments D mtu) →
        runSeq none S = (none, List.replicate (S.length - 1) none ++ [some d])) := by
  have hchain := fragments_chain D mtu hb hH5 hHlt htl hmtu hoff hmf hbd
  have hflat := (fragments_facts D mtu hb hH5 (by omega) htl hmtu).1
  have hFRne : fragments D mtu ≠ [] := reasmChain_ne_nil hchain
  obtain ⟨f0, FR', hFR0⟩ : ∃ f0 FR', fragments D mtu = f0 :: FR' := by
    cases hq : fragments D mtu with
    | nil => exact absurd hq hFRne
    | cons a t => exact ⟨a, t, rfl⟩
  have hidlt := identification_lt D hb
  have gall : ∀ f ∈ fragments D mtu,
      GoodFrag (D.length - header_len D * 4 - 1) f ∧
        header_len f = 5 ∧ identification f = identification D := by
    intro f hf
    obtain ⟨k1, k2, k3, -⟩ := reasmChain_mem _ _ _ _ hchain f hf
    exact ⟨k1, k2, k3⟩
  have gsorted := reasmChain_sorted _ _ _ _ hchain
  have gcover : ∀ i, i ≤ D.length - header_len D * 4 - 1 →
      coveredBy (fragments D mtu) i = true :=
    fun i hi => reasmChain_cover _ _ _ _ hchain i (Nat.zero_le i) hi
  have gasm : assembleLoop (fragments D mtu) 0 [] = payload D := by
    rw [reasmChain_assemble _ _ _ _ _ hchain, List.nil_append]
    exact hflat
  have gmf0 := reasmChain_any_mf0 _ _ _ _ hchain
  obtain ⟨-, h5f0, hidf0⟩ := gall f0 (by
    rw [hFR0]
    exact List.mem_cons_self _ _)
  have hrf := runSeq_refeed (D.length - header_len D * 4 - 1) (identification D)
    (fragments D mtu) f0 FR' _ hFR0 rfl gall gsorted gcover gmf0 S none hsub
    (holeInv_default _) List.Pairwise.nil
    (fun g hg => absurd hg (List.not_mem_nil g))
    ⟨f0, by rw [hFR0]; exact List.mem_cons_self _ _, List.not_mem_nil f0⟩
  refine ⟨build_vec
    { header_len := header_len f0
      tos := tos f0
      total_len := (header_len f0 * 4 + (D.length - header_len D * 4 - 1 + 1))
        % 2 ^ 16
      identification := identification f0
      flags := flagsOf f0 &&& 0xfe
      offset := 0
      ttl := ttl f0
      protocol := Protocol.ofByte (protocolByte f0)
      src_addr := src_addr f0
      dest_addr := dest_addr f0
      payload := assembleLoop (fragments D mtu) 0 [] }, ?_, ?_, ?_, ?_, ?_⟩
  · rw [payload_build _ (by
        show (5 : Nat) ≤ header_len f0
        omega) (by
        show header_len f0 ≤ 15
        omega)]
    exact gasm
  · rw [identification_build _ (by
        show (5 : Nat) ≤ header_len f0
        omega) (by
        show header_len f0 ≤ 15
        omega)]
    show identification f0 % 65536 = identification D
    rw [hidf0]
    have hlt : identification D < 65536 := by
      have := hidlt
      omega
    omega
  · exact hrf.2 (fun f hf => Or.inr (hall f hf))
  · exact hrf.1
  · intro hperm
    have hres := runSeq_main (D.length - header_len D * 4 - 1) (identification D)
      (fragments D mtu) (payload D) gall gsorted gcover gasm gmf0 S
      (by
        intro h0
        rw [h0] at hperm
        exact hFRne (List.Perm.eq_nil hperm.symm))
      [] none (by simpa using hperm) (holeInv_default _) List.Perm.nil
      List.Pairwise.nil
    obtain ⟨dq, h1, h2, h3⟩ := hres
    have hmemq : some dq ∈ (runSeq none S).2 := by
      rw [h1]
      show some dq ∈ List.replicate (S.length - 1) none ++ [some dq]
      exact List.mem_append.mpr (Or.inr (List.mem_singleton.mpr rfl))
    rcases hrf.1 (some dq) hmemq with hq | hq
    · exact absurd hq (by simp)
    · have hdd := Option.some.inj hq
      rw [← hdd]
      exact h1

/-- C1 witness: the three MTU-68 fragments of the repository's
100-byte-payload test datagram fed in reverse order — a sequence drawn
from the fragment list that supplies every fragment. -/
theorem c1_reassembly_witness :
    ((∀ f ∈ (fragments (build_vec (defaultCfgWith 0 4097 0 0 64 .Udp 3232295401
        3232295402 (List.range 100))) 68).reverse,
        f ∈ fragments (build_vec (defaultCfgWith 0 4097 0 0 64 .Udp 3232295401
          3232295402 (List.range 100))) 68) ∧
      (∀ f ∈ fragments (build_vec (defaultCfgWith 0 4097 0 0 64 .Udp 3232295401
          3232295402 (List.range 100))) 68,
        f ∈ (fragments (build_vec (defaultCfgWith 0 4097 0 0 64 .Udp 3232295401
          3232295402 (List.range 100))) 68).reverse)) ∧
    ∃ d, payload d = payload (build_vec (defaultCfgWith 0 4097 0 0 64 .Udp
        3232295401 3232295402 (List.range 100))) ∧
      identification d = identification (build_vec (defaultCfgWith 0 4097 0 0 64
        .Udp 3232295401 3232295402 (List.range 100))) ∧
      some d ∈ (runSeq none ((fragments (build_vec (defaultCfgWith 0 4097 0 0 64
        .Udp 3232295401 3232295402 (List.range 100))) 68).reverse)).2 ∧
      (∀ o ∈ (runSeq none ((fragments (build_vec (defaultCfgWith 0 4097 0 0 64
        .Udp 3232295401 3232295402 (List.range 100))) 68).reverse)).2,
        o = none ∨ o = some d) ∧
      (((fragments (build_vec (defaultCfgWith 0 4097 0 0 64 .Udp 3232295401
          3232295402 (List.range 100))) 68).reverse).Perm
          (fragments (build_vec (defaultCfgWith 0 4097 0 0 64 .Udp 3232295401
            3232295402 (List.range 100))) 68) →
        runSeq none ((fragments (build_vec (defaultCfgWith 0 4097 0 0 64 .Udp
            3232295401 3232295402 (List.range 100))) 68).reverse) =
          (none, List.replicate
            (((fragments (build_vec (defaultCfgWith 0 4097 0 0 64 .Udp 3232295401
              3232295402 (List.range 100))) 68).reverse).length - 1) none ++
            [some d])) :=
  ⟨⟨by decide, by decide⟩,
    c1_reassembly _ 68 _ (by decide) (by decide) (by decide) (by decide)
      (by decide) (by decide) (by decide) (by decide) (by decide) (by decide)⟩

end Radish
